import Mathlib

/-!
Verification development for the `forensicstore` / `pyjsonlite` storage engine.

The Python source keeps heterogeneous JSON-like records in a SQLite database:
one table per record type, one column per dotted flat key.  This file gives a
shallow embedding of the record data model (`JVal`), the flatten/unflatten
pair used by `JSONLite._flatten_item` / `JSONLite._row_to_item`, the record
index operations `insert`, `get`, `update` and `all`, the payload writer
`store_file`, the container check `validate_item`, and the registry value
encoding of `ForensicStore.add_registry_value_item`, together with theorems
about them.

The external `flatten_json` library (and the repository's `flatten_monkey`
patch, which is not shipped under `src/`) supply `flatten` / `unflatten_list`;
those two functions are modelled from the specification's flattening rules
(dotted keys, decimal list indices, erasure of nulls and empty containers,
purely numeric segments read back as list indices).
-/

/-- JSON-like record values.  Python `None` is `null`; scalar leaves are
integers and strings (SQLite's storage classes for record fields); `list`
and `obj` are JSON arrays and objects, objects being insertion-ordered
association lists exactly like Python dicts. -/
inductive JVal where
  | null
  | int (n : Int)
  | str (s : String)
  | list (xs : List JVal)
  | obj (fs : List (String × JVal))

namespace JVal

/-- Python `d[k]` / `k in d`: first (unique, for real dicts) binding wins. -/
def objLookup (k : String) : List (String × JVal) → Option JVal
  | [] => none
  | (k', v) :: rest => if k' = k then some v else objLookup k rest

/-- Python `d[k] = v`: update the value in place if the key exists,
otherwise append the new binding at the end (dict insertion order). -/
def objSet (k : String) (v : JVal) : List (String × JVal) → List (String × JVal)
  | [] => [(k, v)]
  | (k', v') :: rest => if k' = k then (k', v) :: rest else (k', v') :: objSet k v rest

/-- Keys of an object, in order. -/
def objKeys (fs : List (String × JVal)) : List String := fs.map Prod.fst

@[simp] theorem objLookup_nil (k : String) : objLookup k [] = none := rfl

theorem objLookup_cons (k k' : String) (v : JVal) (rest : List (String × JVal)) :
    objLookup k ((k', v) :: rest) = if k' = k then some v else objLookup k rest := rfl

@[simp] theorem objSet_nil (k : String) (v : JVal) : objSet k v [] = [(k, v)] := rfl

theorem objSet_cons (k k' : String) (v v' : JVal) (rest : List (String × JVal)) :
    objSet k v ((k', v') :: rest) =
      if k' = k then (k', v) :: rest else (k', v') :: objSet k v rest := rfl

theorem objLookup_objSet_self (k : String) (v : JVal) (fs : List (String × JVal)) :
    objLookup k (objSet k v fs) = some v := by
  induction fs with
  | nil => simp [objSet, objLookup]
  | cons kv rest ih =>
      obtain ⟨k', v'⟩ := kv
      by_cases h : k' = k <;> simp [objSet, objLookup, h, ih]

theorem objLookup_objSet_ne (k k' : String) (v : JVal) (fs : List (String × JVal))
    (h : k' ≠ k) : objLookup k (objSet k' v fs) = objLookup k fs := by
  induction fs with
  | nil => simp [objSet, objLookup, h]
  | cons kv rest ih =>
      obtain ⟨k0, v0⟩ := kv
      by_cases h0 : k0 = k'
      · subst h0
        simp [objSet, objLookup, h]
      · by_cases h1 : k0 = k
        · subst h1
          simp [objSet, objLookup, h0]
        · simp [objSet, objLookup, h0, h1, ih]

theorem objKeys_objSet (k : String) (v : JVal) (fs : List (String × JVal)) :
    objKeys (objSet k v fs) = if k ∈ objKeys fs then objKeys fs else objKeys fs ++ [k] := by
  induction fs with
  | nil => simp [objSet, objKeys]
  | cons kv rest ih =>
      obtain ⟨k0, v0⟩ := kv
      by_cases h0 : k0 = k
      · subst h0
        simp [objSet, objKeys]
      · have hk : ¬ k = k0 := fun hx => h0 hx.symm
        simp only [objSet, if_neg h0, objKeys, List.map_cons] at ih ⊢
        rw [ih]
        by_cases hm : k ∈ List.map Prod.fst rest
        · simp [List.mem_cons, hm, hk]
        · simp [List.mem_cons, hm, hk]

theorem objLookup_eq_some_of_mem {k : String} {v : JVal} {fs : List (String × JVal)}
    (hnd : (objKeys fs).Nodup) (hm : (k, v) ∈ fs) : objLookup k fs = some v := by
  induction fs with
  | nil => simp at hm
  | cons kv rest ih =>
      obtain ⟨k0, v0⟩ := kv
      simp only [objKeys, List.map_cons, List.nodup_cons] at hnd
      rcases List.mem_cons.1 hm with h | h
      · cases h
        simp [objLookup]
      · have hk0 : k0 ≠ k := by
          rintro rfl
          exact hnd.1 (List.mem_map.2 ⟨(k0, v), h, rfl⟩)
        simp [objLookup, hk0, ih hnd.2 h]

theorem mem_of_objLookup_eq_some {k : String} {v : JVal} {fs : List (String × JVal)}
    (h : objLookup k fs = some v) : (k, v) ∈ fs := by
  induction fs with
  | nil => simp [objLookup] at h
  | cons kv rest ih =>
      obtain ⟨k0, v0⟩ := kv
      by_cases h0 : k0 = k
      · subst h0
        rw [objLookup_cons, if_pos rfl] at h
        injection h with h
        subst h
        exact List.mem_cons_self _ _
      · rw [objLookup_cons, if_neg h0] at h
        exact List.mem_cons_of_mem _ (ih h)

theorem objLookup_isSome_iff_mem_objKeys (k : String) (fs : List (String × JVal)) :
    (objLookup k fs).isSome = true ↔ k ∈ objKeys fs := by
  induction fs with
  | nil => simp [objLookup, objKeys]
  | cons kv rest ih =>
      obtain ⟨k0, v0⟩ := kv
      by_cases h0 : k0 = k
      · subst h0
        simp [objLookup, objKeys]
      · have hk : ¬ k = k0 := fun hx => h0 hx.symm
        rw [objLookup_cons, if_neg h0]
        simp only [objKeys, List.map_cons, List.mem_cons]
        rw [ih]
        simp [objKeys, hk]

theorem objLookup_eq_none_iff_not_mem (k : String) (fs : List (String × JVal)) :
    objLookup k fs = none ↔ k ∉ objKeys fs := by
  rw [← objLookup_isSome_iff_mem_objKeys]
  cases objLookup k fs <;> simp

end JVal

/-! ### Decimal rendering of natural numbers

Models Python's `str(i)` / `"%d" % i` for the non-negative integers that occur
as list indices and little-endian registry integers.  Written with explicit
fuel so that it reduces definitionally. -/

/-- Digits of `n`, most significant first; `fuel` bounds the recursion. -/
def natReprAux : Nat → Nat → List Char
  | 0, _ => []
  | fuel + 1, n =>
      if n < 10 then [Nat.digitChar n]
      else natReprAux fuel (n / 10) ++ [Nat.digitChar (n % 10)]

/-- Python `str(n)` for a natural number. -/
def natRepr (n : Nat) : String := String.mk (natReprAux (n + 1) n)

/-- Numeric value of a decimal digit character. -/
def digitVal (c : Char) : Nat := c.toNat - '0'.toNat

/-- Python `int(s)` on a string of decimal digits. -/
def parseDigits (l : List Char) : Nat := l.foldl (fun a c => 10 * a + digitVal c) 0

/-- `int(key)` on flat-key segments, as used when rebuilding lists. -/
def parseKey (s : String) : Nat := parseDigits s.data

/-- A purely numeric flat-key segment: non-empty and all decimal digits. -/
def numericStr (s : String) : Bool := !s.data.isEmpty && s.data.all Char.isDigit

theorem digitVal_digitChar {d : Nat} (h : d < 10) : digitVal (Nat.digitChar d) = d := by
  interval_cases d <;> rfl

theorem isDigit_digitChar {d : Nat} (h : d < 10) : (Nat.digitChar d).isDigit = true := by
  interval_cases d <;> rfl

theorem digitChar_ne_dot {d : Nat} (h : d < 10) : Nat.digitChar d ≠ '.' := by
  interval_cases d <;> decide

theorem parseDigits_append_singleton (l : List Char) (c : Char) :
    parseDigits (l ++ [c]) = 10 * parseDigits l + digitVal c := by
  simp [parseDigits, List.foldl_append]

theorem natReprAux_ne_nil {fuel n : Nat} (h : n < fuel) : natReprAux fuel n ≠ [] := by
  match fuel with
  | 0 => omega
  | fuel + 1 =>
      by_cases h10 : n < 10 <;> simp [natReprAux, h10]

theorem parseDigits_natReprAux {fuel n : Nat} (h : n < fuel) :
    parseDigits (natReprAux fuel n) = n := by
  induction fuel generalizing n with
  | zero => omega
  | succ fuel ih =>
      by_cases h10 : n < 10
      · simp [natReprAux, h10, parseDigits, digitVal_digitChar h10]
      · have hd : n / 10 < fuel := by
          have := Nat.div_lt_self (by omega : 0 < n) (by norm_num : 1 < 10)
          omega
        simp only [natReprAux, if_neg h10]
        rw [parseDigits_append_singleton, ih hd, digitVal_digitChar (Nat.mod_lt n (by norm_num))]
        omega

theorem mem_natReprAux_isDigit {fuel n : Nat} (h : n < fuel) :
    ∀ c ∈ natReprAux fuel n, c.isDigit = true := by
  induction fuel generalizing n with
  | zero => omega
  | succ fuel ih =>
      intro c hc
      by_cases h10 : n < 10
      · simp only [natReprAux, if_pos h10, List.mem_singleton] at hc
        subst hc
        exact isDigit_digitChar h10
      · have hd : n / 10 < fuel := by
          have := Nat.div_lt_self (by omega : 0 < n) (by norm_num : 1 < 10)
          omega
        simp only [natReprAux, if_neg h10, List.mem_append, List.mem_singleton] at hc
        rcases hc with hc | hc
        · exact ih hd c hc
        · subst hc
          exact isDigit_digitChar (Nat.mod_lt n (by norm_num))

theorem parseKey_natRepr (n : Nat) : parseKey (natRepr n) = n :=
  parseDigits_natReprAux (Nat.lt_succ_self n)

theorem natRepr_injective : Function.Injective natRepr := by
  intro m n h
  have := congrArg parseKey h
  rwa [parseKey_natRepr, parseKey_natRepr] at this

theorem numericStr_natRepr (n : Nat) : numericStr (natRepr n) = true := by
  have h1 := natReprAux_ne_nil (Nat.lt_succ_self n)
  have h2 := mem_natReprAux_isDigit (Nat.lt_succ_self n)
  simp only [numericStr, natRepr, Bool.and_eq_true, List.all_eq_true]
  constructor
  · simpa [List.isEmpty_iff] using h1
  · exact h2

theorem dot_not_mem_natRepr (n : Nat) : '.' ∉ (natRepr n).data := by
  intro hmem
  have := mem_natReprAux_isDigit (Nat.lt_succ_self n) '.' hmem
  simp [Char.isDigit] at this

/-! ### Joining and splitting dotted flat keys

`flatten(item, '.')` joins path segments with `'.'`; `unflatten` splits flat
keys back with `key.split('.')`.  `splitDots` implements Python's
`str.split('.')` on the character list. -/

/-- Join path segments with `'.'` (the separator used throughout jsonlite). -/
def joinDots : List String → String
  | [] => ""
  | [s] => s
  | s :: rest => s ++ "." ++ joinDots rest

/-- Helper for `splitDots`: `acc` holds the current segment reversed. -/
def splitDotsAux : List Char → List Char → List String
  | [], acc => [String.mk acc.reverse]
  | c :: rest, acc =>
      if c = '.' then String.mk acc.reverse :: splitDotsAux rest []
      else splitDotsAux rest (c :: acc)

/-- Python `s.split('.')`. -/
def splitDots (s : String) : List String := splitDotsAux s.data []

theorem splitDotsAux_no_dot (l acc : List Char) (h : '.' ∉ l) :
    splitDotsAux l acc = [String.mk (acc.reverse ++ l)] := by
  induction l generalizing acc with
  | nil => simp [splitDotsAux]
  | cons c rest ih =>
      have hc : c ≠ '.' := fun hc => h (hc ▸ List.mem_cons_self c rest)
      have hrest : '.' ∉ rest := fun hr => h (List.mem_cons_of_mem c hr)
      simp [splitDotsAux, hc, ih _ hrest]

theorem splitDotsAux_dot_split (x t acc : List Char) (h : '.' ∉ x) :
    splitDotsAux (x ++ '.' :: t) acc = String.mk (acc.reverse ++ x) :: splitDotsAux t [] := by
  induction x generalizing acc with
  | nil => simp [splitDotsAux]
  | cons c rest ih =>
      have hc : c ≠ '.' := fun hc => h (hc ▸ List.mem_cons_self c rest)
      have hrest : '.' ∉ rest := fun hr => h (List.mem_cons_of_mem c hr)
      simp [splitDotsAux, hc, ih _ hrest]

theorem splitDots_joinDots (segs : List String) (hne : segs ≠ [])
    (hdot : ∀ s ∈ segs, '.' ∉ s.data) : splitDots (joinDots segs) = segs := by
  induction segs with
  | nil => exact absurd rfl hne
  | cons s rest ih =>
      cases rest with
      | nil =>
          have hs : '.' ∉ s.data := hdot s (List.mem_cons_self _ _)
          simp [joinDots, splitDots, splitDotsAux_no_dot _ _ hs]
      | cons s2 rest2 =>
          have hs : '.' ∉ s.data := hdot s (List.mem_cons_self _ _)
          have hrest : ∀ x ∈ s2 :: rest2, '.' ∉ x.data := fun x hx =>
            hdot x (List.mem_cons_of_mem s hx)
          have hstep : joinDots (s :: s2 :: rest2) = s ++ "." ++ joinDots (s2 :: rest2) := rfl
          have hdata : (s ++ "." ++ joinDots (s2 :: rest2)).data =
              s.data ++ '.' :: (joinDots (s2 :: rest2)).data := by
            simp [String.data_append]
          rw [hstep]
          unfold splitDots
          rw [hdata, splitDotsAux_dot_split _ _ _ hs]
          simp only [List.reverse_nil, List.nil_append]
          have hmk : String.mk s.data = s := rfl
          rw [hmk]
          have ihr := ih (by simp) hrest
          unfold splitDots at ihr
          rw [ihr]

/-! ### The flattener

`JSONLite._flatten_item` erases top-level nulls and empty lists, then calls
the external `flatten_json.flatten(item, '.')`.  `JSONLite._row_to_item`
drops NULL columns and calls `flatten_json.unflatten_list(clean, '.')`
(whose `unflatten` half is monkey-patched by the repository's
`flatten_monkey` module, which is not shipped under `src/`).  The external
pair is modelled from the spec: keys joined by `'.'`, list indices as
decimal segments, empty containers vanish, purely numeric segments are read
back as list indices. -/

namespace JVal

/-- Python `value is None`. -/
def isNull : JVal → Bool
  | .null => true
  | _ => false

/-- Python `isinstance(v, list) and not v`. -/
def isEmptyList : JVal → Bool
  | .list [] => true
  | _ => false

mutual
/-- Modelled from the spec: `flatten_json.flatten` at path level.  Dict keys
and decimal list indices become path segments; scalars become leaves; empty
dicts and lists contribute nothing. -/
def flattenVal : JVal → List (List String × JVal)
  | .null => [([], .null)]
  | .int n => [([], .int n)]
  | .str s => [([], .str s)]
  | .obj fs => flattenObj fs
  | .list xs => flattenList 0 xs

/-- Flatten the fields of an object, prefixing each key. -/
def flattenObj : List (String × JVal) → List (List String × JVal)
  | [] => []
  | (k, v) :: rest => (flattenVal v).map (fun pv => (k :: pv.1, pv.2)) ++ flattenObj rest

/-- Flatten list elements, using decimal indices starting at `i`. -/
def flattenList : Nat → List JVal → List (List String × JVal)
  | _, [] => []
  | i, v :: rest =>
      (flattenVal v).map (fun pv => (natRepr i :: pv.1, pv.2)) ++ flattenList (i + 1) rest
end

mutual
/-- A value that the flatten/erase pipeline makes vanish entirely:
null, or a list/object all of whose members vanish. -/
def removable : JVal → Bool
  | .null => true
  | .int _ => false
  | .str _ => false
  | .list xs => removableList xs
  | .obj fs => removableObj fs

/-- All elements removable. -/
def removableList : List JVal → Bool
  | [] => true
  | v :: rest => removable v && removableList rest

/-- All field values removable. -/
def removableObj : List (String × JVal) → Bool
  | [] => true
  | (_, v) :: rest => removable v && removableObj rest
end

mutual
/-- The erasure rule of the spec, applied hereditarily: null-valued fields,
empty lists, and containers that become empty are dropped. -/
def eraseVal : JVal → JVal
  | .obj fs => .obj (eraseObj fs)
  | .list xs => .list (eraseList xs)
  | v => v

/-- Erase inside an object's fields. -/
def eraseObj : List (String × JVal) → List (String × JVal)
  | [] => []
  | (k, v) :: rest => if removable v then eraseObj rest else (k, eraseVal v) :: eraseObj rest

/-- Erase inside a list's elements. -/
def eraseList : List JVal → List JVal
  | [] => []
  | v :: rest => if removable v then eraseList rest else eraseVal v :: eraseList rest
end

/-- Insert a key/value pair into a list sorted by the numeric value of keys. -/
def insertSorted (p : String × JVal) : List (String × JVal) → List (String × JVal)
  | [] => [p]
  | q :: rest => if parseKey p.1 ≤ parseKey q.1 then p :: q :: rest else q :: insertSorted p rest

/-- Sort key/value pairs by the numeric value of their keys. -/
def sortPairs : List (String × JVal) → List (String × JVal)
  | [] => []
  | p :: rest => insertSorted p (sortPairs rest)

mutual
/-- Modelled from the spec: the `unflatten_list` pass that turns every
nested object whose keys are all purely numeric into a list, ordering
elements by the numeric key value (children first). -/
def convertLists : JVal → JVal
  | .obj fs =>
      let fs' := convertObj fs
      if fs'.isEmpty then .obj fs'
      else if fs'.all (fun kv => numericStr kv.1) then .list ((sortPairs fs').map Prod.snd)
      else .obj fs'
  | .list xs => .list (convertList xs)
  | v => v

/-- Convert inside an object's fields. -/
def convertObj : List (String × JVal) → List (String × JVal)
  | [] => []
  | (k, v) :: rest => (k, convertLists v) :: convertObj rest

/-- Convert inside a list's elements. -/
def convertList : List JVal → List JVal
  | [] => []
  | v :: rest => convertLists v :: convertList rest
end

mutual
/-- Python `==` on JSON values: order-insensitive on dicts (same key sets,
equal values), order-sensitive on lists. -/
def pyEq : JVal → JVal → Bool
  | .null, .null => true
  | .int a, .int b => a == b
  | .str a, .str b => a == b
  | .list xs, .list ys => pyEqList xs ys
  | .obj fs, .obj gs => pyEqFields fs gs && gs.all (fun kv => (objLookup kv.1 fs).isSome)
  | _, _ => false

/-- Pointwise `pyEq` on lists of equal length. -/
def pyEqList : List JVal → List JVal → Bool
  | [], [] => true
  | x :: xs, y :: ys => pyEq x y && pyEqList xs ys
  | _, _ => false

/-- Every binding of the first object is matched in the second. -/
def pyEqFields : List (String × JVal) → List (String × JVal) → Bool
  | [], _ => true
  | (k, v) :: rest, gs =>
      (match objLookup k gs with
       | some w => pyEq v w
       | none => false) && pyEqFields rest gs
end

/-- Modelled from the spec: one `unflatten` insertion
`dic[k1][k2]...[kn] = value`, materialising intermediate objects with
`setdefault`.  (On the tree-shaped key sets produced by `flatten` an
intermediate key never holds a scalar; that unreachable case keeps the
existing object contents.) -/
def insertFlat (fs : List (String × JVal)) : List String → JVal → List (String × JVal)
  | [], _ => fs
  | [k], v => objSet k v fs
  | k :: p :: rest, v =>
      let child := match objLookup k fs with
        | some (.obj c) => c
        | _ => []
      objSet k (.obj (insertFlat child (p :: rest) v)) fs

/-- Fold `insertFlat` over flat entries, as `unflatten`'s main loop does. -/
def unflatFold (acc : List (String × JVal)) : List (List String × JVal) → List (String × JVal)
  | [] => acc
  | pv :: rest => unflatFold (insertFlat acc pv.1 pv.2) rest

/-- Modelled from the spec: `unflatten` on path-level entries. -/
def unflatPaths (entries : List (List String × JVal)) : List (String × JVal) :=
  unflatFold [] entries

/-- Modelled from the spec: `unflatten` on dotted string keys. -/
def unflatStr (entries : List (String × JVal)) : List (String × JVal) :=
  unflatPaths (entries.map (fun kv => (splitDots kv.1, kv.2)))

/-- `JSONLite._row_to_item`: drop NULL columns, then `unflatten_list`. -/
def rowToItem (row : List (String × JVal)) : JVal :=
  convertLists (.obj (unflatStr (row.filter (fun kv => !isNull kv.2))))

/-- `JSONLite._flatten_item`: erase top-level nulls and empty lists, flatten
with dotted keys, and keep only non-empty-list values as columns.  Returns
`(column_names, column_values, flat_item, item)`. -/
def flattenItemParts (fs : List (String × JVal)) :
    List String × List JVal × List (String × JVal) × List (String × JVal) :=
  let erased := fs.filter (fun kv => !isNull kv.2 && !isEmptyList kv.2)
  let flat := (flattenObj erased).map (fun pv => (joinDots pv.1, pv.2))
  let cols := flat.filter (fun kv => !isEmptyList kv.2)
  (cols.map Prod.fst, cols.map Prod.snd, flat, erased)

/-- A key that survives the dotted join/split round trip and is never read
back as a list index: free of `'.'` and not purely numeric. -/
def safeKey (k : String) : Bool := !(decide ('.' ∈ k.data)) && !numericStr k

mutual
/-- Records whose object keys are all `safeKey` and duplicate-free at every
level (Python dicts cannot hold duplicate keys). -/
def safeVal : JVal → Bool
  | .obj fs => safeObj fs
  | .list xs => safeList xs
  | _ => true

/-- `safeVal` on an object's fields, including key conditions. -/
def safeObj : List (String × JVal) → Bool
  | [] => true
  | (k, v) :: rest =>
      safeKey k && !(decide (k ∈ objKeys rest)) && safeVal v && safeObj rest

/-- `safeVal` on a list's elements. -/
def safeList : List JVal → Bool
  | [] => true
  | v :: rest => safeVal v && safeList rest
end

end JVal

namespace JVal

theorem sizeOf_lt_of_mem_jlist {x : JVal} {xs : List JVal} (h : x ∈ xs) :
    sizeOf x < sizeOf xs := by
  induction xs with
  | nil => simp at h
  | cons y ys ih =>
      rcases List.mem_cons.1 h with h | h
      · subst h
        simp
        omega
      · have := ih h
        simp
        omega

theorem sizeOf_lt_of_mem_jobj {k : String} {x : JVal} {fs : List (String × JVal)}
    (h : (k, x) ∈ fs) : sizeOf x < sizeOf fs := by
  induction fs with
  | nil => simp at h
  | cons kv rest ih =>
      rcases List.mem_cons.1 h with h | h
      · subst h
        simp
        omega
      · have := ih h
        simp
        omega

/-- The head segment of a flat entry's path. -/
def pathHead : List String × JVal → Option String
  | (h :: _, _) => some h
  | ([], _) => none

/-- Head segments of a list of flat entries. -/
def headsOf (E : List (List String × JVal)) : List String := E.filterMap pathHead

/-- Entries whose path starts with `k`, with that head removed. -/
def tailsFor (k : String) (E : List (List String × JVal)) : List (List String × JVal) :=
  E.filterMap (fun pv =>
    match pv.1 with
    | h :: rest => if h = k then some (rest, pv.2) else none
    | [] => none)

/-- Drop entries whose value is null (the `clean_result` filter). -/
def nonNull (E : List (List String × JVal)) : List (List String × JVal) :=
  E.filter (fun pv => !isNull pv.2)

@[simp] theorem tailsFor_nil (k : String) : tailsFor k [] = [] := rfl

theorem tailsFor_cons_consPath (k h : String) (prest : List String) (v : JVal)
    (E : List (List String × JVal)) :
    tailsFor k ((h :: prest, v) :: E) =
      if h = k then (prest, v) :: tailsFor k E else tailsFor k E := by
  by_cases hk : h = k <;> simp [tailsFor, List.filterMap_cons, hk]

theorem tailsFor_append (k : String) (A B : List (List String × JVal)) :
    tailsFor k (A ++ B) = tailsFor k A ++ tailsFor k B := by
  simp [tailsFor, List.filterMap_append]

theorem tailsFor_map_consKey (k k0 : String) (E : List (List String × JVal)) :
    tailsFor k (E.map (fun pv => (k0 :: pv.1, pv.2))) = if k0 = k then E else [] := by
  by_cases hk : k0 = k
  · subst hk
    rw [if_pos rfl]
    induction E with
    | nil => simp [tailsFor]
    | cons pv rest ih =>
        obtain ⟨p, v⟩ := pv
        rw [List.map_cons, tailsFor_cons_consPath, if_pos rfl, ih]
  · rw [if_neg hk]
    induction E with
    | nil => simp [tailsFor]
    | cons pv rest ih =>
        obtain ⟨p, v⟩ := pv
        rw [List.map_cons, tailsFor_cons_consPath, if_neg hk, ih]

theorem mem_headsOf_iff_tailsFor_ne (k : String) (E : List (List String × JVal))
    (hne : ∀ pv ∈ E, pv.1 ≠ []) :
    k ∈ headsOf E ↔ tailsFor k E ≠ [] := by
  induction E with
  | nil => simp [headsOf, tailsFor]
  | cons pv rest ih =>
      have hpv : pv.1 ≠ [] := hne pv (List.mem_cons_self _ _)
      have ihr := ih (fun q hq => hne q (List.mem_cons_of_mem _ hq))
      rcases pv with ⟨p, v⟩
      cases p with
      | nil => exact absurd rfl hpv
      | cons h rest2 =>
          rw [tailsFor_cons_consPath]
          by_cases hk : h = k
          · rw [if_pos hk]
            constructor
            · intro _
              exact List.cons_ne_nil _ _
            · intro _
              unfold headsOf
              rw [List.filterMap_cons, show pathHead (h :: rest2, v) = some h from rfl, hk]
              exact List.mem_cons_self _ _
          · have hk2 : ¬ k = h := fun hx => hk hx.symm
            rw [if_neg hk]
            simp only [headsOf, List.filterMap_cons, pathHead, List.mem_cons]
            simp only [headsOf] at ihr
            rw [ihr]
            simp [hk2]

/-- The `setdefault` child: existing object contents under `k`, else empty. -/
def childOf (k : String) (fs : List (String × JVal)) : List (String × JVal) :=
  match objLookup k fs with
  | some (.obj c) => c
  | _ => []

theorem insertFlat_cons_nil (fs : List (String × JVal)) (k : String) (v : JVal) :
    insertFlat fs [k] v = objSet k v fs := rfl

theorem insertFlat_cons_cons (fs : List (String × JVal)) (k p0 : String)
    (p : List String) (v : JVal) :
    insertFlat fs (k :: p0 :: p) v = objSet k (.obj (insertFlat (childOf k fs) (p0 :: p) v)) fs :=
  rfl

theorem objKeys_insertFlat (fs : List (String × JVal)) (k : String) (p : List String) (v : JVal) :
    objKeys (insertFlat fs (k :: p) v) =
      if k ∈ objKeys fs then objKeys fs else objKeys fs ++ [k] := by
  cases p with
  | nil => rw [insertFlat_cons_nil, objKeys_objSet]
  | cons p0 prest => rw [insertFlat_cons_cons, objKeys_objSet]

theorem objLookup_insertFlat_ne (fs : List (String × JVal)) {k k' : String} (p : List String)
    (v : JVal) (h : k' ≠ k) : objLookup k (insertFlat fs (k' :: p) v) = objLookup k fs := by
  cases p with
  | nil => rw [insertFlat_cons_nil, objLookup_objSet_ne _ _ _ _ h]
  | cons p0 prest => rw [insertFlat_cons_cons, objLookup_objSet_ne _ _ _ _ h]

theorem nodup_objKeys_insertFlat (fs : List (String × JVal)) (k : String) (p : List String)
    (v : JVal) (hnd : (objKeys fs).Nodup) : (objKeys (insertFlat fs (k :: p) v)).Nodup := by
  rw [objKeys_insertFlat]
  by_cases hm : k ∈ objKeys fs
  · simpa [hm] using hnd
  · simp only [hm, if_false]
    exact List.Nodup.append hnd (List.nodup_singleton k) (by simpa using hm)

theorem unflatFold_append (acc : List (String × JVal)) (A B : List (List String × JVal)) :
    unflatFold acc (A ++ B) = unflatFold (unflatFold acc A) B := by
  induction A generalizing acc with
  | nil => simp [unflatFold]
  | cons pv rest ih => simp [unflatFold, ih]

theorem nodup_objKeys_unflatFold (acc : List (String × JVal)) (E : List (List String × JVal))
    (hne : ∀ pv ∈ E, pv.1 ≠ []) (hnd : (objKeys acc).Nodup) :
    (objKeys (unflatFold acc E)).Nodup := by
  induction E generalizing acc with
  | nil => simpa [unflatFold]
  | cons pv rest ih =>
      rcases pv with ⟨p, v⟩
      cases p with
      | nil => exact absurd rfl (hne _ (List.mem_cons_self _ _))
      | cons h prest =>
          exact ih _ (fun q hq => hne q (List.mem_cons_of_mem _ hq))
            (nodup_objKeys_insertFlat _ _ _ _ hnd)

theorem mem_objKeys_unflatFold (k : String) (acc : List (String × JVal))
    (E : List (List String × JVal)) (hne : ∀ pv ∈ E, pv.1 ≠ []) :
    k ∈ objKeys (unflatFold acc E) ↔ k ∈ objKeys acc ∨ k ∈ headsOf E := by
  induction E generalizing acc with
  | nil => simp [unflatFold, headsOf]
  | cons pv rest ih =>
      rcases pv with ⟨p, v⟩
      cases p with
      | nil => exact absurd rfl (hne _ (List.mem_cons_self _ _))
      | cons h prest =>
          have hstep : unflatFold acc ((h :: prest, v) :: rest) =
              unflatFold (insertFlat acc (h :: prest) v) rest := rfl
          rw [hstep, ih _ (fun q hq => hne q (List.mem_cons_of_mem _ hq))]
          have hins : k ∈ objKeys (insertFlat acc (h :: prest) v) ↔
              k ∈ objKeys acc ∨ k = h := by
            rw [objKeys_insertFlat]
            by_cases hh : h ∈ objKeys acc
            · rw [if_pos hh]
              constructor
              · exact fun hm => Or.inl hm
              · rintro (hm | hm)
                · exact hm
                · subst hm
                  exact hh
            · rw [if_neg hh]
              simp [List.mem_append]
          have hheads : k ∈ headsOf ((h :: prest, v) :: rest) ↔ k = h ∨ k ∈ headsOf rest := by
            unfold headsOf
            rw [List.filterMap_cons, show pathHead (h :: prest, v) = some h from rfl]
            exact List.mem_cons
          rw [hins, hheads]
          tauto

end JVal

namespace JVal

theorem objLookup_unflatFold_of_tailsFor_nil (k : String) (acc : List (String × JVal))
    (E : List (List String × JVal)) (hne : ∀ pv ∈ E, pv.1 ≠ [])
    (hg : tailsFor k E = []) :
    objLookup k (unflatFold acc E) = objLookup k acc := by
  induction E generalizing acc with
  | nil => rfl
  | cons pv rest ih =>
      obtain ⟨p, v⟩ := pv
      cases p with
      | nil => exact absurd rfl (hne _ (List.mem_cons_self _ _))
      | cons h prest =>
          rw [tailsFor_cons_consPath] at hg
          by_cases hk : h = k
          · rw [if_pos hk] at hg
            exact absurd hg (List.cons_ne_nil _ _)
          · rw [if_neg hk] at hg
            have hstep : unflatFold acc ((h :: prest, v) :: rest) =
                unflatFold (insertFlat acc (h :: prest) v) rest := rfl
            rw [hstep, ih _ (fun q hq => hne q (List.mem_cons_of_mem _ hq)) hg,
              objLookup_insertFlat_ne _ _ _ hk]

theorem objLookup_unflatFold_scalar (k : String) (v0 : JVal) (acc : List (String × JVal))
    (E : List (List String × JVal)) (hne : ∀ pv ∈ E, pv.1 ≠ [])
    (hg : tailsFor k E = [([], v0)]) :
    objLookup k (unflatFold acc E) = some v0 := by
  induction E generalizing acc with
  | nil => exact absurd hg (by simp [tailsFor])
  | cons pv rest ih =>
      obtain ⟨p, v⟩ := pv
      cases p with
      | nil => exact absurd rfl (hne _ (List.mem_cons_self _ _))
      | cons h prest =>
          rw [tailsFor_cons_consPath] at hg
          have hstep : unflatFold acc ((h :: prest, v) :: rest) =
              unflatFold (insertFlat acc (h :: prest) v) rest := rfl
          rw [hstep]
          by_cases hk : h = k
          · rw [if_pos hk] at hg
            have h1 : prest = [] ∧ v = v0 ∧ tailsFor k rest = [] := by
              have := List.cons.injEq (prest, v) (tailsFor k rest) ([], v0) [] ▸ hg
              constructor
              · exact congrArg Prod.fst (List.head_eq_of_cons_eq hg)
              constructor
              · exact congrArg Prod.snd (List.head_eq_of_cons_eq hg)
              · exact List.tail_eq_of_cons_eq hg
            obtain ⟨hp, hv, hrest⟩ := h1
            subst hp
            subst hv
            rw [objLookup_unflatFold_of_tailsFor_nil k _ rest
              (fun q hq => hne q (List.mem_cons_of_mem _ hq)) hrest]
            rw [insertFlat_cons_nil, hk, objLookup_objSet_self]
          · rw [if_neg hk] at hg
            exact ih _ (fun q hq => hne q (List.mem_cons_of_mem _ hq)) hg

theorem childOf_insertFlat_ne (k h : String) (p : List String) (v : JVal)
    (acc : List (String × JVal)) (hk : h ≠ k) :
    childOf k (insertFlat acc (h :: p) v) = childOf k acc := by
  unfold childOf
  rw [objLookup_insertFlat_ne _ _ _ hk]

theorem objLookup_unflatFold_group (k : String) (acc : List (String × JVal))
    (E : List (List String × JVal)) (hne : ∀ pv ∈ E, pv.1 ≠ [])
    (hgne : tailsFor k E ≠ []) (hgp : ∀ qv ∈ tailsFor k E, qv.1 ≠ []) :
    objLookup k (unflatFold acc E) =
      some (.obj (unflatFold (childOf k acc) (tailsFor k E))) := by
  induction E generalizing acc with
  | nil => exact absurd rfl hgne
  | cons pv rest ih =>
      obtain ⟨p, v⟩ := pv
      cases p with
      | nil => exact absurd rfl (hne _ (List.mem_cons_self _ _))
      | cons h prest =>
          have hne' : ∀ q ∈ rest, q.1 ≠ [] := fun q hq => hne q (List.mem_cons_of_mem _ hq)
          have hstep : unflatFold acc ((h :: prest, v) :: rest) =
              unflatFold (insertFlat acc (h :: prest) v) rest := rfl
          rw [hstep, tailsFor_cons_consPath] at *
          by_cases hk : h = k
          · subst hk
            rw [if_pos rfl] at hgp ⊢
            have hpr : prest ≠ [] := hgp (prest, v) (List.mem_cons_self _ _)
            obtain ⟨p0, prest2, rfl⟩ : ∃ p0 prest2, prest = p0 :: prest2 := by
              cases prest with
              | nil => exact absurd rfl hpr
              | cons a b => exact ⟨a, b, rfl⟩
            have hins : insertFlat acc (h :: p0 :: prest2) v =
                objSet h (.obj (insertFlat (childOf h acc) (p0 :: prest2) v)) acc :=
              insertFlat_cons_cons acc h p0 prest2 v
            by_cases hrest : tailsFor h rest = []
            · rw [objLookup_unflatFold_of_tailsFor_nil h _ rest hne' hrest, hins,
                objLookup_objSet_self, hrest]
              rfl
            · rw [ih _ hne' hrest (fun q hq => hgp q (List.mem_cons_of_mem _ hq))]
              have hchild : childOf h (insertFlat acc (h :: p0 :: prest2) v) =
                  insertFlat (childOf h acc) (p0 :: prest2) v := by
                unfold childOf
                rw [hins, objLookup_objSet_self]
                rfl
              rw [hchild]
              rfl
          · rw [if_neg hk] at hgne hgp ⊢
            rw [ih _ hne' hgne hgp, childOf_insertFlat_ne _ _ _ _ _ hk]

end JVal

namespace JVal

/-- `enumerate(xs, start=i)`. -/
def listIdx (i : Nat) : List JVal → List (Nat × JVal)
  | [] => []
  | v :: rest => (i, v) :: listIdx (i + 1) rest

/-- A list viewed as an object keyed by decimal indices, as `flatten` keys it. -/
def numFields (i : Nat) (xs : List JVal) : List (String × JVal) :=
  (listIdx i xs).map (fun jv => (natRepr jv.1, jv.2))

theorem flattenList_eq_flattenObj_numFields (i : Nat) (xs : List JVal) :
    flattenList i xs = flattenObj (numFields i xs) := by
  induction xs generalizing i with
  | nil => rfl
  | cons v rest ih =>
      show (flattenVal v).map _ ++ flattenList (i + 1) rest = _
      rw [ih]
      rfl

theorem mem_listIdx_lower {i : Nat} {jv : Nat × JVal} {xs : List JVal}
    (h : jv ∈ listIdx i xs) : i ≤ jv.1 := by
  induction xs generalizing i with
  | nil => simp [listIdx] at h
  | cons v rest ih =>
      rcases List.mem_cons.1 h with h | h
      · subst h
        exact Nat.le_refl _
      · exact Nat.le_of_succ_le (ih h)

theorem listIdx_fst_lt (i : Nat) (xs : List JVal) :
    (listIdx i xs).Pairwise (fun a b => a.1 < b.1) := by
  induction xs generalizing i with
  | nil => exact List.Pairwise.nil
  | cons v rest ih =>
      refine List.Pairwise.cons ?_ (ih (i + 1))
      intro jv hm
      have := mem_listIdx_lower hm
      omega

theorem listIdx_map_snd (i : Nat) (xs : List JVal) :
    (listIdx i xs).map Prod.snd = xs := by
  induction xs generalizing i with
  | nil => rfl
  | cons v rest ih => simp [listIdx, ih]

theorem objKeys_numFields_nodup (i : Nat) (xs : List JVal) :
    (objKeys (numFields i xs)).Nodup := by
  have h1 : objKeys (numFields i xs) = (listIdx i xs).map (fun jv => natRepr jv.1) := by
    simp [objKeys, numFields]
  rw [h1]
  have h2 : ((listIdx i xs).map (fun jv => natRepr jv.1)).Pairwise (· ≠ ·) := by
    refine List.Pairwise.map _ ?_ (listIdx_fst_lt i xs)
    intro a b hab
    intro heq
    have := natRepr_injective heq
    omega
  exact h2

theorem mem_numFields (i : Nat) (xs : List JVal) {k : String} {v : JVal}
    (h : (k, v) ∈ numFields i xs) : ∃ j, (j, v) ∈ listIdx i xs ∧ k = natRepr j := by
  rcases List.mem_map.1 h with ⟨⟨j, w⟩, hmem, heq⟩
  injection heq with h1 h2
  subst h2
  exact ⟨j, hmem, h1.symm⟩

theorem objLookup_numFields_of_mem (i : Nat) (xs : List JVal) {j : Nat} {v : JVal}
    (h : (j, v) ∈ listIdx i xs) : objLookup (natRepr j) (numFields i xs) = some v := by
  apply objLookup_eq_some_of_mem (objKeys_numFields_nodup i xs)
  exact List.mem_map.2 ⟨(j, v), h, rfl⟩

theorem flattenObj_paths_ne_nil (fs : List (String × JVal)) :
    ∀ pv ∈ flattenObj fs, pv.1 ≠ [] := by
  induction fs with
  | nil => simp [flattenObj]
  | cons kv rest ih =>
      obtain ⟨k, v⟩ := kv
      intro pv hm
      rw [show flattenObj ((k, v) :: rest) =
        (flattenVal v).map (fun pv => (k :: pv.1, pv.2)) ++ flattenObj rest from rfl] at hm
      rcases List.mem_append.1 hm with hm | hm
      · rcases List.mem_map.1 hm with ⟨qv, _, hq⟩
        rw [← hq]
        exact List.cons_ne_nil _ _
      · exact ih pv hm

theorem flattenObj_paths_head (fs : List (String × JVal)) :
    ∀ pv ∈ flattenObj fs, ∃ k ∈ objKeys fs, ∃ p', pv.1 = k :: p' := by
  induction fs with
  | nil => simp [flattenObj]
  | cons kv rest ih =>
      obtain ⟨k, v⟩ := kv
      intro pv hm
      rw [show flattenObj ((k, v) :: rest) =
        (flattenVal v).map (fun pv => (k :: pv.1, pv.2)) ++ flattenObj rest from rfl] at hm
      rcases List.mem_append.1 hm with hm | hm
      · rcases List.mem_map.1 hm with ⟨qv, _, hq⟩
        refine ⟨k, by simp [objKeys], qv.1, ?_⟩
        rw [← hq]
      · rcases ih pv hm with ⟨k', hk', p', hp'⟩
        have hmem : k' ∈ objKeys ((k, v) :: rest) := by
          rw [show objKeys ((k, v) :: rest) = k :: objKeys rest from rfl]
          exact List.mem_cons_of_mem _ hk'
        exact ⟨k', hmem, p', hp'⟩

theorem nonNull_append (A B : List (List String × JVal)) :
    nonNull (A ++ B) = nonNull A ++ nonNull B := by
  simp [nonNull, List.filter_append]

theorem nonNull_map_consKey (k0 : String) (E : List (List String × JVal)) :
    nonNull (E.map (fun pv => (k0 :: pv.1, pv.2))) =
      (nonNull E).map (fun pv => (k0 :: pv.1, pv.2)) := by
  induction E with
  | nil => rfl
  | cons pv rest ih =>
      obtain ⟨p, v⟩ := pv
      by_cases hv : isNull v = true
      · simp [nonNull, List.filter_cons, hv] at ih ⊢
        exact ih
      · simp only [Bool.not_eq_true] at hv
        simp [nonNull, List.filter_cons, hv] at ih ⊢
        exact ih

theorem nonNull_sublist (E : List (List String × JVal)) : (nonNull E).Sublist E :=
  List.filter_sublist E

theorem mem_nonNull {pv : List String × JVal} {E : List (List String × JVal)} :
    pv ∈ nonNull E ↔ pv ∈ E ∧ isNull pv.2 = false := by
  simp [nonNull, List.mem_filter]

end JVal

namespace JVal

theorem removable_flatten_aux : ∀ n : Nat,
    (∀ v : JVal, sizeOf v ≤ n → (removable v = true ↔ nonNull (flattenVal v) = [])) ∧
    (∀ fs : List (String × JVal), sizeOf fs ≤ n →
      (removableObj fs = true ↔ nonNull (flattenObj fs) = [])) ∧
    (∀ xs : List JVal, sizeOf xs ≤ n → ∀ i,
      (removableList xs = true ↔ nonNull (flattenList i xs) = [])) := by
  intro n
  induction n with
  | zero =>
      refine ⟨fun v hv => ?_, fun fs hfs => ?_, fun xs hxs => ?_⟩
      · cases v <;> simp at hv
      · cases fs <;> simp at hfs
      · cases xs <;> simp at hxs
  | succ n ih =>
      obtain ⟨ihv, ihobj, ihlist⟩ := ih
      refine ⟨fun v hv => ?_, fun fs hfs => ?_, fun xs hxs => ?_⟩
      · cases v with
        | null => simp [removable, flattenVal, nonNull, isNull]
        | int m => simp [removable, flattenVal, nonNull, isNull]
        | str s => simp [removable, flattenVal, nonNull, isNull]
        | list xs =>
            have hxs : sizeOf xs ≤ n := by
              simp at hv
              omega
            rw [show removable (.list xs) = removableList xs from rfl,
              show flattenVal (.list xs) = flattenList 0 xs from rfl]
            exact ihlist xs hxs 0
        | obj fs =>
            have hfs : sizeOf fs ≤ n := by
              simp at hv
              omega
            rw [show removable (.obj fs) = removableObj fs from rfl,
              show flattenVal (.obj fs) = flattenObj fs from rfl]
            exact ihobj fs hfs
      · induction fs with
        | nil => simp [removableObj, flattenObj, nonNull]
        | cons kv rest ihr =>
            obtain ⟨k, v⟩ := kv
            have hv : sizeOf v ≤ n := by
              simp at hfs
              omega
            have hrest : sizeOf rest ≤ n + 1 := by
              simp at hfs
              omega
            rw [show removableObj ((k, v) :: rest) = (removable v && removableObj rest) from rfl,
              show flattenObj ((k, v) :: rest) =
                (flattenVal v).map (fun pv => (k :: pv.1, pv.2)) ++ flattenObj rest from rfl,
              nonNull_append, nonNull_map_consKey]
            rw [Bool.and_eq_true, ihv v hv, ihr hrest]
            constructor
            · rintro ⟨h1, h2⟩
              rw [h1, h2]
              rfl
            · intro h
              rcases List.append_eq_nil.1 h with ⟨h1, h2⟩
              exact ⟨List.map_eq_nil_iff.1 h1, h2⟩
      · induction xs with
        | nil =>
            intro i
            simp [removableList, flattenList, nonNull]
        | cons v rest ihr =>
            intro i
            have hv : sizeOf v ≤ n := by
              simp at hxs
              omega
            have hrest : sizeOf rest ≤ n + 1 := by
              simp at hxs
              omega
            rw [show removableList (v :: rest) = (removable v && removableList rest) from rfl,
              show flattenList i (v :: rest) =
                (flattenVal v).map (fun pv => (natRepr i :: pv.1, pv.2)) ++
                  flattenList (i + 1) rest from rfl,
              nonNull_append, nonNull_map_consKey]
            rw [Bool.and_eq_true, ihv v hv, ihr hrest]
            constructor
            · rintro ⟨h1, h2⟩
              rw [h1, h2]
              rfl
            · intro h
              rcases List.append_eq_nil.1 h with ⟨h1, h2⟩
              exact ⟨List.map_eq_nil_iff.1 h1, h2⟩

theorem removable_iff_nonNull_flattenVal (v : JVal) :
    removable v = true ↔ nonNull (flattenVal v) = [] :=
  (removable_flatten_aux (sizeOf v)).1 v (Nat.le_refl _)

theorem removableObj_iff_nonNull_flattenObj (fs : List (String × JVal)) :
    removableObj fs = true ↔ nonNull (flattenObj fs) = [] :=
  (removable_flatten_aux (sizeOf fs)).2.1 fs (Nat.le_refl _)

theorem tailsFor_nonNull_flattenObj (k : String) (fs : List (String × JVal))
    (hnd : (objKeys fs).Nodup) :
    tailsFor k (nonNull (flattenObj fs)) =
      (match objLookup k fs with
       | some v => nonNull (flattenVal v)
       | none => []) := by
  induction fs with
  | nil => simp [flattenObj, nonNull, tailsFor, objLookup]
  | cons kv rest ih =>
      obtain ⟨k0, v⟩ := kv
      simp only [objKeys, List.map_cons, List.nodup_cons] at hnd
      have hnd' : (objKeys rest).Nodup := hnd.2
      rw [show flattenObj ((k0, v) :: rest) =
        (flattenVal v).map (fun pv => (k0 :: pv.1, pv.2)) ++ flattenObj rest from rfl,
        nonNull_append, nonNull_map_consKey, tailsFor_append, tailsFor_map_consKey,
        objLookup_cons]
      by_cases hk : k0 = k
      · rw [if_pos hk, if_pos hk]
        have hnm : k ∉ objKeys rest := by
          rw [← hk]
          intro hmem
          exact hnd.1 (by simpa [objKeys] using hmem)
        have hnone : objLookup k rest = none := (objLookup_eq_none_iff_not_mem _ _).2 hnm
        rw [ih hnd', hnone]
        simp
      · rw [if_neg hk, if_neg hk, ih hnd']
        rfl

theorem mem_headsOf_nonNull_flattenObj (k : String) (fs : List (String × JVal))
    (hnd : (objKeys fs).Nodup) :
    k ∈ headsOf (nonNull (flattenObj fs)) ↔
      ∃ v, objLookup k fs = some v ∧ removable v = false := by
  have hne : ∀ pv ∈ nonNull (flattenObj fs), pv.1 ≠ [] := fun pv hm =>
    flattenObj_paths_ne_nil fs pv ((nonNull_sublist _).mem hm)
  rw [mem_headsOf_iff_tailsFor_ne _ _ hne, tailsFor_nonNull_flattenObj _ _ hnd]
  cases hl : objLookup k fs with
  | none => simp
  | some v =>
      simp only [ne_eq, Option.some.injEq]
      constructor
      · intro hne2
        refine ⟨v, rfl, ?_⟩
        rcases hb : removable v with _ | _
        · rfl
        · exact absurd ((removable_iff_nonNull_flattenVal v).1 hb) hne2
      · rintro ⟨w, hw, hrw⟩
        subst hw
        intro hnil
        have hrt : removable v = true := (removable_iff_nonNull_flattenVal v).2 hnil
        rw [hrt] at hrw
        simp at hrw

end JVal

namespace JVal

/-- Well-formedness of a flat entry list: duplicate-free, prefix-free paths
whose segments are dot-free and canonical decimal when numeric. -/
structure FlatOk (E : List (List String × JVal)) : Prop where
  nodup : (E.map Prod.fst).Nodup
  pfree : ∀ p ∈ E.map Prod.fst, ∀ q ∈ E.map Prod.fst, p ≠ q → ¬ p <+: q
  segs : ∀ pv ∈ E, ∀ s ∈ pv.1, '.' ∉ s.data ∧ (numericStr s = true → s = natRepr (parseKey s))

theorem FlatOk.sublist {E E' : List (List String × JVal)} (h : FlatOk E)
    (hs : List.Sublist E' E) : FlatOk E' := by
  refine ⟨h.nodup.sublist (hs.map Prod.fst), ?_, ?_⟩
  · intro p hp q hq hne
    exact h.pfree p ((hs.map Prod.fst).subset hp) q ((hs.map Prod.fst).subset hq) hne
  · intro pv hm s hs2
    exact h.segs pv (hs.subset hm) s hs2

theorem FlatOk.perm {E E' : List (List String × JVal)} (h : FlatOk E)
    (hp : E'.Perm E) : FlatOk E' := by
  refine ⟨((hp.map Prod.fst).nodup_iff).2 h.nodup, ?_, ?_⟩
  · intro p hpm q hq hne
    exact h.pfree p ((hp.map Prod.fst).mem_iff.1 hpm) q ((hp.map Prod.fst).mem_iff.1 hq) hne
  · intro pv hm s hs2
    exact h.segs pv (hp.mem_iff.1 hm) s hs2

/-- A flat-key segment usable for the join/split and list-rebuild round trip. -/
def flatKeyOk (k : String) : Prop :=
  '.' ∉ k.data ∧ (numericStr k = true → k = natRepr (parseKey k))

theorem flatKeyOk_natRepr (j : Nat) : flatKeyOk (natRepr j) :=
  ⟨dot_not_mem_natRepr j, fun _ => by rw [parseKey_natRepr]⟩

theorem safeKey_flatKeyOk {k : String} (h : safeKey k = true) : flatKeyOk k := by
  unfold safeKey at h
  rw [Bool.and_eq_true] at h
  obtain ⟨h1, h2⟩ := h
  constructor
  · intro hmem
    rw [Bool.not_eq_true', decide_eq_false_iff_not] at h1
    exact h1 hmem
  · intro hnum
    rw [Bool.not_eq_true', hnum] at h2
    simp at h2

theorem safeObj_parts (fs : List (String × JVal)) (h : safeObj fs = true) :
    (objKeys fs).Nodup ∧ ∀ kv ∈ fs, safeKey kv.1 = true ∧ safeVal kv.2 = true := by
  induction fs with
  | nil =>
      constructor
      · simp [objKeys]
      · simp
  | cons kv rest ih =>
      obtain ⟨k, v⟩ := kv
      rw [show safeObj ((k, v) :: rest) =
        (safeKey k && !(decide (k ∈ objKeys rest)) && safeVal v && safeObj rest) from rfl] at h
      rw [Bool.and_eq_true, Bool.and_eq_true, Bool.and_eq_true] at h
      obtain ⟨⟨⟨hk, hnd⟩, hv⟩, hrest⟩ := h
      rw [Bool.not_eq_true', decide_eq_false_iff_not] at hnd
      obtain ⟨ihnd, ihmem⟩ := ih hrest
      constructor
      · rw [show objKeys ((k, v) :: rest) = k :: objKeys rest from rfl]
        exact List.nodup_cons.2 ⟨hnd, ihnd⟩
      · intro kv hm
        rcases List.mem_cons.1 hm with hm | hm
        · subst hm
          exact ⟨hk, hv⟩
        · exact ihmem kv hm

theorem safeList_mem (xs : List JVal) (h : safeList xs = true) :
    ∀ x ∈ xs, safeVal x = true := by
  induction xs with
  | nil => simp
  | cons v rest ih =>
      rw [show safeList (v :: rest) = (safeVal v && safeList rest) from rfl,
        Bool.and_eq_true] at h
      intro x hx
      rcases List.mem_cons.1 hx with hx | hx
      · subst hx
        exact h.1
      · exact ih h.2 x hx

end JVal

namespace JVal

theorem FlatOk_cons_step (k : String) (A B : List (List String × JVal))
    (hB_heads : ∀ pv ∈ B, ∃ k', k' ≠ k ∧ ∃ p', pv.1 = k' :: p')
    (hA : FlatOk A) (hB : FlatOk B) (hk : flatKeyOk k) :
    FlatOk (A.map (fun pv => (k :: pv.1, pv.2)) ++ B) := by
  have hinj : Function.Injective (fun p : List String => k :: p) := by
    intro p q h
    injection h
  have hmapfst : (A.map (fun pv => (k :: pv.1, pv.2))).map Prod.fst =
      (A.map Prod.fst).map (fun p => k :: p) := by
    rw [List.map_map, List.map_map]
    rfl
  refine ⟨?_, ?_, ?_⟩
  · rw [List.map_append, hmapfst]
    refine List.Nodup.append (hA.nodup.map hinj) hB.nodup ?_
    intro p hp hpB
    rcases List.mem_map.1 hp with ⟨p0, _, hp0⟩
    rcases List.mem_map.1 hpB with ⟨pv, hpv, hfst⟩
    rcases hB_heads pv hpv with ⟨k', hk', p', hp'⟩
    rw [hp'] at hfst
    rw [← hp0] at hfst
    injection hfst with h1 _
    exact hk' h1
  · intro p hp q hq hne
    rw [List.map_append, hmapfst] at hp hq
    rcases List.mem_append.1 hp with hp | hp
    · rcases List.mem_map.1 hp with ⟨p0, hp0m, hp0⟩
      rcases List.mem_append.1 hq with hq | hq
      · rcases List.mem_map.1 hq with ⟨q0, hq0m, hq0⟩
        subst hp0
        subst hq0
        intro hpre
        rw [List.cons_prefix_cons] at hpre
        exact hA.pfree p0 hp0m q0 hq0m (fun hx => hne (by rw [hx])) hpre.2
      · rcases List.mem_map.1 hq with ⟨pv, hpv, hfst⟩
        rcases hB_heads pv hpv with ⟨k', hk', p', hp'⟩
        subst hp0
        intro hpre
        rw [← hfst, hp', List.cons_prefix_cons] at hpre
        exact hk' hpre.1.symm
    · rcases List.mem_map.1 hp with ⟨pv, hpv, hfst⟩
      rcases hB_heads pv hpv with ⟨k', hk', p', hp'⟩
      rcases List.mem_append.1 hq with hq | hq
      · rcases List.mem_map.1 hq with ⟨q0, hq0m, hq0⟩
        subst hq0
        intro hpre
        rw [← hfst, hp', List.cons_prefix_cons] at hpre
        exact hk' hpre.1
      · exact hB.pfree p hp q hq hne
  · intro pv hm s hs2
    rcases List.mem_append.1 hm with hm | hm
    · rcases List.mem_map.1 hm with ⟨qv, hqv, hq⟩
      rw [← hq] at hs2
      simp only at hs2
      rcases List.mem_cons.1 hs2 with hs2 | hs2
      · subst hs2
        exact hk
      · exact hA.segs qv hqv s hs2
    · exact hB.segs pv hm s hs2

theorem mem_objKeys_numFields {k' : String} (i : Nat) (xs : List JVal)
    (h : k' ∈ objKeys (numFields i xs)) : ∃ j, i ≤ j ∧ k' = natRepr j := by
  simp only [objKeys, numFields, List.map_map] at h
  rcases List.mem_map.1 h with ⟨⟨j, w⟩, hm, hj⟩
  exact ⟨j, mem_listIdx_lower hm, hj.symm⟩

theorem flatOk_nil : FlatOk [] := by
  refine ⟨List.nodup_nil, ?_, ?_⟩
  · intro p hp
    simp at hp
  · intro pv hm
    simp at hm

theorem flatOk_scalar (v : JVal) : FlatOk [([], v)] := by
  refine ⟨?_, ?_, ?_⟩
  · simp
  · intro p hp q hq hne
    simp at hp hq
    subst hp
    subst hq
    exact absurd rfl hne
  · intro pv hm s hs2
    simp at hm
    rw [hm] at hs2
    simp at hs2

theorem flatten_flatOk_aux : ∀ n : Nat,
    (∀ v : JVal, sizeOf v ≤ n → safeVal v = true → FlatOk (flattenVal v)) ∧
    (∀ fs : List (String × JVal), sizeOf fs ≤ n → (objKeys fs).Nodup →
      (∀ kv ∈ fs, flatKeyOk kv.1) → (∀ kv ∈ fs, safeVal kv.2 = true) →
      FlatOk (flattenObj fs)) ∧
    (∀ xs : List JVal, sizeOf xs ≤ n → (∀ x ∈ xs, safeVal x = true) → ∀ i,
      FlatOk (flattenList i xs)) := by
  intro n
  induction n with
  | zero =>
      refine ⟨fun v hv => ?_, fun fs hfs => ?_, fun xs hxs => ?_⟩
      · cases v <;> simp at hv
      · cases fs <;> simp at hfs
      · cases xs <;> simp at hxs
  | succ n ih =>
      obtain ⟨ihv, ihobj, ihlist⟩ := ih
      refine ⟨fun v hv hsafe => ?_, fun fs hfs hnd hkeys hvals => ?_,
        fun xs hxs hsafe i => ?_⟩
      · cases v with
        | null => exact flatOk_scalar _
        | int m => exact flatOk_scalar _
        | str s => exact flatOk_scalar _
        | list xs =>
            have hxs : sizeOf xs ≤ n := by
              simp at hv
              omega
            rw [show flattenVal (.list xs) = flattenList 0 xs from rfl]
            exact ihlist xs hxs
              (safeList_mem xs (by rw [show safeVal (.list xs) = safeList xs from rfl] at hsafe; exact hsafe)) 0
        | obj fs =>
            have hfs : sizeOf fs ≤ n := by
              simp at hv
              omega
            have hsafe' : safeObj fs = true := by
              rw [show safeVal (.obj fs) = safeObj fs from rfl] at hsafe
              exact hsafe
            obtain ⟨h1, h2⟩ := safeObj_parts fs hsafe'
            rw [show flattenVal (.obj fs) = flattenObj fs from rfl]
            exact ihobj fs hfs h1 (fun kv hm => safeKey_flatKeyOk (h2 kv hm).1)
              (fun kv hm => (h2 kv hm).2)
      · cases fs with
        | nil => exact flatOk_nil
        | cons kv rest =>
            obtain ⟨k, v⟩ := kv
            have hv : sizeOf v ≤ n := by
              simp at hfs
              omega
            have hrest : sizeOf rest ≤ n := by
              simp at hfs
              omega
            rw [show flattenObj ((k, v) :: rest) =
              (flattenVal v).map (fun pv => (k :: pv.1, pv.2)) ++ flattenObj rest from rfl]
            rw [show objKeys ((k, v) :: rest) = k :: objKeys rest from rfl,
              List.nodup_cons] at hnd
            apply FlatOk_cons_step
            · intro pv hm
              rcases flattenObj_paths_head rest pv hm with ⟨k', hk', p', hp'⟩
              refine ⟨k', ?_, p', hp'⟩
              intro heq
              rw [heq] at hk'
              exact hnd.1 hk'
            · exact ihv v hv (hvals (k, v) (List.mem_cons_self _ _))
            · exact ihobj rest hrest hnd.2 (fun kv hm => hkeys kv (List.mem_cons_of_mem _ hm))
                (fun kv hm => hvals kv (List.mem_cons_of_mem _ hm))
            · exact hkeys (k, v) (List.mem_cons_self _ _)
      · cases xs with
        | nil => exact flatOk_nil
        | cons v rest =>
            have hv : sizeOf v ≤ n := by
              simp at hxs
              omega
            have hrest : sizeOf rest ≤ n := by
              simp at hxs
              omega
            rw [show flattenList i (v :: rest) =
              (flattenVal v).map (fun pv => (natRepr i :: pv.1, pv.2)) ++
                flattenList (i + 1) rest from rfl]
            apply FlatOk_cons_step
            · intro pv hm
              rw [flattenList_eq_flattenObj_numFields] at hm
              rcases flattenObj_paths_head _ pv hm with ⟨k', hk', p', hp'⟩
              rcases mem_objKeys_numFields _ _ hk' with ⟨j, hj, hkj⟩
              refine ⟨k', ?_, p', hp'⟩
              rw [hkj]
              intro heq
              have := natRepr_injective heq
              omega
            · exact ihv v hv (hsafe v (List.mem_cons_self _ _))
            · exact ihlist rest hrest (fun x hx => hsafe x (List.mem_cons_of_mem _ hx)) (i + 1)
            · exact flatKeyOk_natRepr i

theorem flattenObj_flatOk (fs : List (String × JVal)) (h : safeObj fs = true) :
    FlatOk (flattenObj fs) := by
  obtain ⟨h1, h2⟩ := safeObj_parts fs h
  exact (flatten_flatOk_aux (sizeOf fs)).2.1 fs (Nat.le_refl _) h1
    (fun kv hm => safeKey_flatKeyOk (h2 kv hm).1) (fun kv hm => (h2 kv hm).2)

end JVal

namespace JVal

theorem mem_tailsFor_iff {k : String} {q : List String} {v : JVal}
    {E : List (List String × JVal)} :
    (q, v) ∈ tailsFor k E ↔ (k :: q, v) ∈ E := by
  unfold tailsFor
  rw [List.mem_filterMap]
  constructor
  · rintro ⟨⟨p, w⟩, hm, hf⟩
    cases p with
    | nil => simp at hf
    | cons h rest =>
        simp only at hf
        by_cases hk : h = k
        · rw [if_pos hk] at hf
          injection hf with hf
          injection hf with h1 h2
          subst h1
          subst h2
          rw [← hk]
          exact hm
        · rw [if_neg hk] at hf
          simp at hf
  · intro hm
    refine ⟨(k :: q, v), hm, ?_⟩
    simp

theorem map_fst_tailsFor (k : String) (E : List (List String × JVal)) :
    (tailsFor k E).map Prod.fst = (E.map Prod.fst).filterMap
      (fun p => match p with | h :: rest => if h = k then some rest else none | [] => none) := by
  induction E with
  | nil => rfl
  | cons pv rest ih =>
      obtain ⟨p, v⟩ := pv
      cases p with
      | nil =>
          simp only [tailsFor, List.filterMap_cons, List.map_cons]
          exact ih
      | cons h prest =>
          by_cases hk : h = k
          · rw [List.map_cons, tailsFor_cons_consPath, if_pos hk]
            simp only [List.filterMap_cons, if_pos hk, List.map_cons]
            rw [ih]
          · rw [List.map_cons, tailsFor_cons_consPath, if_neg hk]
            simp only [List.filterMap_cons, if_neg hk]
            rw [ih]

theorem tailsFor_paths_nodup {k : String} {E : List (List String × JVal)}
    (h : (E.map Prod.fst).Nodup) : ((tailsFor k E).map Prod.fst).Nodup := by
  rw [map_fst_tailsFor]
  refine h.filterMap ?_
  intro a a' b hb hb'
  cases a with
  | nil => simp at hb
  | cons h0 rest =>
      cases a' with
      | nil => simp at hb'
      | cons h1 rest' =>
          simp only [Option.mem_def] at hb hb'
          by_cases hk0 : h0 = k
          · by_cases hk1 : h1 = k
            · rw [if_pos hk0] at hb
              rw [if_pos hk1] at hb'
              injection hb with hb
              injection hb' with hb'
              rw [hk0, hk1, hb, hb']
            · rw [if_neg hk1] at hb'
              simp at hb'
          · rw [if_neg hk0] at hb
            simp at hb

theorem mem_map_fst_tailsFor {k : String} {p : List String} {E : List (List String × JVal)}
    (h : p ∈ (tailsFor k E).map Prod.fst) : k :: p ∈ E.map Prod.fst := by
  rcases List.mem_map.1 h with ⟨⟨q, v⟩, hm, hq⟩
  have hq' : q = p := hq
  subst hq'
  exact List.mem_map.2 ⟨(k :: q, v), mem_tailsFor_iff.1 hm, rfl⟩

theorem FlatOk.tails {E : List (List String × JVal)} (hok : FlatOk E) (k : String) :
    FlatOk (tailsFor k E) := by
  refine ⟨tailsFor_paths_nodup hok.nodup, ?_, ?_⟩
  · intro p hp q hq hne hpre
    exact hok.pfree (k :: p) (mem_map_fst_tailsFor hp) (k :: q) (mem_map_fst_tailsFor hq)
      (fun hx => hne (by injection hx)) (List.cons_prefix_cons.2 ⟨rfl, hpre⟩)
  · rintro ⟨q, v⟩ hm s hs2
    exact hok.segs (k :: q, v) (mem_tailsFor_iff.1 hm) s (List.mem_cons_of_mem _ hs2)

theorem tailsFor_shape (k : String) (E : List (List String × JVal)) (hok : FlatOk E) :
    (∀ qv ∈ tailsFor k E, qv.1 ≠ []) ∨ ∃ v0, tailsFor k E = [([], v0)] := by
  by_cases hall : ∀ qv ∈ tailsFor k E, qv.1 ≠ []
  · exact Or.inl hall
  · right
    push_neg at hall
    rcases hall with ⟨⟨q, v0⟩, hm, hq⟩
    simp only [ne_eq, not_not] at hq
    subst hq
    have hallnil : ∀ qv ∈ tailsFor k E, qv.1 = [] := by
      rintro ⟨q', v'⟩ hm'
      by_contra hne
      have h1 : [k] ∈ E.map Prod.fst :=
        mem_map_fst_tailsFor (List.mem_map.2 ⟨([], v0), hm, rfl⟩)
      have h2 : k :: q' ∈ E.map Prod.fst :=
        mem_map_fst_tailsFor (List.mem_map.2 ⟨(q', v'), hm', rfl⟩)
      have hneq : ([k] : List String) ≠ k :: q' := by
        intro hx
        injection hx with _ hx2
        exact hne hx2.symm
      exact hok.pfree [k] h1 (k :: q') h2 hneq
        (List.cons_prefix_cons.2 ⟨rfl, List.nil_prefix⟩)
    have hnd := tailsFor_paths_nodup (E := E) (k := k) hok.nodup
    cases htails : tailsFor k E with
    | nil =>
        rw [htails] at hm
        simp at hm
    | cons x rest =>
        cases rest with
        | nil =>
            rw [htails] at hm
            have hm' : ([], v0) = x := List.mem_singleton.1 hm
            exact ⟨v0, congrArg (fun z => [z]) hm'.symm⟩
        | cons y rest2 =>
            exfalso
            rw [htails] at hnd hallnil
            have hx : x.1 = [] := hallnil x (List.mem_cons_self _ _)
            have hy : y.1 = [] := hallnil y (List.mem_cons_of_mem _ (List.mem_cons_self _ _))
            rw [List.map_cons, List.map_cons, List.nodup_cons, hx, hy] at hnd
            exact hnd.1 (List.mem_cons_self _ _)

end JVal

namespace JVal

theorem convertObj_eq_map (fs : List (String × JVal)) :
    convertObj fs = fs.map (fun kv => (kv.1, convertLists kv.2)) := by
  induction fs with
  | nil => rfl
  | cons kv rest ih =>
      obtain ⟨k, v⟩ := kv
      rw [show convertObj ((k, v) :: rest) = (k, convertLists v) :: convertObj rest from rfl, ih]
      rfl

theorem objKeys_convertObj (fs : List (String × JVal)) :
    objKeys (convertObj fs) = objKeys fs := by
  rw [convertObj_eq_map]
  simp [objKeys, List.map_map]

theorem objLookup_convertObj (k : String) (fs : List (String × JVal)) :
    objLookup k (convertObj fs) = (objLookup k fs).map convertLists := by
  induction fs with
  | nil => rfl
  | cons kv rest ih =>
      obtain ⟨k0, v⟩ := kv
      rw [show convertObj ((k0, v) :: rest) = (k0, convertLists v) :: convertObj rest from rfl,
        objLookup_cons, objLookup_cons]
      by_cases hk : k0 = k
      · rw [if_pos hk, if_pos hk]
        rfl
      · rw [if_neg hk, if_neg hk, ih]

theorem objLookup_perm_of_nodup {l1 l2 : List (String × JVal)} (hp : l1.Perm l2)
    (hnd : (objKeys l1).Nodup) (k : String) : objLookup k l1 = objLookup k l2 := by
  have hnd2 : (objKeys l2).Nodup := ((hp.map Prod.fst).nodup_iff).1 hnd
  cases h1 : objLookup k l1 with
  | some v =>
      exact (objLookup_eq_some_of_mem hnd2 (hp.mem_iff.1 (mem_of_objLookup_eq_some h1))).symm ▸
        rfl
  | none =>
      cases h2 : objLookup k l2 with
      | none => rfl
      | some w =>
          have := mem_of_objLookup_eq_some h2
          have hmem := hp.mem_iff.2 this
          have := objLookup_eq_some_of_mem hnd hmem
          rw [h1] at this
          exact absurd this (by simp)

theorem insertSorted_perm (p : String × JVal) (l : List (String × JVal)) :
    (insertSorted p l).Perm (p :: l) := by
  induction l with
  | nil => exact List.Perm.refl _
  | cons q rest ih =>
      rw [show insertSorted p (q :: rest) =
        (if parseKey p.1 ≤ parseKey q.1 then p :: q :: rest else q :: insertSorted p rest) from rfl]
      by_cases h : parseKey p.1 ≤ parseKey q.1
      · rw [if_pos h]
      · rw [if_neg h]
        exact (ih.cons q).trans (List.Perm.swap p q rest)

theorem sortPairs_perm (l : List (String × JVal)) : (sortPairs l).Perm l := by
  induction l with
  | nil => exact List.Perm.refl _
  | cons p rest ih =>
      rw [show sortPairs (p :: rest) = insertSorted p (sortPairs rest) from rfl]
      exact (insertSorted_perm p (sortPairs rest)).trans (ih.cons p)

theorem insertSorted_sorted (p : String × JVal) (l : List (String × JVal))
    (h : l.Pairwise (fun a b => parseKey a.1 ≤ parseKey b.1)) :
    (insertSorted p l).Pairwise (fun a b => parseKey a.1 ≤ parseKey b.1) := by
  induction l with
  | nil => simp [insertSorted]
  | cons q rest ih =>
      rw [List.pairwise_cons] at h
      rw [show insertSorted p (q :: rest) =
        (if parseKey p.1 ≤ parseKey q.1 then p :: q :: rest else q :: insertSorted p rest) from rfl]
      by_cases hle : parseKey p.1 ≤ parseKey q.1
      · rw [if_pos hle]
        refine List.pairwise_cons.2 ⟨?_, List.pairwise_cons.2 h⟩
        intro b hb
        rcases List.mem_cons.1 hb with hb | hb
        · subst hb
          exact hle
        · exact Nat.le_trans hle (h.1 b hb)
      · rw [if_neg hle]
        refine List.pairwise_cons.2 ⟨?_, ih h.2⟩
        intro b hb
        have hb2 := (insertSorted_perm p rest).mem_iff.1 hb
        rcases List.mem_cons.1 hb2 with hb2 | hb2
        · subst hb2
          omega
        · exact h.1 b hb2

theorem sortPairs_sorted (l : List (String × JVal)) :
    (sortPairs l).Pairwise (fun a b => parseKey a.1 ≤ parseKey b.1) := by
  induction l with
  | nil => exact List.Pairwise.nil
  | cons p rest ih => exact insertSorted_sorted p (sortPairs rest) ih

theorem pyEqFields_iff (gs hs : List (String × JVal)) :
    pyEqFields gs hs = true ↔
      ∀ kv ∈ gs, ∃ w, objLookup kv.1 hs = some w ∧ pyEq kv.2 w = true := by
  induction gs with
  | nil => simp [pyEqFields]
  | cons kv rest ih =>
      obtain ⟨k, v⟩ := kv
      rw [show pyEqFields ((k, v) :: rest) hs =
        ((match objLookup k hs with
          | some w => pyEq v w
          | none => false) && pyEqFields rest hs) from rfl, Bool.and_eq_true, ih]
      constructor
      · rintro ⟨h1, h2⟩
        intro kv hm
        rcases List.mem_cons.1 hm with hm | hm
        · subst hm
          cases hl : objLookup k hs with
          | none =>
              rw [hl] at h1
              simp at h1
          | some w =>
              rw [hl] at h1
              exact ⟨w, rfl, h1⟩
        · exact h2 kv hm
      · intro h
        constructor
        · rcases h (k, v) (List.mem_cons_self _ _) with ⟨w, hw, hpw⟩
          rw [hw]
          exact hpw
        · exact fun kv hm => h kv (List.mem_cons_of_mem _ hm)

theorem pyEqList_map_of_forall {α : Type} (l : List α) (f g : α → JVal)
    (h : ∀ x ∈ l, pyEq (f x) (g x) = true) :
    pyEqList (l.map f) (l.map g) = true := by
  induction l with
  | nil => rfl
  | cons x rest ih =>
      rw [List.map_cons, List.map_cons,
        show pyEqList (f x :: (rest.map f)) (g x :: (rest.map g)) =
          (pyEq (f x) (g x) && pyEqList (rest.map f) (rest.map g)) from rfl,
        Bool.and_eq_true]
      exact ⟨h x (List.mem_cons_self _ _), ih (fun y hy => h y (List.mem_cons_of_mem _ hy))⟩

end JVal

namespace JVal

theorem objLookup_eraseObj (k : String) (gs : List (String × JVal))
    (hnd : (objKeys gs).Nodup) :
    objLookup k (eraseObj gs) =
      (match objLookup k gs with
       | some v => if removable v then none else some (eraseVal v)
       | none => none) := by
  induction gs with
  | nil => rfl
  | cons kv rest ih =>
      obtain ⟨k0, v⟩ := kv
      rw [show objKeys ((k0, v) :: rest) = k0 :: objKeys rest from rfl,
        List.nodup_cons] at hnd
      have ihr := ih hnd.2
      rw [show eraseObj ((k0, v) :: rest) =
        (if removable v then eraseObj rest else (k0, eraseVal v) :: eraseObj rest) from rfl]
      by_cases hk : k0 = k
      · subst hk
        rw [objLookup_cons, if_pos rfl,
          show (match some v with
            | some w => if removable w then none else some (eraseVal w)
            | none => none) = (if removable v then none else some (eraseVal v)) from rfl]
        by_cases hrm : removable v = true
        · rw [if_pos hrm, if_pos hrm, ihr,
            (objLookup_eq_none_iff_not_mem k0 rest).2 hnd.1]
        · rw [if_neg hrm, if_neg hrm, objLookup_cons, if_pos rfl]
      · rw [objLookup_cons, if_neg hk]
        by_cases hrm : removable v = true
        · rw [if_pos hrm, ihr]
        · rw [if_neg hrm, objLookup_cons, if_neg hk, ihr]

theorem objKeys_eraseObj_sublist (gs : List (String × JVal)) :
    List.Sublist (objKeys (eraseObj gs)) (objKeys gs) := by
  induction gs with
  | nil => exact List.Sublist.refl _
  | cons kv rest ih =>
      obtain ⟨k0, v⟩ := kv
      rw [show eraseObj ((k0, v) :: rest) =
        (if removable v then eraseObj rest else (k0, eraseVal v) :: eraseObj rest) from rfl]
      by_cases hrm : removable v = true
      · rw [if_pos hrm]
        exact ih.trans (List.sublist_cons_self _ _)
      · rw [if_neg (by simpa using hrm)]
        exact ih.cons₂ k0

theorem mem_eraseObj {k : String} {u : JVal} {gs : List (String × JVal)}
    (hnd : (objKeys gs).Nodup) (hm : (k, u) ∈ eraseObj gs) :
    ∃ v, objLookup k gs = some v ∧ removable v = false ∧ u = eraseVal v := by
  have hnd2 : (objKeys (eraseObj gs)).Nodup := hnd.sublist (objKeys_eraseObj_sublist gs)
  have hl := objLookup_eq_some_of_mem hnd2 hm
  rw [objLookup_eraseObj k gs hnd] at hl
  cases hg : objLookup k gs with
  | none =>
      rw [hg] at hl
      simp at hl
  | some v =>
      rw [hg,
        show (match some v with
          | some w => if removable w then none else some (eraseVal w)
          | none => none) = (if removable v then none else some (eraseVal v)) from rfl] at hl
      by_cases hrm : removable v = true
      · rw [if_pos hrm] at hl
        simp at hl
      · rw [if_neg hrm] at hl
        injection hl with hl
        exact ⟨v, rfl, by simpa using hrm, hl.symm⟩

theorem removableList_iff_forall (xs : List JVal) :
    removableList xs = true ↔ ∀ x ∈ xs, removable x = true := by
  induction xs with
  | nil => simp [removableList]
  | cons v rest ih =>
      rw [show removableList (v :: rest) = (removable v && removableList rest) from rfl,
        Bool.and_eq_true, ih]
      constructor
      · rintro ⟨h1, h2⟩ x hx
        rcases List.mem_cons.1 hx with hx | hx
        · subst hx
          exact h1
        · exact h2 x hx
      · intro h
        exact ⟨h v (List.mem_cons_self _ _), fun x hx => h x (List.mem_cons_of_mem _ hx)⟩

theorem removableObj_iff_forall (gs : List (String × JVal)) :
    removableObj gs = true ↔ ∀ kv ∈ gs, removable kv.2 = true := by
  induction gs with
  | nil => simp [removableObj]
  | cons kv rest ih =>
      obtain ⟨k, v⟩ := kv
      rw [show removableObj ((k, v) :: rest) = (removable v && removableObj rest) from rfl,
        Bool.and_eq_true, ih]
      constructor
      · rintro ⟨h1, h2⟩ kv hm
        rcases List.mem_cons.1 hm with hm | hm
        · subst hm
          exact h1
        · exact h2 kv hm
      · intro h
        exact ⟨h (k, v) (List.mem_cons_self _ _), fun kv hm => h kv (List.mem_cons_of_mem _ hm)⟩

theorem eraseObj_eq_nil_of_removable {gs : List (String × JVal)}
    (h : removableObj gs = true) : eraseObj gs = [] := by
  induction gs with
  | nil => rfl
  | cons kv rest ih =>
      obtain ⟨k, v⟩ := kv
      rw [show removableObj ((k, v) :: rest) = (removable v && removableObj rest) from rfl,
        Bool.and_eq_true] at h
      rw [show eraseObj ((k, v) :: rest) =
        (if removable v then eraseObj rest else (k, eraseVal v) :: eraseObj rest) from rfl,
        if_pos h.1]
      exact ih h.2

theorem eraseList_eq_survivors (xs : List JVal) : ∀ i : Nat,
    eraseList xs = ((listIdx i xs).filter (fun jv => !removable jv.2)).map
      (fun jv => eraseVal jv.2) := by
  induction xs with
  | nil => intro i; rfl
  | cons v rest ih =>
      intro i
      rw [show eraseList (v :: rest) =
        (if removable v then eraseList rest else eraseVal v :: eraseList rest) from rfl,
        show listIdx i (v :: rest) = (i, v) :: listIdx (i + 1) rest from rfl,
        List.filter_cons]
      by_cases hrm : removable v = true
      · rw [if_pos hrm, ih (i + 1)]
        have hcond : (!removable (((i, v) : Nat × JVal)).2) = false := by
          simp [hrm]
        rw [hcond]
        simp
      · have hrm' : removable v = false := by simpa using hrm
        rw [if_neg hrm, ih (i + 1)]
        have hcond : (!removable (((i, v) : Nat × JVal)).2) = true := by
          simp [hrm']
        rw [hcond]
        simp

theorem objLookup_numFields_iff (i : Nat) (xs : List JVal) (j : Nat) (x : JVal) :
    objLookup (natRepr j) (numFields i xs) = some x ↔ (j, x) ∈ listIdx i xs := by
  constructor
  · intro h
    rcases mem_numFields i xs (mem_of_objLookup_eq_some h) with ⟨j', hm, hj⟩
    have := natRepr_injective hj
    subst this
    exact hm
  · exact objLookup_numFields_of_mem i xs

theorem perm_singleton_eq {l : List (List String × JVal)} {a : List String × JVal}
    (h : l.Perm [a]) : l = [a] := by
  have hlen := h.length_eq
  cases l with
  | nil => simp at hlen
  | cons x rest =>
      cases rest with
      | nil =>
          have := h.mem_iff.2 (List.mem_singleton_self a)
          rcases List.mem_singleton.1 (h.mem_iff (a := x) |>.1 (List.mem_cons_self _ _)) with hx
          rw [hx]
      | cons y rest2 => simp at hlen

theorem pyEqList_of_sorted_keyed (M : List (String × JVal)) (S : List (Nat × JVal))
    (hkeys : M.map Prod.fst = S.map (fun jv => natRepr jv.1))
    (hnd : (M.map Prod.fst).Nodup)
    (hval : ∀ jv ∈ S, ∀ w, objLookup (natRepr jv.1) M = some w →
      pyEq w (eraseVal jv.2) = true) :
    pyEqList (M.map Prod.snd) (S.map (fun jv => eraseVal jv.2)) = true := by
  induction M generalizing S with
  | nil =>
      cases S with
      | nil => rfl
      | cons jv S' => simp at hkeys
  | cons kw M' ih =>
      obtain ⟨k1, w1⟩ := kw
      cases S with
      | nil => simp at hkeys
      | cons jx S' =>
          obtain ⟨j1, x1⟩ := jx
          rw [List.map_cons, List.map_cons] at hkeys
          have hk1 : k1 = natRepr j1 := List.head_eq_of_cons_eq hkeys
          have hkeys' : M'.map Prod.fst = S'.map (fun jv => natRepr jv.1) :=
            List.tail_eq_of_cons_eq hkeys
          rw [List.map_cons, List.map_cons,
            show pyEqList (w1 :: M'.map Prod.snd)
              (eraseVal x1 :: S'.map (fun jv => eraseVal jv.2)) =
              (pyEq w1 (eraseVal x1) && pyEqList (M'.map Prod.snd)
                (S'.map (fun jv => eraseVal jv.2))) from rfl, Bool.and_eq_true]
          rw [List.map_cons, List.nodup_cons] at hnd
          constructor
          · refine hval (j1, x1) (List.mem_cons_self _ _) w1 ?_
            rw [objLookup_cons, ← hk1, if_pos rfl]
          · refine ih S' hkeys' hnd.2 ?_
            intro jv hjv w hw
            refine hval jv (List.mem_cons_of_mem _ hjv) w ?_
            rw [objLookup_cons]
            have hne : k1 ≠ natRepr jv.1 := by
              intro heq
              apply hnd.1
              rw [hkeys', heq]
              exact List.mem_map.2 ⟨jv, hjv, rfl⟩
            rw [if_neg hne]
            exact hw

end JVal

namespace JVal

theorem convertLists_obj_eq (F : List (String × JVal)) : convertLists (.obj F) =
    (if (convertObj F).isEmpty then JVal.obj (convertObj F)
     else if (convertObj F).all (fun kv => numericStr kv.1) then
       JVal.list ((sortPairs (convertObj F)).map Prod.snd)
     else JVal.obj (convertObj F)) := rfl

theorem convertObj_ne_nil {F : List (String × JVal)} (h : F ≠ []) : convertObj F ≠ [] := by
  rw [convertObj_eq_map]
  simpa using h

theorem convertLists_obj_of_not_numeric (F : List (String × JVal)) (hne : F ≠ [])
    (h : ∃ kv ∈ F, numericStr kv.1 = false) :
    convertLists (.obj F) = .obj (convertObj F) := by
  rw [convertLists_obj_eq]
  have h1 : (convertObj F).isEmpty = false := by
    simp [List.isEmpty_iff, convertObj_ne_nil hne]
  have h2 : (convertObj F).all (fun kv => numericStr kv.1) = false := by
    rcases h with ⟨kv, hm, hkv⟩
    rw [convertObj_eq_map]
    refine List.all_eq_false.2 ⟨(kv.1, convertLists kv.2), List.mem_map.2 ⟨kv, hm, rfl⟩, ?_⟩
    simpa using hkv
  rw [h1, h2]
  simp

theorem convertLists_obj_of_numeric (F : List (String × JVal)) (hne : F ≠ [])
    (h : ∀ kv ∈ F, numericStr kv.1 = true) :
    convertLists (.obj F) = .list ((sortPairs (convertObj F)).map Prod.snd) := by
  rw [convertLists_obj_eq]
  have h1 : (convertObj F).isEmpty = false := by
    simp [List.isEmpty_iff, convertObj_ne_nil hne]
  have h2 : (convertObj F).all (fun kv => numericStr kv.1) = true := by
    rw [convertObj_eq_map, List.all_eq_true]
    rintro ⟨k, w⟩ hm
    rcases List.mem_map.1 hm with ⟨kv, hkv, heq⟩
    have hk : kv.1 = k := congrArg Prod.fst heq
    rw [← hk]
    exact h kv hkv
  rw [h1, h2]
  simp

theorem assemble_obj (gs : List (String × JVal)) (F : List (String × JVal))
    (hgsnd : (objKeys gs).Nodup)
    (hgskeys : ∀ kv ∈ gs, safeKey kv.1 = true)
    (hFnd : (objKeys F).Nodup)
    (hkeys : ∀ k, k ∈ objKeys F ↔ ∃ v, objLookup k gs = some v ∧ removable v = false)
    (hvals : ∀ k v, objLookup k gs = some v → removable v = false →
      ∃ w0, objLookup k F = some w0 ∧ pyEq (convertLists w0) (eraseVal v) = true) :
    pyEq (convertLists (.obj F)) (.obj (eraseObj gs)) = true := by
  cases hFc : F with
  | nil =>
      have hrm : removableObj gs = true := by
        rw [removableObj_iff_forall]
        rintro ⟨k, v⟩ hm
        by_contra hv
        have hv' : removable v = false := by
          cases h : removable v
          · rfl
          · exact absurd h hv
        have hk : k ∈ objKeys F :=
          (hkeys k).2 ⟨v, objLookup_eq_some_of_mem hgsnd hm, hv'⟩
        rw [hFc] at hk
        simp [objKeys] at hk
      rw [eraseObj_eq_nil_of_removable hrm]
      rfl
  | cons p F' =>
      rw [← hFc]
      have hFne : F ≠ [] := by
        rw [hFc]
        simp
      have hnum : ∃ kv ∈ F, numericStr kv.1 = false := by
        refine ⟨p, by rw [hFc]; exact List.mem_cons_self _ _, ?_⟩
        have hk : p.1 ∈ objKeys F := by
          rw [hFc]
          exact List.mem_map.2 ⟨p, List.mem_cons_self _ _, rfl⟩
        rcases (hkeys p.1).1 hk with ⟨v, hv, _⟩
        have hmem := mem_of_objLookup_eq_some hv
        have hsafe := hgskeys (p.1, v) hmem
        unfold safeKey at hsafe
        rw [Bool.and_eq_true] at hsafe
        have := hsafe.2
        cases h : numericStr p.1
        · rfl
        · rw [h] at this
          simp at this
      rw [convertLists_obj_of_not_numeric F hFne hnum]
      rw [show pyEq (.obj (convertObj F)) (.obj (eraseObj gs)) =
        (pyEqFields (convertObj F) (eraseObj gs) &&
          (eraseObj gs).all (fun kv => (objLookup kv.1 (convertObj F)).isSome)) from rfl,
        Bool.and_eq_true]
      constructor
      · rw [pyEqFields_iff]
        rintro ⟨k, w⟩ hm
        rw [convertObj_eq_map] at hm
        rcases List.mem_map.1 hm with ⟨⟨k', w0⟩, hm0, heq⟩
        have hk' : k' = k := congrArg Prod.fst heq
        have hw : convertLists w0 = w := congrArg Prod.snd heq
        subst hk'
        have hlF : objLookup k' F = some w0 := objLookup_eq_some_of_mem hFnd hm0
        have hkF : k' ∈ objKeys F := List.mem_map.2 ⟨(k', w0), hm0, rfl⟩
        rcases (hkeys k').1 hkF with ⟨v, hv, hrm⟩
        rcases hvals k' v hv hrm with ⟨w0', hw0', hpy⟩
        rw [hlF] at hw0'
        injection hw0' with hw0'
        subst hw0'
        refine ⟨eraseVal v, ?_, ?_⟩
        · rw [objLookup_eraseObj k' gs hgsnd, hv,
            show (match some v with
              | some u => if removable u then none else some (eraseVal u)
              | none => none) = (if removable v then none else some (eraseVal v)) from rfl,
            if_neg (by simp [hrm])]
        · rw [← hw]
          exact hpy
      · rw [List.all_eq_true]
        rintro ⟨k, u⟩ hm
        rcases mem_eraseObj hgsnd hm with ⟨v, hv, hrm, _⟩
        have hkF : k ∈ objKeys F := (hkeys k).2 ⟨v, hv, hrm⟩
        rw [show ((k, u) : String × JVal).1 = k from rfl, objLookup_isSome_iff_mem_objKeys,
          objKeys_convertObj]
        exact hkF

end JVal

namespace JVal

theorem mem_listIdx_of_mem {x : JVal} {xs : List JVal} (h : x ∈ xs) :
    ∀ i : Nat, ∃ j, (j, x) ∈ listIdx i xs := by
  induction xs with
  | nil => simp at h
  | cons v rest ih =>
      intro i
      rcases List.mem_cons.1 h with h2 | h2
      · subst h2
        exact ⟨i, List.mem_cons_self _ _⟩
      · rcases ih h2 (i + 1) with ⟨j, hj⟩
        exact ⟨j, List.mem_cons_of_mem _ hj⟩

theorem map_parse_inj_eq : ∀ {L1 L2 : List String},
    (∀ k ∈ L1, k = natRepr (parseKey k)) → (∀ k ∈ L2, k = natRepr (parseKey k)) →
    L1.map parseKey = L2.map parseKey → L1 = L2 := by
  intro L1
  induction L1 with
  | nil =>
      intro L2 _ _ h
      cases L2 with
      | nil => rfl
      | cons b t2 => simp at h
  | cons a t ih =>
      intro L2 hc1 hc2 h
      cases L2 with
      | nil => simp at h
      | cons b t2 =>
          rw [List.map_cons, List.map_cons] at h
          have h1 : parseKey a = parseKey b := List.head_eq_of_cons_eq h
          have h2 : t.map parseKey = t2.map parseKey := List.tail_eq_of_cons_eq h
          have hab : a = b := by
            rw [hc1 a (List.mem_cons_self _ _), hc2 b (List.mem_cons_self _ _), h1]
          rw [hab, ih (fun k hk => hc1 k (List.mem_cons_of_mem _ hk))
            (fun k hk => hc2 k (List.mem_cons_of_mem _ hk)) h2]

theorem map_parse_map_natRepr (S : List (Nat × JVal)) :
    (S.map (fun jv => natRepr jv.1)).map parseKey = S.map Prod.fst := by
  induction S with
  | nil => rfl
  | cons jv rest ih => simp [parseKey_natRepr, ih]

theorem assemble_list (ys : List JVal) (F : List (String × JVal))
    (hrem : removableList ys = false)
    (hFnd : (objKeys F).Nodup)
    (hkeys : ∀ k, k ∈ objKeys F ↔
      ∃ v, objLookup k (numFields 0 ys) = some v ∧ removable v = false)
    (hvals : ∀ k v, objLookup k (numFields 0 ys) = some v → removable v = false →
      ∃ w0, objLookup k F = some w0 ∧ pyEq (convertLists w0) (eraseVal v) = true) :
    pyEq (convertLists (.obj F)) (.list (eraseList ys)) = true := by
  have hmemNum : ∀ k ∈ objKeys F, k ∈ objKeys (numFields 0 ys) := by
    intro k hk
    rcases (hkeys k).1 hk with ⟨v, hv, _⟩
    rw [← objLookup_isSome_iff_mem_objKeys, hv]
    rfl
  have hcanon : ∀ k ∈ objKeys F, k = natRepr (parseKey k) := by
    intro k hk
    rcases mem_objKeys_numFields 0 ys (hmemNum k hk) with ⟨j, _, hkj⟩
    rw [hkj, parseKey_natRepr]
  have hnumkeys : ∀ kv ∈ F, numericStr kv.1 = true := by
    rintro ⟨k, w⟩ hm
    have hk : k ∈ objKeys F := List.mem_map.2 ⟨(k, w), hm, rfl⟩
    rcases mem_objKeys_numFields 0 ys (hmemNum k hk) with ⟨j, _, hkj⟩
    rw [show ((k, w) : String × JVal).1 = k from rfl, hkj]
    exact numericStr_natRepr j
  have hFne : F ≠ [] := by
    have hex : ∃ x ∈ ys, removable x = false := by
      by_contra hall
      push_neg at hall
      have hforall : removableList ys = true := by
        rw [removableList_iff_forall]
        intro x hx
        cases h : removable x with
        | false => exact absurd h (hall x hx)
        | true => rfl
      rw [hforall] at hrem
      simp at hrem
    rcases hex with ⟨x, hx, hxrm⟩
    rcases mem_listIdx_of_mem hx 0 with ⟨j, hj⟩
    have hlk := objLookup_numFields_of_mem 0 ys hj
    have hkF : natRepr j ∈ objKeys F := (hkeys _).2 ⟨x, hlk, hxrm⟩
    intro hF
    rw [hF] at hkF
    simp [objKeys] at hkF
  have hP1perm : ((sortPairs (convertObj F)).map Prod.fst).Perm (objKeys F) := by
    have h1 := (sortPairs_perm (convertObj F)).map Prod.fst
    rw [show (convertObj F).map Prod.fst = objKeys (convertObj F) from rfl,
      objKeys_convertObj] at h1
    exact h1
  have hcanonP1 : ∀ k ∈ (sortPairs (convertObj F)).map Prod.fst, k = natRepr (parseKey k) :=
    fun k hk => hcanon k (hP1perm.mem_iff.1 hk)
  have hndA : ((objKeys F).map parseKey).Nodup := by
    refine hFnd.map_on ?_
    intro x hx y hy hxy
    rw [hcanon x hx, hcanon y hy, hxy]
  have hndB : (((listIdx 0 ys).filter (fun jv => !removable jv.2)).map Prod.fst).Nodup := by
    have h1 : (listIdx 0 ys).Pairwise (fun a b => a.1 < b.1) := listIdx_fst_lt 0 ys
    have h2 : ((listIdx 0 ys).filter (fun jv => !removable jv.2)).Pairwise
        (fun a b => a.1 < b.1) := h1.sublist (List.filter_sublist _)
    have h3 := h2.map Prod.fst (fun a b h => h)
    exact h3.imp (fun h => Nat.ne_of_lt h)
  have hmemAB : ∀ m : Nat, m ∈ (objKeys F).map parseKey ↔
      m ∈ ((listIdx 0 ys).filter (fun jv => !removable jv.2)).map Prod.fst := by
    intro m
    constructor
    · intro hm
      rcases List.mem_map.1 hm with ⟨k, hk, hpk⟩
      have hk2 : k = natRepr m := by
        rw [← hpk]
        exact hcanon k hk
      rw [hk2] at hk
      rcases (hkeys _).1 hk with ⟨v, hv, hrm⟩
      have hj : (m, v) ∈ listIdx 0 ys := (objLookup_numFields_iff 0 ys m v).1 hv
      refine List.mem_map.2 ⟨(m, v), ?_, rfl⟩
      exact List.mem_filter.2 ⟨hj, by simp [hrm]⟩
    · intro hm
      rcases List.mem_map.1 hm with ⟨⟨j, x⟩, hjx, hj⟩
      have hj' : j = m := hj
      subst hj'
      have h1 := List.mem_filter.1 hjx
      have hrm : removable x = false := by simpa using h1.2
      have hlk := objLookup_numFields_of_mem 0 ys h1.1
      have hkF : natRepr j ∈ objKeys F := (hkeys _).2 ⟨x, hlk, hrm⟩
      exact List.mem_map.2 ⟨natRepr j, hkF, parseKey_natRepr j⟩
  have hAperm : (((sortPairs (convertObj F)).map Prod.fst).map parseKey).Perm
      (((listIdx 0 ys).filter (fun jv => !removable jv.2)).map Prod.fst) :=
    (hP1perm.map parseKey).trans ((List.perm_ext_iff_of_nodup hndA hndB).2 hmemAB)
  have hsortedA : (((sortPairs (convertObj F)).map Prod.fst).map parseKey).Pairwise
      (· ≤ ·) := by
    have h1 := sortPairs_sorted (convertObj F)
    have h2 : ((sortPairs (convertObj F)).map Prod.fst).Pairwise
        (fun a b => parseKey a ≤ parseKey b) := h1.map Prod.fst (fun a b h => h)
    exact h2.map parseKey (fun a b h => h)
  have hsortedB : ((((listIdx 0 ys).filter (fun jv => !removable jv.2))).map Prod.fst).Pairwise
      (· ≤ ·) := by
    have h1 : (listIdx 0 ys).Pairwise (fun a b => a.1 < b.1) := listIdx_fst_lt 0 ys
    have h2 := h1.sublist (List.filter_sublist (l := listIdx 0 ys)
      (p := fun jv => !removable jv.2))
    have h3 := h2.map Prod.fst (fun a b h => h)
    exact h3.imp (fun h => Nat.le_of_lt h)
  have hAeq : (((sortPairs (convertObj F)).map Prod.fst).map parseKey) =
      (((listIdx 0 ys).filter (fun jv => !removable jv.2)).map Prod.fst) :=
    List.eq_of_perm_of_sorted hAperm hsortedA hsortedB
  have hKEYEQ : (sortPairs (convertObj F)).map Prod.fst =
      ((listIdx 0 ys).filter (fun jv => !removable jv.2)).map (fun jv => natRepr jv.1) := by
    refine map_parse_inj_eq hcanonP1 ?_ ?_
    · intro k hk
      rcases List.mem_map.1 hk with ⟨jv, _, hj⟩
      rw [← hj, parseKey_natRepr]
    · rw [hAeq, map_parse_map_natRepr]
  have hndM : ((sortPairs (convertObj F)).map Prod.fst).Nodup := (hP1perm.nodup_iff).2 hFnd
  have hvalM : ∀ jv ∈ (listIdx 0 ys).filter (fun jv => !removable jv.2), ∀ w,
      objLookup (natRepr jv.1) (sortPairs (convertObj F)) = some w →
      pyEq w (eraseVal jv.2) = true := by
    rintro ⟨j, x⟩ hjx w hw
    have h1 := List.mem_filter.1 hjx
    have hrm : removable x = false := by simpa using h1.2
    have hlk := objLookup_numFields_of_mem 0 ys h1.1
    rcases hvals _ x hlk hrm with ⟨w0, hFw0, hpy⟩
    rw [objLookup_perm_of_nodup (sortPairs_perm _) hndM, objLookup_convertObj, hFw0] at hw
    simp only [Option.map_some'] at hw
    injection hw with hw
    rw [← hw]
    exact hpy
  rw [convertLists_obj_of_numeric F hFne hnumkeys,
    show pyEq (.list ((sortPairs (convertObj F)).map Prod.snd)) (.list (eraseList ys)) =
      pyEqList ((sortPairs (convertObj F)).map Prod.snd) (eraseList ys) from rfl,
    eraseList_eq_survivors ys 0]
  exact pyEqList_of_sorted_keyed _ _ hKEYEQ hndM hvalM

end JVal

namespace JVal

theorem pyEq_int_refl (m : Int) : pyEq (.int m) (.int m) = true := by
  rw [show pyEq (.int m) (.int m) = (m == m) from rfl]
  simp

theorem pyEq_str_refl (s : String) : pyEq (.str s) (.str s) = true := by
  rw [show pyEq (.str s) (.str s) = (s == s) from rfl]
  simp

theorem mem_snd_listIdx {j : Nat} {x : JVal} {i : Nat} {xs : List JVal}
    (h : (j, x) ∈ listIdx i xs) : x ∈ xs := by
  rw [← listIdx_map_snd i xs]
  exact List.mem_map.2 ⟨(j, x), h, rfl⟩

/-- The unflatten/erase correspondence for one object level, at recursion
budget `n` on the sizes of the field values. -/
def MainStatement (n : Nat) : Prop :=
  ∀ G : List (String × JVal),
    (∀ kv ∈ G, sizeOf kv.2 ≤ n) → (objKeys G).Nodup →
    (∀ kv ∈ G, flatKeyOk kv.1) → (∀ kv ∈ G, safeVal kv.2 = true) →
    ∀ E : List (List String × JVal), E.Perm (nonNull (flattenObj G)) →
    (objKeys (unflatPaths E)).Nodup ∧
    (∀ k, k ∈ objKeys (unflatPaths E) ↔
      ∃ v, objLookup k G = some v ∧ removable v = false) ∧
    (∀ k v, objLookup k G = some v → removable v = false →
      ∃ w0, objLookup k (unflatPaths E) = some w0 ∧
        pyEq (convertLists w0) (eraseVal v) = true)

theorem main_fields_step (n : Nat) (IH : ∀ m, m < n → MainStatement m) :
    MainStatement n := by
  intro G hbound hnd hkeysOk hsafe E hE
  have hne_can : ∀ pv ∈ nonNull (flattenObj G), pv.1 ≠ [] := fun pv hm =>
    flattenObj_paths_ne_nil G pv ((nonNull_sublist _).subset hm)
  have hneE : ∀ pv ∈ E, pv.1 ≠ [] := fun pv hm => hne_can pv (hE.mem_iff.1 hm)
  have htails_perm : ∀ k, (tailsFor k E).Perm (tailsFor k (nonNull (flattenObj G))) :=
    fun k => hE.filterMap _
  have hnodupF : (objKeys (unflatPaths E)).Nodup :=
    nodup_objKeys_unflatFold [] E hneE (by simp [objKeys])
  have hiff : ∀ k, k ∈ objKeys (unflatPaths E) ↔
      ∃ v, objLookup k G = some v ∧ removable v = false := by
    intro k
    rw [show unflatPaths E = unflatFold [] E from rfl,
      mem_objKeys_unflatFold k [] E hneE,
      mem_headsOf_iff_tailsFor_ne k E hneE,
      ← mem_headsOf_nonNull_flattenObj k G hnd,
      mem_headsOf_iff_tailsFor_ne k (nonNull (flattenObj G)) hne_can]
    have hto0 : (tailsFor k E = []) ↔ (tailsFor k (nonNull (flattenObj G)) = []) := by
      rw [← List.length_eq_zero, ← List.length_eq_zero, (htails_perm k).length_eq]
    have hto : (tailsFor k E ≠ []) ↔ (tailsFor k (nonNull (flattenObj G)) ≠ []) :=
      not_congr hto0
    rw [hto]
    simp [objKeys]
  refine ⟨hnodupF, hiff, ?_⟩
  intro k v hlk hrm
  have hmemG : (k, v) ∈ G := mem_of_objLookup_eq_some hlk
  have hgp : (tailsFor k E).Perm (nonNull (flattenVal v)) := by
    have h1 := htails_perm k
    rw [tailsFor_nonNull_flattenObj k G hnd, hlk,
      show (match some v with
        | some w => nonNull (flattenVal w)
        | none => ([] : List (List String × JVal))) = nonNull (flattenVal v) from rfl] at h1
    exact h1
  cases v with
  | null => simp [removable] at hrm
  | int m =>
      have hsing : tailsFor k E = [([], JVal.int m)] := by
        apply perm_singleton_eq
        rw [show nonNull (flattenVal (.int m)) = [([], JVal.int m)] from rfl] at hgp
        exact hgp
      refine ⟨.int m, objLookup_unflatFold_scalar k (.int m) [] E hneE hsing, ?_⟩
      rw [show convertLists (.int m) = .int m from rfl,
        show eraseVal (.int m) = .int m from rfl]
      exact pyEq_int_refl m
  | str s =>
      have hsing : tailsFor k E = [([], JVal.str s)] := by
        apply perm_singleton_eq
        rw [show nonNull (flattenVal (.str s)) = [([], JVal.str s)] from rfl] at hgp
        exact hgp
      refine ⟨.str s, objLookup_unflatFold_scalar k (.str s) [] E hneE hsing, ?_⟩
      rw [show convertLists (.str s) = .str s from rfl,
        show eraseVal (.str s) = .str s from rfl]
      exact pyEq_str_refl s
  | obj gs =>
      have hflat : flattenVal (.obj gs) = flattenObj gs := rfl
      rw [hflat] at hgp
      have hclean_ne : nonNull (flattenObj gs) ≠ [] := by
        intro hnil
        have := (removableObj_iff_nonNull_flattenObj gs).2 hnil
        rw [show removableObj gs = removable (.obj gs) from rfl, hrm] at this
        simp at this
      have hgne : tailsFor k E ≠ [] := by
        intro hnil
        apply hclean_ne
        rw [← List.length_eq_zero, ← hgp.length_eq, hnil]
        rfl
      have hgpaths : ∀ qv ∈ tailsFor k E, qv.1 ≠ [] := by
        intro qv hq
        exact flattenObj_paths_ne_nil gs qv ((nonNull_sublist _).subset (hgp.mem_iff.1 hq))
      have hlookF : objLookup k (unflatPaths E) =
          some (.obj (unflatPaths (tailsFor k E))) := by
        rw [show unflatPaths E = unflatFold [] E from rfl,
          objLookup_unflatFold_group k [] E hneE hgne hgpaths]
        rfl
      have hsafe_gs : safeObj gs = true := hsafe (k, JVal.obj gs) hmemG
      obtain ⟨hgsnd, hgsparts⟩ := safeObj_parts gs hsafe_gs
      have hszv : sizeOf (JVal.obj gs) ≤ n := hbound (k, JVal.obj gs) hmemG
      have hsz1 : sizeOf (JVal.obj gs) = 1 + sizeOf gs := by
        simp
      have hn1 : n - 1 < n := by
        omega
      have hboundgs : ∀ kv2 ∈ gs, sizeOf kv2.2 ≤ n - 1 := by
        rintro ⟨k2, v2⟩ hm2
        show sizeOf v2 ≤ n - 1
        have h1 := sizeOf_lt_of_mem_jobj hm2
        omega
      have htriple := IH (n - 1) hn1 gs hboundgs hgsnd
        (fun kv2 hm2 => safeKey_flatKeyOk (hgsparts kv2 hm2).1)
        (fun kv2 hm2 => (hgsparts kv2 hm2).2) (tailsFor k E) hgp
      refine ⟨.obj (unflatPaths (tailsFor k E)), hlookF, ?_⟩
      rw [show eraseVal (.obj gs) = .obj (eraseObj gs) from rfl]
      exact assemble_obj gs (unflatPaths (tailsFor k E)) hgsnd
        (fun kv2 hm2 => (hgsparts kv2 hm2).1) htriple.1 htriple.2.1 htriple.2.2
  | list xs =>
      have hflat : flattenVal (.list xs) = flattenObj (numFields 0 xs) := by
        rw [show flattenVal (.list xs) = flattenList 0 xs from rfl,
          flattenList_eq_flattenObj_numFields]
      rw [hflat] at hgp
      have hrm' : removableList xs = false := by
        rw [show removableList xs = removable (.list xs) from rfl]
        exact hrm
      have hsafe_xs : safeList xs = true := hsafe (k, JVal.list xs) hmemG
      have hclean_ne : nonNull (flattenObj (numFields 0 xs)) ≠ [] := by
        intro hnil
        rw [← flattenList_eq_flattenObj_numFields] at hnil
        have := (removable_flatten_aux (sizeOf xs)).2.2 xs (Nat.le_refl _) 0
        rw [hnil] at this
        have h2 := this.2 rfl
        rw [hrm'] at h2
        simp at h2
      have hgne : tailsFor k E ≠ [] := by
        intro hnil
        apply hclean_ne
        rw [← List.length_eq_zero, ← hgp.length_eq, hnil]
        rfl
      have hgpaths : ∀ qv ∈ tailsFor k E, qv.1 ≠ [] := by
        intro qv hq
        exact flattenObj_paths_ne_nil _ qv ((nonNull_sublist _).subset (hgp.mem_iff.1 hq))
      have hlookF : objLookup k (unflatPaths E) =
          some (.obj (unflatPaths (tailsFor k E))) := by
        rw [show unflatPaths E = unflatFold [] E from rfl,
          objLookup_unflatFold_group k [] E hneE hgne hgpaths]
        rfl
      have hszv : sizeOf (JVal.list xs) ≤ n := hbound (k, JVal.list xs) hmemG
      have hsz1 : sizeOf (JVal.list xs) = 1 + sizeOf xs := by
        simp
      have hn1 : n - 1 < n := by
        omega
      have hboundnf : ∀ kv2 ∈ numFields 0 xs, sizeOf kv2.2 ≤ n - 1 := by
        rintro ⟨k2, v2⟩ hm2
        rcases mem_numFields 0 xs hm2 with ⟨j, hj, _⟩
        show sizeOf v2 ≤ n - 1
        have h1 := sizeOf_lt_of_mem_jlist (mem_snd_listIdx hj)
        omega
      have htriple := IH (n - 1) hn1 (numFields 0 xs) hboundnf
        (objKeys_numFields_nodup 0 xs)
        (fun kv2 hm2 => by
          rcases mem_numFields 0 xs hm2 with ⟨j, _, hkj⟩
          rw [hkj]
          exact flatKeyOk_natRepr j)
        (fun kv2 hm2 => by
          rcases mem_numFields 0 xs hm2 with ⟨j, hj, _⟩
          exact safeList_mem xs hsafe_xs kv2.2 (mem_snd_listIdx hj))
        (tailsFor k E) hgp
      refine ⟨.obj (unflatPaths (tailsFor k E)), hlookF, ?_⟩
      rw [show eraseVal (.list xs) = .list (eraseList xs) from rfl]
      exact assemble_list xs (unflatPaths (tailsFor k E)) hrm'
        htriple.1 htriple.2.1 htriple.2.2

theorem main_fields (n : Nat) : MainStatement n :=
  Nat.strong_induction_on n main_fields_step

end JVal

namespace JVal

/-- The top-level erasure of `_flatten_item`: drop null and empty-list fields. -/
def topEraseFields (fs : List (String × JVal)) : List (String × JVal) :=
  fs.filter (fun kv => !isNull kv.2 && !isEmptyList kv.2)

theorem flattenItemParts_flat (fs : List (String × JVal)) :
    (flattenItemParts fs).2.2.1 =
      (flattenObj (topEraseFields fs)).map (fun pv => (joinDots pv.1, pv.2)) := rfl

theorem flattenItemParts_erased (fs : List (String × JVal)) :
    (flattenItemParts fs).2.2.2 = topEraseFields fs := rfl

theorem safeObj_filter (p : String × JVal → Bool) (fs : List (String × JVal))
    (h : safeObj fs = true) : safeObj (fs.filter p) = true := by
  induction fs with
  | nil => exact h
  | cons kv rest ih =>
      obtain ⟨k, v⟩ := kv
      rw [show safeObj ((k, v) :: rest) =
        (safeKey k && !(decide (k ∈ objKeys rest)) && safeVal v && safeObj rest) from rfl,
        Bool.and_eq_true, Bool.and_eq_true, Bool.and_eq_true] at h
      obtain ⟨⟨⟨hk, hnd⟩, hv⟩, hrest⟩ := h
      rw [List.filter_cons]
      by_cases hp : p (k, v) = true
      · rw [if_pos hp]
        rw [show safeObj ((k, v) :: rest.filter p) =
          (safeKey k && !(decide (k ∈ objKeys (rest.filter p))) && safeVal v &&
            safeObj (rest.filter p)) from rfl,
          Bool.and_eq_true, Bool.and_eq_true, Bool.and_eq_true]
        refine ⟨⟨⟨hk, ?_⟩, hv⟩, ih hrest⟩
        rw [Bool.not_eq_true', decide_eq_false_iff_not] at hnd ⊢
        intro hmem
        apply hnd
        rcases List.mem_map.1 hmem with ⟨kv2, hm2, hk2⟩
        exact List.mem_map.2 ⟨kv2, (List.filter_sublist rest).subset hm2, hk2⟩
      · rw [if_neg hp]
        exact ih hrest

theorem eraseObj_topErase (fs : List (String × JVal)) :
    eraseObj (topEraseFields fs) = eraseObj fs := by
  induction fs with
  | nil => rfl
  | cons kv rest ih =>
      obtain ⟨k, v⟩ := kv
      rw [show eraseObj ((k, v) :: rest) =
        (if removable v then eraseObj rest else (k, eraseVal v) :: eraseObj rest) from rfl]
      unfold topEraseFields at ih ⊢
      rw [List.filter_cons]
      by_cases hp : (!isNull v && !isEmptyList v) = true
      · rw [if_pos (by exact hp)]
        rw [show eraseObj ((k, v) :: List.filter (fun kv => !isNull kv.2 && !isEmptyList kv.2) rest) =
          (if removable v then eraseObj (List.filter (fun kv => !isNull kv.2 && !isEmptyList kv.2) rest)
           else (k, eraseVal v) :: eraseObj (List.filter (fun kv => !isNull kv.2 && !isEmptyList kv.2) rest)) from rfl]
        by_cases hrm : removable v = true
        · rw [if_pos hrm, if_pos hrm, ih]
        · rw [if_neg hrm, if_neg hrm, ih]
      · rw [if_neg (by exact hp)]
        have hrm : removable v = true := by
          by_cases hn : isNull v = true
          · cases v with
            | null => rfl
            | int m => simp [isNull] at hn
            | str s => simp [isNull] at hn
            | list xs => simp [isNull] at hn
            | obj gs => simp [isNull] at hn
          · have hnn : isNull v = false := by
              cases h : isNull v
              · rfl
              · exact absurd h hn
            have hel : isEmptyList v = true := by
              cases h : isEmptyList v with
              | false =>
                  exfalso
                  apply hp
                  rw [hnn, h]
                  rfl
              | true => rfl
            cases v with
            | list xs =>
                cases xs with
                | nil => rfl
                | cons a b => simp [isEmptyList] at hel
            | null => rfl
            | int m => simp [isEmptyList] at hel
            | str s => simp [isEmptyList] at hel
            | obj gs => simp [isEmptyList] at hel
        rw [if_pos hrm, ih]

theorem filter_nonNull_map_join (E : List (List String × JVal)) :
    ((E.map (fun pv => (joinDots pv.1, pv.2))).filter (fun kv => !isNull kv.2)) =
      (nonNull E).map (fun pv => (joinDots pv.1, pv.2)) := by
  induction E with
  | nil => rfl
  | cons pv rest ih =>
      obtain ⟨p, v⟩ := pv
      rw [List.map_cons, List.filter_cons]
      unfold nonNull at ih ⊢
      rw [List.filter_cons]
      by_cases hv : (!isNull v) = true
      · rw [if_pos (by exact hv), if_pos (by exact hv), List.map_cons, ih]
      · rw [if_neg (by exact hv), if_neg (by exact hv), ih]

theorem unflatStr_pyEq_of_perm (G : List (String × JVal)) (hsafe : safeObj G = true)
    (R : List (String × JVal))
    (hperm : R.Perm ((nonNull (flattenObj G)).map (fun pv => (joinDots pv.1, pv.2)))) :
    pyEq (convertLists (.obj (unflatStr R))) (.obj (eraseObj G)) = true := by
  have hflatok : FlatOk (flattenObj G) := flattenObj_flatOk G hsafe
  have hcanOk : FlatOk (nonNull (flattenObj G)) := hflatok.sublist (nonNull_sublist _)
  have hne : ∀ pv ∈ nonNull (flattenObj G), pv.1 ≠ [] := fun pv hm =>
    flattenObj_paths_ne_nil G pv ((nonNull_sublist _).subset hm)
  have hsplit : ((nonNull (flattenObj G)).map (fun pv => (joinDots pv.1, pv.2))).map
      (fun kv => (splitDots kv.1, kv.2)) = nonNull (flattenObj G) := by
    rw [List.map_map]
    have hid : ∀ pv ∈ nonNull (flattenObj G),
        ((fun kv : String × JVal => (splitDots kv.1, kv.2)) ∘
          (fun pv : List String × JVal => (joinDots pv.1, pv.2))) pv = id pv := by
      intro pv hm
      show (splitDots (joinDots pv.1), pv.2) = pv
      have hdots : ∀ s ∈ pv.1, '.' ∉ s.data := fun s hs => (hcanOk.segs pv hm s hs).1
      rw [splitDots_joinDots pv.1 (hne pv hm) hdots]
    rw [List.map_congr_left hid, List.map_id]
  have hperm2 : (R.map (fun kv => (splitDots kv.1, kv.2))).Perm (nonNull (flattenObj G)) := by
    have h1 := hperm.map (fun kv : String × JVal => (splitDots kv.1, kv.2))
    rw [hsplit] at h1
    exact h1
  obtain ⟨h1, h2⟩ := safeObj_parts G hsafe
  have htriple := main_fields (1 + sizeOf G) G
    (fun kv hm => by
      obtain ⟨k, v⟩ := kv
      show sizeOf v ≤ 1 + sizeOf G
      have := sizeOf_lt_of_mem_jobj hm
      omega)
    h1 (fun kv hm => safeKey_flatKeyOk (h2 kv hm).1) (fun kv hm => (h2 kv hm).2)
    (R.map (fun kv => (splitDots kv.1, kv.2))) hperm2
  exact assemble_obj G (unflatPaths (R.map (fun kv => (splitDots kv.1, kv.2)))) h1
    (fun kv hm => (h2 kv hm).1) htriple.1 htriple.2.1 htriple.2.2

theorem rowToItem_flatItem_pyEq (fs : List (String × JVal)) (hsafe : safeObj fs = true) :
    pyEq (rowToItem (flattenItemParts fs).2.2.1) (.obj (eraseObj fs)) = true := by
  have hsafeE : safeObj (topEraseFields fs) = true := safeObj_filter _ fs hsafe
  have hfilter : ((flattenItemParts fs).2.2.1).filter (fun kv => !isNull kv.2) =
      (nonNull (flattenObj (topEraseFields fs))).map (fun pv => (joinDots pv.1, pv.2)) := by
    rw [flattenItemParts_flat, filter_nonNull_map_join]
  have hmain := unflatStr_pyEq_of_perm (topEraseFields fs) hsafeE
    (((flattenItemParts fs).2.2.1).filter (fun kv => !isNull kv.2))
    (by rw [hfilter])
  rw [eraseObj_topErase fs] at hmain
  exact hmain

end JVal

/-! ### The record index (`JSONLite`)

State-passing embedding of the SQLite-backed store: one table per record
type, columns named by dotted flat keys, rows as partial column/cell maps
(absent cells read back as SQL NULL).  The `_options` machinery is folded
into the `strict`/`disc` fields; the schema registry and the JSON Schema
evaluator (external collaborators) appear as an opaque predicate map. -/

namespace JStore

open JVal

/-- One SQL table: its column list (in CREATE/ALTER order) and its rows in
insertion order.  A row stores cells for the columns its INSERT or UPDATE
statements mentioned; all other columns are NULL. -/
structure Table where
  cols : List String
  rows : List (List (String × JVal))

/-- The store: `strict` and `disc` mirror the `_options` table, `schemas`
the `_schemas` table (`none` = no schema registered, which validates),
`tables` the user tables of the database in creation order. -/
structure Store where
  strict : Bool
  disc : String
  schemas : String → Option (JVal → Bool)
  tables : List (String × Table)

/-- Lookup a table by name. -/
def tablesLookup (n : String) : List (String × Table) → Option Table
  | [] => none
  | (n', t) :: rest => if n' = n then some t else tablesLookup n rest

/-- Replace a table in place (names are unique). -/
def tablesSet (n : String) (t : Table) : List (String × Table) → List (String × Table)
  | [] => [(n, t)]
  | (n', t') :: rest => if n' = n then (n', t) :: rest else (n', t') :: tablesSet n t rest

/-- `JSONLite.validate_item_schema` for the type `tn`: an unknown type has
the empty schema `{}`, which every item satisfies. -/
def validateItemSchema (st : Store) (tn : String) (item : JVal) : List String :=
  match st.schemas tn with
  | none => []
  | some p => if p item then [] else ["Item could not be validated"]

/-- Columns of `_create_table`: `uid`, the discriminator, then the item's
column names other than those two. -/
def createTableCols (disc : String) (colNames : List String) : List String :=
  "uid" :: disc :: colNames.filter (fun c => c ≠ disc && c ≠ "uid")

/-- `JSONLite._ensure_table`: create the table (validating first) or add the
missing columns (validating first); an existing table with no missing
columns is left alone without validation. -/
def ensureTable (st : Store) (tn : String) (colNames : List String)
    (flatKeys : List String) (item : JVal) : Except String Store :=
  match tablesLookup tn st.tables with
  | none =>
      if validateItemSchema st tn item = [] then
        .ok { st with tables := st.tables ++ [(tn, ⟨createTableCols st.disc colNames, []⟩)] }
      else .error "item could not be validated"
  | some tbl =>
      let missing := flatKeys.filter (fun c => !(decide (c ∈ tbl.cols)))
      if missing = [] then .ok st
      else if validateItemSchema st tn item = [] then
        .ok { st with tables := tablesSet tn ⟨tbl.cols ++ missing, tbl.rows⟩ st.tables }
      else .error "item could not be validated"

/-- Append a row to a table (the INSERT statement). -/
def addRow (st : Store) (tn : String) (row : List (String × JVal)) : Store :=
  match tablesLookup tn st.tables with
  | some tbl => { st with tables := tablesSet tn ⟨tbl.cols, tbl.rows ++ [row]⟩ st.tables }
  | none => st

/-- `<type>--<uuid>`. -/
def mkUid (t uuid : String) : String := t ++ "--" ++ uuid

/-- `JSONLite.insert`.  `freshUuid` stands for `uuid.uuid4()`.  Returns the
result (uid or error), the new store, and the caller's dict as `insert`
leaves it (the `item['uid'] = …` assignment mutates the argument).
A non-string discriminator value soon hits a `TypeError` in Python on every
path that uses it; those paths are modelled as an early error. -/
def insert (st : Store) (freshUuid : String) (item : JVal) :
    Except String String × Store × JVal :=
  match item with
  | .obj fields =>
      match objLookup st.disc fields with
      | none => (.error "Missing discriminator", st, .obj fields)
      | some (.str t) =>
          let fields1 := if (objLookup "uid" fields).isSome then fields
            else fields ++ [("uid", .str (mkUid t freshUuid))]
          let parts := flattenItemParts fields1
          match ensureTable st t parts.1 (parts.2.2.1.map Prod.fst) (.obj parts.2.2.2) with
          | .error e => (.error e, st, .obj fields1)
          | .ok st1 =>
              if st.strict ∧ validateItemSchema st t (.obj parts.2.2.2) ≠ [] then
                (.error "item could not be validated", st1, .obj fields1)
              else
                match objLookup "uid" parts.2.2.2 with
                | some (.str uid) =>
                    (.ok uid, addRow st1 t (parts.1.zip parts.2.1), .obj fields1)
                | _ => (.error "missing uid", addRow st1 t (parts.1.zip parts.2.1), .obj fields1)
      | some _ => (.error "discriminator is not a string", st, .obj fields)
  | v => (.error "item is not a dict", st, v)

/-- Python `s.partition("--")` (before, after); when the separator is
absent, `(s, "")`. -/
def partitionDashesChars : List Char → List Char × List Char
  | [] => ([], [])
  | '-' :: '-' :: rest => ([], rest)
  | c :: rest =>
      let (a, b) := partitionDashesChars rest
      (c :: a, b)

/-- `item_id.partition("--")`, keeping the before/after parts. -/
def partitionDashes (s : String) : String × String :=
  let (a, b) := partitionDashesChars s.data
  (String.mk a, String.mk b)

/-- A SQL row object: the table's columns with NULLs dropped, in column
order (`_row_to_item`'s `row.keys()` iteration). -/
def rowRead (cols : List String) (row : List (String × JVal)) : List (String × JVal) :=
  cols.filterMap (fun c =>
    match objLookup c row with
    | some v => if isNull v then none else some (c, v)
    | none => none)

/-- `WHERE uid=?` row match. -/
def uidMatches (row : List (String × JVal)) (uid : String) : Bool :=
  match objLookup "uid" row with
  | some (.str s) => s = uid
  | _ => false

/-- `fetchone` on `SELECT * … WHERE uid=?`. -/
def findRowByUid (uid : String) (rows : List (List (String × JVal))) :
    Option (List (String × JVal)) :=
  rows.find? (fun row => uidMatches row uid)

/-- `JSONLite.get`: parse the type prefix, select by uid, unflatten. -/
def getItem (st : Store) (itemId : String) : Option JVal :=
  match tablesLookup (partitionDashes itemId).1 st.tables with
  | none => none
  | some tbl =>
      match findRowByUid itemId tbl.rows with
      | none => none
      | some row => some (rowToItem (rowRead tbl.cols row))

/-- Python `dict.update`: apply `b`'s bindings over `a` in order. -/
def dictUpdate (a b : List (String × JVal)) : List (String × JVal) :=
  b.foldl (fun acc kv => objSet kv.1 kv.2 acc) a

/-- The UPDATE statement: set each key of `sets` on a row. -/
def updateRow (row : List (String × JVal)) (sets : List (String × JVal)) :
    List (String × JVal) :=
  sets.foldl (fun acc kv => objSet kv.1 kv.2 acc) row

/-- `UPDATE "<tn>" SET … WHERE uid=?`. -/
def updateRowByUid (st : Store) (tn uid : String) (sets : List (String × JVal)) : Store :=
  match tablesLookup tn st.tables with
  | some tbl =>
      let tbl' : Table := ⟨tbl.cols, tbl.rows.map (fun row =>
        if uidMatches row uid then updateRow row sets else row)⟩
      { st with tables := tablesSet tn tbl' st.tables }
  | none => st

/-- `DELETE FROM "<tn>" WHERE uid=?` (the table exists at every call site,
since `get` succeeded on it). -/
def deleteRow (st : Store) (tn uid : String) : Store :=
  match tablesLookup tn st.tables with
  | some tbl =>
      let tbl' : Table := ⟨tbl.cols, tbl.rows.filter (fun row => !(uidMatches row uid))⟩
      { st with tables := tablesSet tn tbl' st.tables }
  | none => st

/-- `v == oldT` against a string, as Python compares the discriminators. -/
def isStrEq (v : JVal) (s : String) : Bool :=
  match v with
  | .str s' => s' = s
  | _ => false

/-- The non-type-change tail of `JSONLite.update`: flatten the merged item,
ensure columns, and UPDATE every key of the flattened merged item by uid.
Returns the result, the new store, and the list of keys the UPDATE set. -/
def updateSameType (st : Store) (itemId : String) (tn : String)
    (updated : List (String × JVal)) : Except String String × Store × List String :=
  let parts := flattenItemParts updated
  match ensureTable st tn parts.1 (parts.2.2.1.map Prod.fst) (.obj updated) with
  | .error e => (.error e, st, [])
  | .ok st1 =>
      let setKeys := parts.2.2.1.map Prod.fst
      let st2 := updateRowByUid st1 tn itemId parts.2.2.1
      match objLookup "uid" parts.2.2.2 with
      | some (.str u) => (.ok u, st2, setKeys)
      | _ => (.error "missing uid", st2, setKeys)

/-- `JSONLite.update`.  Merge the partial over the current record; on a
discriminator change, delete the old row and re-insert under
`<newtype>--<old uuid suffix>`; otherwise UPDATE in place. -/
def update (st : Store) (freshUuid : String) (itemId : String)
    (p : List (String × JVal)) : Except String String × Store × List String :=
  match getItem st itemId with
  | none => (.error "Item does not exist", st, [])
  | some (.obj preFields) =>
      match objLookup st.disc preFields with
      | some (.str oldT) =>
          let updated := dictUpdate preFields p
          match objLookup st.disc p with
          | some pv =>
              if isStrEq pv oldT then updateSameType st itemId oldT updated
              else
                match pv with
                | .str newT =>
                    let newUid := mkUid newT (partitionDashes itemId).2
                    let updated2 := objSet "uid" (.str newUid) updated
                    let st1 := deleteRow st oldT itemId
                    let r := insert st1 freshUuid (.obj updated2)
                    (r.1, r.2.1, [])
                | _ => (.error "discriminator is not a string", st, [])
          | none => updateSameType st itemId oldT updated
      | _ => (.error "discriminator is not a string", st, [])
  | some _ => (.error "item is not a dict", st, [])

/-- SQLite `LIKE` lowering for ASCII (LIKE is ASCII-case-insensitive). -/
def asciiLower (c : Char) : Char :=
  if 'A' ≤ c ∧ c ≤ 'Z' then Char.ofNat (c.toNat + 32) else c

/-- `name LIKE '%needle%'` with SQLite's ASCII case folding. -/
def containsCI (needle hay : String) : Bool :=
  decide ((needle.data.map asciiLower) <:+: (hay.data.map asciiLower))

/-- The table names `JSONLite.all` iterates: catalog names filtered by
`name NOT LIKE '%sqlite%'`, then by `not name.startswith("_")`. -/
def allTableNames (st : Store) : List String :=
  ((st.tables.map Prod.fst).filter (fun n => !containsCI "sqlite" n)).filter
    (fun n => !(("_".data).isPrefixOf n.data))

/-- `JSONLite.all`: every row of every visible table, unflattened. -/
def allItems (st : Store) : List JVal :=
  (allTableNames st).flatMap (fun n =>
    match tablesLookup n st.tables with
    | some tbl => tbl.rows.map (fun row => rowToItem (rowRead tbl.cols row))
    | none => [])

end JStore

namespace JStore

open JVal

/-- Split a char list at the LAST occurrence of `c`: `some (a, b)` with the
input `a ++ c :: b` and `c ∉ b`; `none` when `c` is absent. -/
def splitLast (c : Char) : List Char → Option (List Char × List Char)
  | [] => none
  | x :: rest =>
      match splitLast c rest with
      | some (a, b) => some (x :: a, b)
      | none => if x = c then some ([], rest) else none

/-- `fs.path.splitext` (external pyfilesystem collaborator), spec-modelled:
split the path into a stem and its `.ext` suffix at the last dot, or
`(path, "")` without one. -/
def splitext (s : String) : String × String :=
  match splitLast '.' s.data with
  | some (a, b) => (String.mk a, String.mk ('.' :: b))
  | none => (s, "")

/-- The `while self.remote_fs.exists(…)` loop of `JSONLite.store_file`:
`cur` is the candidate under test, `i` the next suffix to try.  The fuel is
an upper bound on iterations; `fsList.length + 1` always suffices since
candidates never repeat. -/
def storeLoop (fsList : List String) (base ext : String) : Nat → String → Nat → String
  | 0, cur, _ => cur
  | fuel + 1, cur, i =>
      if cur ∈ fsList then
        storeLoop fsList base ext fuel (base ++ "_" ++ natRepr i ++ ext) (i + 1)
      else cur

/-- The path `JSONLite.store_file` settles on for `filePath` against the
existing files `fsList`. -/
def storeFilePath (fsList : List String) (filePath : String) : String :=
  storeLoop fsList (splitext filePath).1 (splitext filePath).2 (fsList.length + 1) filePath 0

/-- `store_file` itself: the chosen path, and the file system after
`HashedFile` exclusively creates the file there (`open(…, 'xb+')`). -/
def storeFile (fsList : List String) (filePath : String) : String × List String :=
  (storeFilePath fsList filePath, storeFilePath fsList filePath :: fsList)

/-- The candidate sequence of the loop: the desired path first, then
`base_0.ext`, `base_1.ext`, … -/
def cand (filePath : String) : Nat → String
  | 0 => filePath
  | j + 1 => (splitext filePath).1 ++ "_" ++ natRepr j ++ (splitext filePath).2

/-- A remote file's observable attributes for `validate_item_check`:
`getsize` and the MD5/SHA-1 hex digests. -/
structure FileEntry where
  size : Int
  md5 : String
  sha1 : String

/-- One entry of `item["hashes"]`: MD5 and SHA-1 are recomputed and
compared, anything else is an unsupported-hash error. -/
def hashCheck (entry : FileEntry) (exportPath : String) (kv : String × JVal) :
    List String :=
  if kv.1 = "MD5" then
    match kv.2 with
    | .str s => if entry.md5 = s then [] else ["hashvalue mismatch MD5 for " ++ exportPath]
    | _ => ["hashvalue mismatch MD5 for " ++ exportPath]
  else if kv.1 = "SHA-1" then
    match kv.2 with
    | .str s => if entry.sha1 = s then [] else ["hashvalue mismatch SHA-1 for " ++ exportPath]
    | _ => ["hashvalue mismatch SHA-1 for " ++ exportPath]
  else ["unsupported hash " ++ kv.1 ++ " for " ++ exportPath]

/-- The body `validate_item` runs for one `*_path` field: errors and
expected files it contributes.  `fsys` is the remote file system
(`None` = `exists` false).  A `..` in the path short-circuits with a single
error and no expected file; otherwise the path joins the expected set, and
an existing file gets its size and hashes checked.  (A non-string path
value raises a `TypeError` in Python; it is modelled as contributing
nothing, and no claim exercises it.) -/
def pathFieldCheck (fsys : String → Option FileEntry) (item : List (String × JVal))
    (value : JVal) : List String × List String :=
  match value with
  | .str exportPath =>
      if (['.', '.'] : List Char) <:+: exportPath.data then
        (["'..' in " ++ exportPath], [])
      else
        let expected := ["/" ++ exportPath]
        match fsys exportPath with
        | none => ([], expected)
        | some entry =>
            let sizeErrs :=
              match objLookup "size" item with
              | none => []
              | some (.int n) =>
                  if n = entry.size then [] else ["wrong size for " ++ exportPath]
              | some _ => ["wrong size for " ++ exportPath]
            let hashErrs :=
              match objLookup "hashes" item with
              | some (.obj hs) => hs.flatMap (hashCheck entry exportPath)
              | _ => []
            (sizeErrs ++ hashErrs, expected)
  | _ => ([], [])

/-- `JSONLite.validate_item`: discriminator presence, the JSON schema, then
each field ending in `_path`.  Returns (validation errors, expected
files). -/
def validateItem (st : Store) (fsys : String → Option FileEntry)
    (fields : List (String × JVal)) : List String × List String :=
  let discErrs := if (objLookup st.disc fields).isSome then []
    else ["Item needs to have a discriminator"]
  let schemaErrs :=
    match objLookup st.disc fields with
    | some (.str t) => validateItemSchema st t (.obj fields)
    | _ => []
  let fieldChecks := fields.map (fun kv =>
    if ("_path".data).isSuffixOf kv.1.data then pathFieldCheck fsys fields kv.2
    else ([], []))
  (discErrs ++ schemaErrs ++ fieldChecks.flatMap Prod.fst, fieldChecks.flatMap Prod.snd)

end JStore

/-! ### `ForensicStore.add_registry_value_item` (`forensicstore.py`)

Only the `strdata` derivation is modelled; bytes are `Nat`s below 256 and
the UTF-16 decoder is an opaque parameter (Python's codec). -/

namespace FStore

/-- `int.from_bytes(data, "little")`. -/
def fromBytesLE (data : List Nat) : Nat :=
  data.foldr (fun b acc => b + 256 * acc) 0

/-- The two lowercase hex digits of one byte (`bytes.hex`). -/
def byteHexChars (b : Nat) : List Char :=
  [Nat.digitChar (b / 16 % 16), Nat.digitChar (b % 16)]

/-- `l[::2]`. -/
def evens {α : Type} : List α → List α
  | [] => []
  | [x] => [x]
  | x :: _ :: rest => x :: evens rest

/-- `l[1::2]`. -/
def odds {α : Type} : List α → List α
  | [] => []
  | [_] => []
  | _ :: y :: rest => y :: odds rest

/-- `' '.join(a+b for a,b in zip(hexdata[::2], hexdata[1::2]))` over
`data.hex()`. -/
def hexDump (data : List Nat) : String :=
  let hexChars := data.flatMap byteHexChars
  String.intercalate " " (((evens hexChars).zip (odds hexChars)).map
    (fun ab => String.mk [ab.1, ab.2]))

/-- Python `str.split(sep)` for a one-char separator. -/
def splitOnCharAux (sep : Char) : List Char → List Char → List String
  | [], acc => [String.mk acc.reverse]
  | c :: rest, acc =>
      if c = sep then String.mk acc.reverse :: splitOnCharAux sep rest []
      else splitOnCharAux sep rest (c :: acc)

/-- Python `s.split(sep)` for a one-char separator. -/
def splitOnChar (sep : Char) (s : String) : List String :=
  splitOnCharAux sep s.data []

/-- The `strdata` computed by `add_registry_value_item` from the value type
and raw bytes.  `utf16Decode` stands for `bytes.decode("utf-16")`, which
can fail (`none`). -/
def addRegistryValueStrdata (utf16Decode : List Nat → Option String)
    (dataType : String) (data : List Nat) : Option String :=
  if dataType = "REG_SZ" ∨ dataType = "REG_EXPAND_SZ" then utf16Decode data
  else if dataType = "REG_DWORD" ∨ dataType = "REG_QWORD" then
    some (natRepr (fromBytesLE data))
  else if dataType = "MULTI_SZ" then
    (utf16Decode data).map (fun s => String.intercalate " " (splitOnChar '\x00' s))
  else
    some (hexDump data)

end FStore

namespace JVal

theorem zip_map_fst_snd (l : List (String × JVal)) :
    (l.map Prod.fst).zip (l.map Prod.snd) = l := by
  induction l with
  | nil => rfl
  | cons kv rest ih => rw [List.map_cons, List.map_cons, List.zip_cons_cons, ih]

theorem objLookup_append (k : String) (A B : List (String × JVal)) :
    objLookup k (A ++ B) = (match objLookup k A with
      | some v => some v
      | none => objLookup k B) := by
  induction A with
  | nil => rfl
  | cons kv rest ih =>
      obtain ⟨k0, v0⟩ := kv
      by_cases h0 : k0 = k
      · rw [List.cons_append, objLookup_cons, objLookup_cons, if_pos h0, if_pos h0]
      · rw [List.cons_append, objLookup_cons, objLookup_cons, if_neg h0, if_neg h0, ih]

theorem objLookup_filter_none (k : String) (p : String × JVal → Bool)
    (fs : List (String × JVal)) (h : objLookup k fs = none) :
    objLookup k (fs.filter p) = none := by
  rw [objLookup_eq_none_iff_not_mem] at h ⊢
  intro hm
  apply h
  rcases List.mem_map.1 hm with ⟨kv, hkv, hk⟩
  exact List.mem_map.2 ⟨kv, (List.filter_sublist fs).subset hkv, hk⟩

/-- Values in the flattened output are scalars: `flatten` recurses through
lists and objects, so no list or object ever appears as a leaf value. -/
theorem flatten_scalar_aux : ∀ n : Nat,
    (∀ v : JVal, sizeOf v ≤ n → ∀ pv ∈ flattenVal v, isEmptyList pv.2 = false) ∧
    (∀ fs : List (String × JVal), sizeOf fs ≤ n →
      ∀ pv ∈ flattenObj fs, isEmptyList pv.2 = false) ∧
    (∀ xs : List JVal, sizeOf xs ≤ n → ∀ i, ∀ pv ∈ flattenList i xs,
      isEmptyList pv.2 = false) := by
  intro n
  induction n with
  | zero =>
      refine ⟨fun v hv => ?_, fun fs hfs => ?_, fun xs hxs => ?_⟩
      · cases v <;> simp at hv
      · cases fs <;> simp at hfs
      · cases xs <;> simp at hxs
  | succ n ih =>
      obtain ⟨ihv, ihobj, ihlist⟩ := ih
      refine ⟨fun v hv => ?_, fun fs hfs => ?_, fun xs hxs => ?_⟩
      · cases v with
        | null =>
            intro pv hm
            rcases List.mem_singleton.1 hm with rfl
            rfl
        | int m =>
            intro pv hm
            rcases List.mem_singleton.1 hm with rfl
            rfl
        | str s =>
            intro pv hm
            rcases List.mem_singleton.1 hm with rfl
            rfl
        | list xs =>
            have hxs : sizeOf xs ≤ n := by
              simp at hv
              omega
            exact fun pv hm => ihlist xs hxs 0 pv hm
        | obj fs =>
            have hfs : sizeOf fs ≤ n := by
              simp at hv
              omega
            exact fun pv hm => ihobj fs hfs pv hm
      · induction fs with
        | nil => intro pv hm; simp [flattenObj] at hm
        | cons kv rest ihr =>
            obtain ⟨k, v⟩ := kv
            have hv : sizeOf v ≤ n := by
              simp at hfs
              omega
            have hrest : sizeOf rest ≤ n + 1 := by
              simp at hfs
              omega
            intro pv hm
            rw [show flattenObj ((k, v) :: rest) =
              (flattenVal v).map (fun pv => (k :: pv.1, pv.2)) ++ flattenObj rest from rfl] at hm
            rcases List.mem_append.1 hm with hm | hm
            · rcases List.mem_map.1 hm with ⟨pv0, hpv0, rfl⟩
              exact ihv v hv pv0 hpv0
            · exact ihr hrest pv hm
      · induction xs with
        | nil => intro i pv hm; simp [flattenList] at hm
        | cons v rest ihr =>
            have hv : sizeOf v ≤ n := by
              simp at hxs
              omega
            have hrest : sizeOf rest ≤ n + 1 := by
              simp at hxs
              omega
            intro i pv hm
            rw [show flattenList i (v :: rest) =
              (flattenVal v).map (fun pv => (natRepr i :: pv.1, pv.2)) ++
                flattenList (i + 1) rest from rfl] at hm
            rcases List.mem_append.1 hm with hm | hm
            · rcases List.mem_map.1 hm with ⟨pv0, hpv0, rfl⟩
              exact ihv v hv pv0 hpv0
            · exact ihr hrest (i + 1) pv hm

theorem flattenObj_no_emptylist (fs : List (String × JVal)) :
    ∀ pv ∈ flattenObj fs, isEmptyList pv.2 = false :=
  (flatten_scalar_aux (sizeOf fs)).2.1 fs (Nat.le_refl _)

/-- The empty-list column filter of `_flatten_item` is vacuous: columns are
exactly the flat entries. -/
theorem flat_filter_emptylist (G : List (String × JVal)) :
    ((flattenObj G).map (fun pv => (joinDots pv.1, pv.2))).filter
      (fun kv => !isEmptyList kv.2) =
      (flattenObj G).map (fun pv => (joinDots pv.1, pv.2)) := by
  apply List.filter_eq_self.2
  intro kv hm
  rcases List.mem_map.1 hm with ⟨pv, hpv, rfl⟩
  rw [show ((joinDots pv.1, pv.2) : String × JVal).2 = pv.2 from rfl,
    flattenObj_no_emptylist _ pv hpv]
  rfl

theorem flattenItemParts_zip (fs : List (String × JVal)) :
    (flattenItemParts fs).1.zip (flattenItemParts fs).2.1 = (flattenItemParts fs).2.2.1 := by
  show (List.map Prod.fst _).zip (List.map Prod.snd _) = _
  rw [flat_filter_emptylist, zip_map_fst_snd]
  rfl

theorem flattenItemParts_colnames (fs : List (String × JVal)) :
    (flattenItemParts fs).1 = ((flattenItemParts fs).2.2.1).map Prod.fst := by
  show List.map Prod.fst _ = _
  rw [flat_filter_emptylist]
  rfl

/-- Keys of the flattened record are duplicate-free for safe records:
paths are duplicate-free and joining is injective on canonical paths. -/
theorem flatKeys_nodup (G : List (String × JVal)) (hsafe : safeObj G = true) :
    ((((flattenObj G).map (fun pv => (joinDots pv.1, pv.2)))).map Prod.fst).Nodup := by
  have hOk : FlatOk (flattenObj G) := flattenObj_flatOk G hsafe
  rw [List.map_map]
  have heq : ((flattenObj G).map (Prod.fst ∘ fun pv => (joinDots pv.1, pv.2))) =
      ((flattenObj G).map Prod.fst).map joinDots := by
    rw [List.map_map]
    rfl
  rw [heq]
  apply List.Nodup.map_on _ hOk.nodup
  intro p hp q hq hpq
  rcases List.mem_map.1 hp with ⟨pv, hpv, rfl⟩
  rcases List.mem_map.1 hq with ⟨qv, hqv, rfl⟩
  have hp1 : splitDots (joinDots pv.1) = pv.1 :=
    splitDots_joinDots pv.1 (flattenObj_paths_ne_nil G pv hpv)
      (fun s hs => (hOk.segs pv hpv s hs).1)
  have hq1 : splitDots (joinDots qv.1) = qv.1 :=
    splitDots_joinDots qv.1 (flattenObj_paths_ne_nil G qv hqv)
      (fun s hs => (hOk.segs qv hqv s hs).1)
  rw [← hp1, ← hq1, hpq]

/-- A scalar string field appears verbatim among the dotted flat entries. -/
theorem mem_flat_of_mem_str (G : List (String × JVal)) (k s : String)
    (hm : (k, JVal.str s) ∈ G) :
    (k, JVal.str s) ∈ (flattenObj G).map (fun pv => (joinDots pv.1, pv.2)) := by
  induction G with
  | nil => simp at hm
  | cons kv rest ih =>
      rw [show flattenObj (kv :: rest) =
        (flattenVal kv.2).map (fun pv => (kv.1 :: pv.1, pv.2)) ++ flattenObj rest from
        (by obtain ⟨a, b⟩ := kv; rfl), List.map_append]
      rcases List.mem_cons.1 hm with h | h
      · apply List.mem_append_left
        rw [← h]
        show (k, JVal.str s) ∈ [(joinDots [k], JVal.str s)]
        rw [show joinDots [k] = k from rfl]
        exact List.mem_singleton.2 rfl
      · exact List.mem_append_right _ (ih h)

theorem rowRead_nonNull (cols : List String) (row : List (String × JVal)) :
    ∀ kv ∈ JStore.rowRead cols row, isNull kv.2 = false := by
  intro kv hm
  rcases List.mem_filterMap.1 hm with ⟨c, _, hc⟩
  rcases hlook : objLookup c row with _ | v
  · rw [hlook] at hc
    exact absurd hc (by simp)
  · rw [hlook] at hc
    by_cases hnull : isNull v = true
    · rw [show (match some v with
        | some v => if isNull v then none else some (c, v)
        | none => none) = if isNull v then none else some (c, v) from rfl,
        if_pos hnull] at hc
      exact absurd hc (by simp)
    · rw [show (match some v with
        | some v => if isNull v then none else some (c, v)
        | none => none) = if isNull v then none else some (c, v) from rfl,
        if_neg hnull] at hc
      injection hc with hc
      rw [← hc]
      exact Bool.of_not_eq_true hnull

theorem mem_rowRead_iff (cols : List String) (row : List (String × JVal))
    (k : String) (v : JVal) :
    (k, v) ∈ JStore.rowRead cols row ↔
      k ∈ cols ∧ objLookup k row = some v ∧ isNull v = false := by
  constructor
  · intro hm
    rcases List.mem_filterMap.1 hm with ⟨c, hcmem, hc⟩
    rcases hlook : objLookup c row with _ | w
    · rw [hlook] at hc
      exact absurd hc (by simp)
    · rw [hlook] at hc
      by_cases hnull : isNull w = true
      · rw [show (match some w with
          | some v => if isNull v then none else some (c, v)
          | none => none) = if isNull w then none else some (c, w) from rfl,
          if_pos hnull] at hc
        exact absurd hc (by simp)
      · rw [show (match some w with
          | some v => if isNull v then none else some (c, v)
          | none => none) = if isNull w then none else some (c, w) from rfl,
          if_neg hnull] at hc
        injection hc with hc
        have hck : c = k := congrArg Prod.fst hc
        have hwv : w = v := congrArg Prod.snd hc
        subst hck
        subst hwv
        exact ⟨hcmem, hlook, Bool.of_not_eq_true hnull⟩
  · rintro ⟨hk, hlook, hnull⟩
    apply List.mem_filterMap.2
    refine ⟨k, hk, ?_⟩
    rw [hlook]
    show (if isNull v then none else some (k, v)) = some (k, v)
    rw [hnull]
    rfl

theorem rowRead_nodup (cols : List String) (row : List (String × JVal))
    (hnd : cols.Nodup) : (JStore.rowRead cols row).Nodup := by
  apply List.Nodup.filterMap _ hnd
  intro a b kv hkva hkvb
  have ha : a = kv.1 := by
    rcases hlook : objLookup a row with _ | w
    · rw [hlook] at hkva
      exact absurd hkva (by simp)
    · rw [hlook] at hkva
      by_cases hnull : isNull w = true
      · rw [show (match some w with
          | some v => if isNull v then none else some (a, v)
          | none => none) = if isNull w then none else some (a, w) from rfl,
          if_pos hnull] at hkva
        exact absurd hkva (by simp)
      · rw [show (match some w with
          | some v => if isNull v then none else some (a, v)
          | none => none) = if isNull w then none else some (a, w) from rfl,
          if_neg hnull] at hkva
        rcases hkva with ⟨rfl⟩
        rfl
  have hb : b = kv.1 := by
    rcases hlook : objLookup b row with _ | w
    · rw [hlook] at hkvb
      exact absurd hkvb (by simp)
    · rw [hlook] at hkvb
      by_cases hnull : isNull w = true
      · rw [show (match some w with
          | some v => if isNull v then none else some (b, v)
          | none => none) = if isNull w then none else some (b, w) from rfl,
          if_pos hnull] at hkvb
        exact absurd hkvb (by simp)
      · rw [show (match some w with
          | some v => if isNull v then none else some (b, v)
          | none => none) = if isNull w then none else some (b, w) from rfl,
          if_neg hnull] at hkvb
        rcases hkvb with ⟨rfl⟩
        rfl
  rw [ha, hb]

/-- The SELECT-* readback is a permutation of any duplicate-free pair list
`S` characterized by the same membership condition. -/
theorem rowRead_perm_of_iff (cols : List String) (row S : List (String × JVal))
    (hndc : cols.Nodup) (hndS : S.Nodup)
    (hiff : ∀ k v, (k ∈ cols ∧ objLookup k row = some v ∧ isNull v = false) ↔ (k, v) ∈ S) :
    (JStore.rowRead cols row).Perm S := by
  apply (List.perm_ext_iff_of_nodup (rowRead_nodup cols row hndc) hndS).2
  intro kv
  obtain ⟨k, v⟩ := kv
  rw [mem_rowRead_iff, hiff]

end JVal

namespace JStore

open JVal

theorem tablesLookup_tablesSet_self (n : String) (t : Table) (T : List (String × Table)) :
    tablesLookup n (tablesSet n t T) = some t := by
  induction T with
  | nil =>
      show (if n = n then some t else tablesLookup n []) = some t
      rw [if_pos rfl]
  | cons nt rest ih =>
      obtain ⟨n', t'⟩ := nt
      by_cases h : n' = n
      · rw [show tablesSet n t ((n', t') :: rest) =
          (if n' = n then (n', t) :: rest else (n', t') :: tablesSet n t rest) from rfl,
          if_pos h]
        show (if n' = n then some t else tablesLookup n rest) = some t
        rw [if_pos h]
      · rw [show tablesSet n t ((n', t') :: rest) =
          (if n' = n then (n', t) :: rest else (n', t') :: tablesSet n t rest) from rfl,
          if_neg h]
        show (if n' = n then some t' else tablesLookup n (tablesSet n t rest)) = some t
        rw [if_neg h, ih]

theorem tablesLookup_tablesSet_ne (n m : String) (t : Table) (T : List (String × Table))
    (h : m ≠ n) : tablesLookup m (tablesSet n t T) = tablesLookup m T := by
  induction T with
  | nil =>
      show (if n = m then some t else tablesLookup m []) = tablesLookup m []
      rw [if_neg (fun hx => h hx.symm)]
  | cons nt rest ih =>
      obtain ⟨n', t'⟩ := nt
      by_cases h' : n' = n
      · rw [show tablesSet n t ((n', t') :: rest) =
          (if n' = n then (n', t) :: rest else (n', t') :: tablesSet n t rest) from rfl,
          if_pos h']
        show (if n' = m then some t else tablesLookup m rest) =
          (if n' = m then some t' else tablesLookup m rest)
        have hnm : ¬ n' = m := by
          intro hx
          exact h (by rw [← hx, h'])
        rw [if_neg hnm, if_neg hnm]
      · rw [show tablesSet n t ((n', t') :: rest) =
          (if n' = n then (n', t) :: rest else (n', t') :: tablesSet n t rest) from rfl,
          if_neg h']
        show (if n' = m then some t' else tablesLookup m (tablesSet n t rest)) =
          (if n' = m then some t' else tablesLookup m rest)
        by_cases hm : n' = m
        · rw [if_pos hm, if_pos hm]
        · rw [if_neg hm, if_neg hm, ih]

theorem tablesLookup_append (n : String) (A B : List (String × Table)) :
    tablesLookup n (A ++ B) = (match tablesLookup n A with
      | some t => some t
      | none => tablesLookup n B) := by
  induction A with
  | nil => rfl
  | cons nt rest ih =>
      obtain ⟨n', t'⟩ := nt
      by_cases h : n' = n
      · rw [List.cons_append]
        show (if n' = n then some t' else tablesLookup n (rest ++ B)) = _
        rw [if_pos h]
        show some t' = (match if n' = n then some t' else tablesLookup n rest with
          | some t => some t
          | none => tablesLookup n B)
        rw [if_pos h]
      · rw [List.cons_append]
        show (if n' = n then some t' else tablesLookup n (rest ++ B)) = _
        rw [if_neg h, ih]
        show _ = (match if n' = n then some t' else tablesLookup n rest with
          | some t => some t
          | none => tablesLookup n B)
        rw [if_neg h]

theorem map_fst_tablesSet (n : String) (t : Table) (T : List (String × Table)) :
    (tablesSet n t T).map Prod.fst = T.map Prod.fst ∨
    (tablesSet n t T).map Prod.fst = T.map Prod.fst ++ [n] := by
  induction T with
  | nil => exact Or.inr rfl
  | cons nt rest ih =>
      obtain ⟨n', t'⟩ := nt
      by_cases h : n' = n
      · left
        rw [show tablesSet n t ((n', t') :: rest) =
          (if n' = n then (n', t) :: rest else (n', t') :: tablesSet n t rest) from rfl,
          if_pos h]
        rfl
      · rw [show tablesSet n t ((n', t') :: rest) =
          (if n' = n then (n', t) :: rest else (n', t') :: tablesSet n t rest) from rfl,
          if_neg h, List.map_cons, List.map_cons]
        rcases ih with ih | ih
        · left
          rw [ih]
        · right
          rw [ih]
          rfl

theorem findRowByUid_cons (uid : String) (r : List (String × JVal))
    (rows : List (List (String × JVal))) :
    findRowByUid uid (r :: rows) =
      (if uidMatches r uid then some r else findRowByUid uid rows) := by
  cases h : uidMatches r uid
  · simp [findRowByUid, List.find?_cons, h]
  · simp [findRowByUid, List.find?_cons, h]

theorem findRowByUid_append_last (uid : String) (rows : List (List (String × JVal)))
    (row : List (String × JVal)) (h : ∀ r ∈ rows, uidMatches r uid = false)
    (hm : uidMatches row uid = true) :
    findRowByUid uid (rows ++ [row]) = some row := by
  induction rows with
  | nil =>
      rw [show ([] : List (List (String × JVal))) ++ [row] = [row] from rfl,
        findRowByUid_cons, if_pos hm]
  | cons r rest ih =>
      rw [List.cons_append, findRowByUid_cons,
        if_neg (by rw [h r (List.mem_cons_self _ _)]; exact Bool.false_ne_true)]
      exact ih (fun r2 hr2 => h r2 (List.mem_cons_of_mem _ hr2))

theorem updateRow_lookup (sets : List (String × JVal)) (row : List (String × JVal))
    (hnd : (sets.map Prod.fst).Nodup) (k : String) :
    objLookup k (updateRow row sets) = (match objLookup k sets with
      | some v => some v
      | none => objLookup k row) := by
  induction sets generalizing row with
  | nil => rfl
  | cons kv rest ih =>
      obtain ⟨k0, v0⟩ := kv
      rw [List.map_cons, List.nodup_cons] at hnd
      have hstep : updateRow row ((k0, v0) :: rest) = updateRow (objSet k0 v0 row) rest := rfl
      rw [hstep, ih (objSet k0 v0 row) hnd.2]
      by_cases h0 : k0 = k
      · subst h0
        have hrest : objLookup k0 rest = none := by
          rw [objLookup_eq_none_iff_not_mem]
          exact hnd.1
        rw [hrest, objLookup_objSet_self]
        show some v0 = (match objLookup k0 ((k0, v0) :: rest) with
          | some v => some v
          | none => objLookup k0 row)
        rw [objLookup_cons, if_pos rfl]
      · rw [objLookup_objSet_ne _ _ _ _ h0]
        show _ = (match objLookup k ((k0, v0) :: rest) with
          | some v => some v
          | none => objLookup k row)
        rw [objLookup_cons, if_neg h0]

theorem nodup_objKeys_updateRow (row sets : List (String × JVal))
    (hnd : (objKeys row).Nodup) : (objKeys (updateRow row sets)).Nodup := by
  induction sets generalizing row with
  | nil => exact hnd
  | cons kv rest ih =>
      obtain ⟨k0, v0⟩ := kv
      have hstep : updateRow row ((k0, v0) :: rest) = updateRow (objSet k0 v0 row) rest := rfl
      rw [hstep]
      apply ih
      rw [objKeys_objSet]
      by_cases hm : k0 ∈ objKeys row
      · rw [if_pos hm]
        exact hnd
      · rw [if_neg hm]
        exact List.Nodup.append hnd (List.nodup_singleton _)
          (by
            intro a ha hb
            rcases List.mem_singleton.1 hb with rfl
            exact hm ha)

theorem mem_objKeys_updateRow_iff (row sets : List (String × JVal)) (k : String) :
    k ∈ objKeys (updateRow row sets) ↔ k ∈ objKeys row ∨ k ∈ objKeys sets := by
  induction sets generalizing row with
  | nil => simp [updateRow, objKeys]
  | cons kv rest ih =>
      obtain ⟨k0, v0⟩ := kv
      have hstep : updateRow row ((k0, v0) :: rest) = updateRow (objSet k0 v0 row) rest := rfl
      rw [hstep, ih]
      rw [objKeys_objSet]
      by_cases hm : k0 ∈ objKeys row
      · rw [if_pos hm]
        constructor
        · rintro (h | h)
          · exact Or.inl h
          · exact Or.inr (List.mem_cons_of_mem _ h)
        · rintro (h | h)
          · exact Or.inl h
          · rcases List.mem_cons.1 h with rfl | h
            · exact Or.inl hm
            · exact Or.inr h
      · rw [if_neg hm]
        constructor
        · rintro (h | h)
          · rcases List.mem_append.1 h with h | h
            · exact Or.inl h
            · rcases List.mem_singleton.1 h with rfl
              exact Or.inr (List.mem_cons_self _ _)
          · exact Or.inr (List.mem_cons_of_mem _ h)
        · rintro (h | h)
          · exact Or.inl (List.mem_append_left _ h)
          · rcases List.mem_cons.1 h with rfl | h
            · exact Or.inl (List.mem_append_right _ (List.mem_singleton.2 rfl))
            · exact Or.inr h

theorem dictUpdate_eq_updateRow (a b : List (String × JVal)) :
    dictUpdate a b = updateRow a b := rfl

end JStore

namespace JVal

theorem safeObj_append_str (fs : List (String × JVal)) (k s : String)
    (hsafe : safeObj fs = true) (hk : safeKey k = true) (hnk : k ∉ objKeys fs) :
    safeObj (fs ++ [(k, .str s)]) = true := by
  induction fs with
  | nil =>
      show safeObj [(k, .str s)] = true
      rw [show safeObj [(k, JVal.str s)] =
        (safeKey k && !(decide (k ∈ objKeys ([] : List (String × JVal)))) &&
          safeVal (.str s) && safeObj []) from rfl, hk]
      rfl
  | cons kv rest ih =>
      obtain ⟨k0, v0⟩ := kv
      rw [show safeObj ((k0, v0) :: rest) =
        (safeKey k0 && !(decide (k0 ∈ objKeys rest)) && safeVal v0 && safeObj rest) from rfl,
        Bool.and_eq_true, Bool.and_eq_true, Bool.and_eq_true] at hsafe
      obtain ⟨⟨⟨h1, h2⟩, h3⟩, h4⟩ := hsafe
      have hnk' : k ∉ objKeys rest := by
        intro hm
        exact hnk (List.mem_cons_of_mem _ hm)
      have hkk0 : k ≠ k0 := by
        intro he
        exact hnk (he ▸ List.mem_cons_self _ _)
      have hk0mem : k0 ∉ objKeys (rest ++ [(k, JVal.str s)]) := by
        intro hm
        rw [show objKeys (rest ++ [(k, JVal.str s)]) = objKeys rest ++ [k] from
          (by rw [objKeys, List.map_append]; rfl)] at hm
        rcases List.mem_append.1 hm with hm | hm
        · rw [Bool.not_eq_true', decide_eq_false_iff_not] at h2
          exact h2 hm
        · rcases List.mem_singleton.1 hm with rfl
          exact hkk0 rfl
      rw [List.cons_append,
        show safeObj ((k0, v0) :: (rest ++ [(k, JVal.str s)])) =
        (safeKey k0 && !(decide (k0 ∈ objKeys (rest ++ [(k, JVal.str s)]))) &&
          safeVal v0 && safeObj (rest ++ [(k, JVal.str s)])) from rfl,
        Bool.and_eq_true, Bool.and_eq_true, Bool.and_eq_true]
      refine ⟨⟨⟨h1, ?_⟩, h3⟩, ih h4 hnk'⟩
      rw [Bool.not_eq_true', decide_eq_false_iff_not]
      exact hk0mem

theorem objLookup_topErase_str (fs : List (String × JVal)) (k s : String)
    (hnd : (objKeys fs).Nodup) (hm : (k, JVal.str s) ∈ fs) :
    objLookup k (topEraseFields fs) = some (.str s) := by
  apply objLookup_eq_some_of_mem
  · exact List.Nodup.sublist ((List.filter_sublist fs).map Prod.fst) hnd
  · exact List.mem_filter.2 ⟨hm, by rfl⟩

end JVal

namespace JStore

open JVal

theorem createTableCols_nodup (disc : String) (cn : List String) (hnd : cn.Nodup)
    (hdu : disc ≠ "uid") : (createTableCols disc cn).Nodup := by
  unfold createTableCols
  rw [List.nodup_cons, List.nodup_cons]
  refine ⟨?_, ?_, hnd.filter _⟩
  · intro hm
    rcases List.mem_cons.1 hm with h | h
    · exact hdu h.symm
    · have := List.of_mem_filter h
      rw [Bool.and_eq_true, decide_eq_true_iff, decide_eq_true_iff] at this
      exact this.2 rfl
  · intro hm
    have := List.of_mem_filter hm
    rw [Bool.and_eq_true, decide_eq_true_iff, decide_eq_true_iff] at this
    exact this.1 rfl

theorem mem_createTableCols (disc : String) (cn : List String) (c : String)
    (hc : c ∈ cn) : c ∈ createTableCols disc cn := by
  unfold createTableCols
  by_cases h1 : c = "uid"
  · rw [h1]
    exact List.mem_cons_self _ _
  · by_cases h2 : c = disc
    · rw [h2]
      exact List.mem_cons_of_mem _ (List.mem_cons_self _ _)
    · apply List.mem_cons_of_mem
      apply List.mem_cons_of_mem
      apply List.mem_filter.2
      refine ⟨hc, ?_⟩
      rw [Bool.and_eq_true, decide_eq_true_iff, decide_eq_true_iff]
      exact ⟨h2, h1⟩

/-- `_ensure_table` with no schema registered for `tn` always succeeds, and
the resulting table has duplicate-free columns covering the item's columns,
the old rows, and every other table untouched. -/
theorem ensureTable_ok (st : Store) (tn : String) (cn : List String) (item : JVal)
    (hsch : st.schemas tn = none) (hnd : cn.Nodup) (hdu : st.disc ≠ "uid")
    (hold : ∀ tbl, tablesLookup tn st.tables = some tbl → tbl.cols.Nodup) :
    ∃ st1 tbl1, ensureTable st tn cn cn item = .ok st1 ∧
      tablesLookup tn st1.tables = some tbl1 ∧
      tbl1.cols.Nodup ∧ (∀ c ∈ cn, c ∈ tbl1.cols) ∧
      tbl1.rows = (match tablesLookup tn st.tables with
        | none => []
        | some tbl => tbl.rows) ∧
      st1.strict = st.strict ∧ st1.disc = st.disc ∧ st1.schemas = st.schemas ∧
      (∀ m, m ≠ tn → tablesLookup m st1.tables = tablesLookup m st.tables) ∧
      (st1.tables.map Prod.fst = st.tables.map Prod.fst ∨
       st1.tables.map Prod.fst = st.tables.map Prod.fst ++ [tn]) := by
  have hval : validateItemSchema st tn item = [] := by
    unfold validateItemSchema
    rw [hsch]
  cases htab : tablesLookup tn st.tables with
  | none =>
      have hens : ensureTable st tn cn cn item =
          .ok { st with tables := st.tables ++ [(tn, ⟨createTableCols st.disc cn, []⟩)] } := by
        unfold ensureTable
        rw [htab]
        rw [if_pos hval]
      refine ⟨_, ⟨createTableCols st.disc cn, []⟩, hens, ?_, ?_, ?_, ?_, rfl, rfl, rfl, ?_, ?_⟩
      · rw [show ({ st with tables := st.tables ++
          [(tn, (⟨createTableCols st.disc cn, []⟩ : Table))] } : Store).tables =
          st.tables ++ [(tn, ⟨createTableCols st.disc cn, []⟩)] from rfl,
          tablesLookup_append, htab]
        show (if tn = tn then some _ else tablesLookup tn []) = _
        rw [if_pos rfl]
      · exact createTableCols_nodup st.disc cn hnd hdu
      · exact fun c hc => mem_createTableCols st.disc cn c hc
      · rfl
      · intro m hm
        rw [show ({ st with tables := st.tables ++
          [(tn, (⟨createTableCols st.disc cn, []⟩ : Table))] } : Store).tables =
          st.tables ++ [(tn, ⟨createTableCols st.disc cn, []⟩)] from rfl,
          tablesLookup_append]
        cases hcur : tablesLookup m st.tables with
        | some tb => rfl
        | none =>
            show (if tn = m then some _ else tablesLookup m []) = none
            rw [if_neg (fun hx => hm hx.symm)]
            rfl
      · right
        rw [show ({ st with tables := st.tables ++
          [(tn, (⟨createTableCols st.disc cn, []⟩ : Table))] } : Store).tables =
          st.tables ++ [(tn, ⟨createTableCols st.disc cn, []⟩)] from rfl,
          List.map_append]
        rfl
  | some tbl =>
      by_cases hmiss : cn.filter (fun c => !(decide (c ∈ tbl.cols))) = []
      · have hens : ensureTable st tn cn cn item = .ok st := by
          unfold ensureTable
          rw [htab]
          show (if cn.filter (fun c => !(decide (c ∈ tbl.cols))) = [] then
            Except.ok st else _) = .ok st
          rw [if_pos hmiss]
        refine ⟨st, tbl, hens, htab, hold tbl htab, ?_, ?_, rfl, rfl, rfl,
          fun m hm => rfl, Or.inl rfl⟩
        · intro c hc
          by_contra hcc
          exact List.ne_nil_of_mem (List.mem_filter.2 ⟨hc, by simp [hcc]⟩) hmiss
        · rfl
      · have hens : ensureTable st tn cn cn item = .ok { st with tables :=
            (tablesSet tn ⟨tbl.cols ++ cn.filter (fun c => !(decide (c ∈ tbl.cols))), tbl.rows⟩ st.tables) } := by
          unfold ensureTable
          rw [htab]
          show (if cn.filter (fun c => !(decide (c ∈ tbl.cols))) = [] then
            Except.ok st else if validateItemSchema st tn item = [] then _ else _) = _
          rw [if_neg hmiss, if_pos hval]
        refine ⟨_, ⟨tbl.cols ++ cn.filter (fun c => !(decide (c ∈ tbl.cols))), tbl.rows⟩,
          hens, ?_, ?_, ?_, ?_, rfl, rfl, rfl, ?_, ?_⟩
        · exact tablesLookup_tablesSet_self tn _ st.tables
        · apply List.Nodup.append (hold tbl htab) (hnd.filter _)
          intro a ha hb
          have := List.of_mem_filter hb
          rw [Bool.not_eq_true', decide_eq_false_iff_not] at this
          exact this ha
        · intro c hc
          by_cases hcm : c ∈ tbl.cols
          · exact List.mem_append_left _ hcm
          · apply List.mem_append_right
            apply List.mem_filter.2
            refine ⟨hc, ?_⟩
            rw [Bool.not_eq_true', decide_eq_false_iff_not]
            exact hcm
        · rfl
        · exact fun m hm => tablesLookup_tablesSet_ne tn m _ st.tables hm
        · exact map_fst_tablesSet tn _ st.tables

/-- `insert` on a uid-less record with a string discriminator and passing
validation: the uid is assigned and returned, the flat row is appended to
the (ensured) table, and the caller's dict gains exactly the uid field. -/
theorem insert_spec (st : Store) (u : String) (fs : List (String × JVal)) (t : String)
    (hdisc : objLookup st.disc fs = some (.str t))
    (hnouid : objLookup "uid" fs = none)
    (hval : validateItemSchema st t
      (.obj (flattenItemParts (fs ++ [("uid", .str (mkUid t u))])).2.2.2) = [])
    (st1 : Store)
    (hens : ensureTable st t (flattenItemParts (fs ++ [("uid", .str (mkUid t u))])).1
        (((flattenItemParts (fs ++ [("uid", .str (mkUid t u))])).2.2.1).map Prod.fst)
        (.obj (flattenItemParts (fs ++ [("uid", .str (mkUid t u))])).2.2.2) = .ok st1) :
    insert st u (.obj fs) =
      (.ok (mkUid t u),
       addRow st1 t ((flattenItemParts (fs ++ [("uid", .str (mkUid t u))])).1.zip
         (flattenItemParts (fs ++ [("uid", .str (mkUid t u))])).2.1),
       .obj (fs ++ [("uid", .str (mkUid t u))])) := by
  have huid : objLookup "uid" (flattenItemParts (fs ++ [("uid", .str (mkUid t u))])).2.2.2 =
      some (.str (mkUid t u)) := by
    rw [flattenItemParts_erased]
    unfold topEraseFields
    rw [List.filter_append, objLookup_append,
      objLookup_filter_none _ _ _ hnouid]
    rfl
  simp only [insert, hdisc, hnouid, Option.isSome_none, Bool.false_eq_true, if_false, hens,
    hval, ne_eq, not_true_eq_false, and_false, huid]

end JStore

namespace FStore

theorem fromBytesLE_append (data : List Nat) (b : Nat) :
    fromBytesLE (data ++ [b]) = fromBytesLE data + b * 256 ^ data.length := by
  induction data with
  | nil =>
      show b + 256 * 0 = 0 + b * 1
      ring
  | cons x rest ih =>
      show x + 256 * fromBytesLE (rest ++ [b]) =
        (x + 256 * fromBytesLE rest) + b * 256 ^ (rest.length + 1)
      rw [ih, pow_succ]
      ring

theorem evens_cons_cons {α : Type} (x y : α) (l : List α) :
    evens (x :: y :: l) = x :: evens l := rfl

theorem odds_cons_cons {α : Type} (x y : α) (l : List α) :
    odds (x :: y :: l) = y :: odds l := rfl

theorem hexPairs_eq_map (data : List Nat) :
    ((evens (data.flatMap byteHexChars)).zip (odds (data.flatMap byteHexChars))).map
      (fun ab => String.mk [ab.1, ab.2]) =
      data.map (fun b => String.mk (byteHexChars b)) := by
  induction data with
  | nil => rfl
  | cons b rest ih =>
      rw [List.flatMap_cons,
        show byteHexChars b = [Nat.digitChar (b / 16 % 16), Nat.digitChar (b % 16)] from rfl,
        List.cons_append, List.cons_append, List.nil_append,
        evens_cons_cons, odds_cons_cons, List.zip_cons_cons, List.map_cons, ih]
      rfl

/-- The byte-pair slicing `zip(hexdata[::2], hexdata[1::2])` recovers one
two-character group per byte. -/
theorem hexDump_eq_map (data : List Nat) :
    hexDump data = String.intercalate " " (data.map (fun b => String.mk (byteHexChars b))) := by
  show String.intercalate " " (((evens (data.flatMap byteHexChars)).zip
    (odds (data.flatMap byteHexChars))).map (fun ab => String.mk [ab.1, ab.2])) = _
  rw [hexPairs_eq_map]

theorem splitOnCharAux_no_sep (sep : Char) (cs : List Char) :
    ∀ acc, sep ∉ cs → splitOnCharAux sep cs acc = [String.mk (acc.reverse ++ cs)] := by
  induction cs with
  | nil =>
      intro acc h
      rw [List.append_nil]
      rfl
  | cons c rest ih =>
      intro acc h
      have hc : ¬ c = sep := fun hx => h (hx ▸ List.mem_cons_self c rest)
      show (if c = sep then _ else splitOnCharAux sep rest (c :: acc)) = _
      rw [if_neg hc, ih (c :: acc) (fun hm => h (List.mem_cons_of_mem _ hm)),
        List.reverse_cons, List.append_assoc]
      rfl

theorem splitOnCharAux_sep (sep : Char) (xs : List Char) :
    ∀ (ys acc : List Char), sep ∉ xs →
      splitOnCharAux sep (xs ++ sep :: ys) acc =
        String.mk (acc.reverse ++ xs) :: splitOnCharAux sep ys [] := by
  induction xs with
  | nil =>
      intro ys acc h
      show (if sep = sep then _ else _) = _
      rw [if_pos rfl, List.append_nil]
  | cons c rest ih =>
      intro ys acc h
      have hc : ¬ c = sep := fun hx => h (hx ▸ List.mem_cons_self c rest)
      show (if c = sep then _ else _) = _
      rw [if_neg hc]
      show splitOnCharAux sep (rest ++ sep :: ys) (c :: acc) = _
      rw [ih ys (c :: acc) (fun hm => h (List.mem_cons_of_mem _ hm)),
        List.reverse_cons, List.append_assoc]
      rfl

/-- `split` undoes a two-entry null join: the core of the `MULTI_SZ` rule. -/
theorem splitOnChar_join_two (sep : Char) (a b : String)
    (ha : sep ∉ a.data) (hb : sep ∉ b.data) :
    splitOnChar sep (a ++ String.mk [sep] ++ b) = [a, b] := by
  have hdata : (a ++ String.mk [sep] ++ b).data = a.data ++ sep :: b.data := by
    rw [String.data_append, String.data_append, List.append_assoc]
    rfl
  unfold splitOnChar
  rw [hdata, splitOnCharAux_sep sep a.data b.data [] ha,
    splitOnCharAux_no_sep sep b.data [] hb]
  rfl

end FStore

namespace JStore

theorem splitLast_some (c : Char) (l : List Char) :
    ∀ a b, splitLast c l = some (a, b) → l = a ++ c :: b := by
  induction l with
  | nil =>
      intro a b h
      exact absurd h (by simp [splitLast])
  | cons x rest ih =>
      intro a b h
      rw [show splitLast c (x :: rest) =
        (match splitLast c rest with
         | some (a, b) => some (x :: a, b)
         | none => if x = c then some ([], rest) else none) from rfl] at h
      cases hs : splitLast c rest with
      | some ab =>
          obtain ⟨a0, b0⟩ := ab
          rw [hs] at h
          injection h with h
          have ha : x :: a0 = a := congrArg Prod.fst h
          have hb : b0 = b := congrArg Prod.snd h
          rw [← ha, ← hb, List.cons_append, ← ih a0 b0 hs]
      | none =>
          rw [hs] at h
          by_cases hx : x = c
          · rw [if_pos hx] at h
            injection h with h
            have ha : ([] : List Char) = a := congrArg Prod.fst h
            have hb : rest = b := congrArg Prod.snd h
            rw [← ha, ← hb, List.nil_append, hx]
          · rw [if_neg hx] at h
            exact absurd h (by simp)

theorem splitext_data (fp : String) :
    fp.data = (splitext fp).1.data ++ (splitext fp).2.data := by
  unfold splitext
  cases hs : splitLast '.' fp.data with
  | none =>
      show fp.data = fp.data ++ ([] : List Char)
      rw [List.append_nil]
  | some ab =>
      obtain ⟨a, b⟩ := ab
      show fp.data = a ++ '.' :: b
      exact splitLast_some '.' fp.data a b hs

theorem cand_data_zero (fp : String) : (cand fp 0).data = fp.data := rfl

theorem cand_data_succ (fp : String) (j : Nat) :
    (cand fp (j + 1)).data =
      (splitext fp).1.data ++ '_' :: ((natRepr j).data ++ (splitext fp).2.data) := by
  show ((((splitext fp).1 ++ "_") ++ natRepr j) ++ (splitext fp).2).data = _
  rw [String.data_append, String.data_append, String.data_append]
  rw [List.append_assoc, List.append_assoc]
  rfl

theorem cand_inj (fp : String) : ∀ j k : Nat, cand fp j = cand fp k → j = k := by
  have hlen : ∀ j : Nat, (cand fp (j + 1)).data.length =
      (splitext fp).1.data.length + 1 + (natRepr j).data.length +
        (splitext fp).2.data.length := by
    intro j
    rw [cand_data_succ]
    rw [List.length_append, List.length_cons, List.length_append]
    omega
  have hlen0 : (cand fp 0).data.length =
      (splitext fp).1.data.length + (splitext fp).2.data.length := by
    rw [cand_data_zero, splitext_data fp, List.length_append]
  intro j k h
  cases j with
  | zero =>
      cases k with
      | zero => rfl
      | succ k0 =>
          exfalso
          have hc : (cand fp 0).data.length = (cand fp (k0 + 1)).data.length :=
            congrArg (fun s : String => s.data.length) h
          rw [hlen0, hlen k0] at hc
          omega
  | succ j0 =>
      cases k with
      | zero =>
          exfalso
          have hc : (cand fp (j0 + 1)).data.length = (cand fp 0).data.length :=
            congrArg (fun s : String => s.data.length) h
          rw [hlen0, hlen j0] at hc
          omega
      | succ k0 =>
          have hd := congrArg String.data h
          rw [cand_data_succ, cand_data_succ] at hd
          have hd2 := List.append_cancel_left hd
          have hd3 : (natRepr j0).data ++ (splitext fp).2.data =
              (natRepr k0).data ++ (splitext fp).2.data := by
            injection hd2
          have hd4 : (natRepr j0).data = (natRepr k0).data :=
            List.append_cancel_right hd3
          have hd5 : natRepr j0 = natRepr k0 := by
            show String.mk (natRepr j0).data = String.mk (natRepr k0).data
            rw [hd4]
          rw [natRepr_injective hd5]

theorem exists_free_cand (fsList : List String) (fp : String) :
    ∃ j, j ≤ fsList.length ∧ cand fp j ∉ fsList := by
  by_contra hall
  push_neg at hall
  have hsub : ((List.range (fsList.length + 1)).map (cand fp)) ⊆ fsList := by
    intro x hx
    rcases List.mem_map.1 hx with ⟨j, hj, rfl⟩
    exact hall j (Nat.lt_succ_iff.1 (List.mem_range.1 hj))
  have hnd : ((List.range (fsList.length + 1)).map (cand fp)).Nodup := by
    apply List.Nodup.map_on _ (List.nodup_range _)
    intro a _ b _ hab
    exact cand_inj fp a b hab
  have hle := (List.subperm_of_subset hnd hsub).length_le
  rw [List.length_map, List.length_range] at hle
  omega

theorem storeLoop_spec (fsList : List String) (fp : String) :
    ∀ fuel i, (∃ j, i ≤ j ∧ j < i + fuel ∧ cand fp j ∉ fsList) →
      ∃ j, i ≤ j ∧ cand fp j ∉ fsList ∧ (∀ m, i ≤ m → m < j → cand fp m ∈ fsList) ∧
        storeLoop fsList (splitext fp).1 (splitext fp).2 fuel (cand fp i) i = cand fp j := by
  intro fuel
  induction fuel with
  | zero =>
      intro i h
      obtain ⟨j, hij, hlt, _⟩ := h
      exact absurd hlt (by omega)
  | succ fuel ih =>
      intro i h
      by_cases hmem : cand fp i ∈ fsList
      · have hstep : storeLoop fsList (splitext fp).1 (splitext fp).2 (fuel + 1)
            (cand fp i) i =
            storeLoop fsList (splitext fp).1 (splitext fp).2 fuel (cand fp (i + 1))
              (i + 1) := by
          show (if cand fp i ∈ fsList then _ else _) = _
          rw [if_pos hmem]
          rfl
        obtain ⟨j, hij, hlt, hfree⟩ := h
        have hne : j ≠ i := fun he => absurd hmem (he ▸ hfree)
        obtain ⟨j', hij', hfree', hfirst', heq'⟩ := ih (i + 1) ⟨j, by omega, by omega, hfree⟩
        refine ⟨j', by omega, hfree', ?_, by rw [hstep]; exact heq'⟩
        intro m him hmj
        by_cases hmi : m = i
        · rw [hmi]
          exact hmem
        · exact hfirst' m (by omega) hmj
      · refine ⟨i, Nat.le_refl i, hmem, ?_, ?_⟩
        · intro m h1 h2
          exact absurd (Nat.lt_of_le_of_lt h1 h2) (Nat.lt_irrefl i)
        · show (if cand fp i ∈ fsList then _ else _) = _
          rw [if_neg hmem]

/-- The chosen path is the first free candidate. -/
theorem storeFilePath_spec (fsList : List String) (fp : String) :
    ∃ j, storeFilePath fsList fp = cand fp j ∧ cand fp j ∉ fsList ∧
      ∀ m, m < j → cand fp m ∈ fsList := by
  obtain ⟨j0, hj0, hfree0⟩ := exists_free_cand fsList fp
  obtain ⟨j, hij, hfree, hfirst, heq⟩ := storeLoop_spec fsList fp (fsList.length + 1) 0
    ⟨j0, Nat.zero_le _, by omega, hfree0⟩
  exact ⟨j, heq, hfree, fun m hm => hfirst m (Nat.zero_le m) hm⟩

theorem storeFilePath_not_mem (fsList : List String) (fp : String) :
    storeFilePath fsList fp ∉ fsList := by
  obtain ⟨j, heq, hfree, _⟩ := storeFilePath_spec fsList fp
  rw [heq]
  exact hfree

/-- The file system after `n` repeated `store_file` calls with the same
desired path. -/
def storeFS (fsList : List String) (fp : String) : Nat → List String
  | 0 => fsList
  | n + 1 => (storeFile (storeFS fsList fp n) fp).2

theorem storeFS_succ (fsList : List String) (fp : String) (n : Nat) :
    storeFS fsList fp (n + 1) =
      storeFilePath (storeFS fsList fp n) fp :: storeFS fsList fp n := rfl

theorem mem_storeFS_mono (fsList : List String) (fp : String) (x : String) :
    ∀ m n, m ≤ n → x ∈ storeFS fsList fp m → x ∈ storeFS fsList fp n := by
  intro m n hmn
  induction n with
  | zero =>
      intro h
      rw [Nat.le_zero.1 hmn] at h
      exact h
  | succ n ihn =>
      intro h
      by_cases hm : m = n + 1
      · rw [← hm]
        exact h
      · have : m ≤ n := by omega
        rw [storeFS_succ]
        exact List.mem_cons_of_mem _ (ihn this h)

end JStore

section Claims

open JVal JStore FStore

/-- C5 (amended): for every record whose keys — at all nesting levels — are
free of `'.'` and not purely numeric, unflattening the flattened record
yields a value Python-equal to the record modulo the hereditary erasure of
null fields and empty lists.  The original "for every record r" is false
for dotted or purely numeric keys (see the counterexample). -/
theorem claim_C5_flatten_unflatten_roundtrip (fs : List (String × JVal))
    (hsafe : safeObj fs = true) :
    pyEq (rowToItem (flattenItemParts fs).2.2.1) (.obj (eraseObj fs)) = true :=
  rowToItem_flatItem_pyEq fs hsafe

/-- C5 counterexample: the record `{"type": "x", "a.b": 1}` does not round
trip — the dotted key is reparsed as nesting, so unflattening returns
`{"type": "x", "a": {"b": 1}}`, while erasure removes nothing here. -/
theorem claim_C5_counterexample :
    pyEq (rowToItem (flattenItemParts [("type", .str "x"), ("a.b", .int 1)]).2.2.1)
      (.obj (eraseObj [("type", .str "x"), ("a.b", .int 1)])) = false ∧
    rowToItem (flattenItemParts [("type", .str "x"), ("a.b", .int 1)]).2.2.1 =
      .obj [("type", .str "x"), ("a", .obj [("b", .int 1)])] :=
  ⟨by decide, rfl⟩

/-- C5 witness: a concrete nested record (with a nested null, a nested
empty list, and list elements) satisfying the hypotheses. -/
theorem claim_C5_witness :
    safeObj [("type", JVal.str "x"), ("a", .obj [("b", .null), ("c", .int 1)]),
      ("xs", .list [.int 1, .list [], .str "y"]), ("z", .null)] = true ∧
    pyEq (rowToItem (flattenItemParts [("type", JVal.str "x"),
        ("a", .obj [("b", .null), ("c", .int 1)]),
        ("xs", .list [.int 1, .list [], .str "y"]), ("z", .null)]).2.2.1)
      (.obj (eraseObj [("type", JVal.str "x"), ("a", .obj [("b", .null), ("c", .int 1)]),
        ("xs", .list [.int 1, .list [], .str "y"]), ("z", .null)])) = true :=
  ⟨by decide, claim_C5_flatten_unflatten_roundtrip _ (by decide)⟩

/-- C9: `insert` mutates its argument.  For every record with a string
discriminator and no `uid` key, after the call — on every outcome, success
or raised error past the uid assignment — the caller's dict is the original
fields plus a trailing `uid` field `<type>--<fresh uuid>`. -/
theorem claim_C9_insert_mutates_caller (st : Store) (u : String)
    (fs : List (String × JVal)) (t : String)
    (hdisc : objLookup st.disc fs = some (.str t))
    (hnouid : objLookup "uid" fs = none) :
    (insert st u (.obj fs)).2.2 = .obj (fs ++ [("uid", .str (mkUid t u))]) := by
  simp only [JStore.insert, hdisc, hnouid, Option.isSome_none, Bool.false_eq_true, if_false]
  split
  · rfl
  · split
    · rfl
    · split <;> rfl

/-- C9 witness: a concrete insert adds `uid` to the caller's record. -/
theorem claim_C9_witness :
    (insert ⟨false, "type", fun _ => none, []⟩ "1234" (.obj [("type", JVal.str "x"),
      ("a", .int 7)])).2.2 =
      .obj [("type", JVal.str "x"), ("a", .int 7), ("uid", .str "x--1234")] :=
  claim_C9_insert_mutates_caller ⟨false, "type", fun _ => none, []⟩ "1234"
    [("type", JVal.str "x"), ("a", .int 7)] "x" rfl rfl

/-- C2: in strict mode, an `insert` whose record fails schema validation
for its type errors out and leaves the database tables exactly as they
were: no table created, no column added, no row inserted. -/
theorem claim_C2_strict_insert_unchanged (st : Store) (u : String)
    (fs : List (String × JVal)) (t : String)
    (hstrict : st.strict = true)
    (hdisc : objLookup st.disc fs = some (.str t))
    (hfail : validateItemSchema st t
      (.obj (flattenItemParts (if (objLookup "uid" fs).isSome then fs
        else fs ++ [("uid", .str (mkUid t u))])).2.2.2) ≠ []) :
    (∃ e, (insert st u (.obj fs)).1 = .error e) ∧ (insert st u (.obj fs)).2.1 = st := by
  cases htab : tablesLookup t st.tables with
  | none =>
      have hens : ∀ cn fk it, validateItemSchema st t it ≠ [] →
          ensureTable st t cn fk it = .error "item could not be validated" := by
        intro cn fk it hne
        unfold ensureTable
        rw [htab, if_neg hne]
      have hres : insert st u (.obj fs) = (.error "item could not be validated", st,
          .obj (if (objLookup "uid" fs).isSome then fs
            else fs ++ [("uid", .str (mkUid t u))])) := by
        simp only [JStore.insert, hdisc, hens _ _ _ hfail]
      rw [hres]
      exact ⟨⟨_, rfl⟩, rfl⟩
  | some tbl =>
      have hens1 : ∀ cn fk it, fk.filter (fun c => !(decide (c ∈ tbl.cols))) = [] →
          ensureTable st t cn fk it = .ok st := by
        intro cn fk it hmz
        unfold ensureTable
        rw [htab]
        show (if fk.filter (fun c => !(decide (c ∈ tbl.cols))) = [] then
          Except.ok st else _) = _
        rw [if_pos hmz]
      have hens2 : ∀ cn fk it, fk.filter (fun c => !(decide (c ∈ tbl.cols))) ≠ [] →
          validateItemSchema st t it ≠ [] →
          ensureTable st t cn fk it = .error "item could not be validated" := by
        intro cn fk it hmz hne
        unfold ensureTable
        rw [htab]
        show (if fk.filter (fun c => !(decide (c ∈ tbl.cols))) = [] then
          Except.ok st else if validateItemSchema st t it = [] then _ else _) = _
        rw [if_neg hmz, if_neg hne]
      by_cases hmiss : (((flattenItemParts (if (objLookup "uid" fs).isSome then fs
          else fs ++ [("uid", .str (mkUid t u))])).2.2.1).map Prod.fst).filter
          (fun c => !(decide (c ∈ tbl.cols))) = []
      · have hres : insert st u (.obj fs) = (.error "item could not be validated", st,
            .obj (if (objLookup "uid" fs).isSome then fs
              else fs ++ [("uid", .str (mkUid t u))])) := by
          simp only [JStore.insert, hdisc, hens1 _ _ _ hmiss,
            if_pos (And.intro hstrict hfail)]
        rw [hres]
        exact ⟨⟨_, rfl⟩, rfl⟩
      · have hres : insert st u (.obj fs) = (.error "item could not be validated", st,
            .obj (if (objLookup "uid" fs).isSome then fs
              else fs ++ [("uid", .str (mkUid t u))])) := by
          simp only [JStore.insert, hdisc, hens2 _ _ _ hmiss hfail]
        rw [hres]
        exact ⟨⟨_, rfl⟩, rfl⟩

/-- C2 witness: a strict store whose schema for type `"x"` rejects every
item leaves the (empty) table list unchanged and raises. -/
theorem claim_C2_witness :
    (∃ e, (insert ⟨true, "type", fun _ => some (fun _ => false), []⟩ "1234"
      (.obj [("type", JVal.str "x")])).1 = .error e) ∧
    (insert ⟨true, "type", fun _ => some (fun _ => false), []⟩ "1234"
      (.obj [("type", JVal.str "x")])).2.1 =
      ⟨true, "type", fun _ => some (fun _ => false), []⟩ :=
  claim_C2_strict_insert_unchanged ⟨true, "type", fun _ => some (fun _ => false), []⟩
    "1234" [("type", JVal.str "x")] "x" rfl rfl (by decide)

/-- C6: when the desired path exists, `store_file` settles on the first
free candidate in the sequence `path, base_0.ext, base_1.ext, …` (and the
chosen path never exists already); repeated calls with the identical
desired name produce pairwise distinct final paths, and — since
`HashedFile` opens with exclusive creation — no call overwrites an
existing file. -/
theorem claim_C6_store_file_paths (fsList : List String) (fp : String) :
    (∃ j, storeFilePath fsList fp = cand fp j ∧ cand fp j ∉ fsList ∧
      ∀ m, m < j → cand fp m ∈ fsList) ∧
    (∀ n, storeFilePath (storeFS fsList fp n) fp ∉ storeFS fsList fp n) ∧
    (∀ m n, m < n →
      storeFilePath (storeFS fsList fp m) fp ≠ storeFilePath (storeFS fsList fp n) fp) := by
  refine ⟨storeFilePath_spec fsList fp, fun n => storeFilePath_not_mem _ fp, ?_⟩
  intro m n hmn heq
  apply storeFilePath_not_mem (storeFS fsList fp n) fp
  rw [← heq]
  apply mem_storeFS_mono fsList fp _ (m + 1) n hmn
  rw [storeFS_succ]
  exact List.mem_cons_self _ _

/-- C6 witness: with `a.txt` taken, the first call yields `a_0.txt`, the
next `a_1.txt`, and the two differ. -/
theorem claim_C6_witness :
    storeFilePath ["a.txt"] "a.txt" = "a_0.txt" ∧
    storeFilePath (storeFS ["a.txt"] "a.txt" 1) "a.txt" = "a_1.txt" ∧
    storeFilePath (storeFS ["a.txt"] "a.txt" 0) "a.txt" ≠
      storeFilePath (storeFS ["a.txt"] "a.txt" 1) "a.txt" :=
  ⟨by decide, by decide,
    (claim_C6_store_file_paths ["a.txt"] "a.txt").2.2 0 1 (by decide)⟩

/-- C8: the `strdata` stored for a registry value: UTF-16 decoding for
`REG_SZ`/`REG_EXPAND_SZ`; the decimal rendering of the little-endian
unsigned integer for `REG_DWORD`/`REG_QWORD` (with the little-endian place
value law as independent evidence); UTF-16 decoding with null-separated
entries joined by spaces for `MULTI_SZ` (with the two-entry split law); and
a space-separated two-character-per-byte hex dump for every other type. -/
theorem claim_C8_registry_strdata (utf16 : List Nat → Option String) (data : List Nat) :
    (addRegistryValueStrdata utf16 "REG_SZ" data = utf16 data ∧
     addRegistryValueStrdata utf16 "REG_EXPAND_SZ" data = utf16 data) ∧
    (addRegistryValueStrdata utf16 "REG_DWORD" data = some (natRepr (fromBytesLE data)) ∧
     addRegistryValueStrdata utf16 "REG_QWORD" data = some (natRepr (fromBytesLE data)) ∧
     ∀ b : Nat, fromBytesLE (data ++ [b]) = fromBytesLE data + b * 256 ^ data.length) ∧
    (∀ s, utf16 data = some s →
      addRegistryValueStrdata utf16 "MULTI_SZ" data =
        some (String.intercalate " " (splitOnChar '\x00' s))) ∧
    (∀ a b : String, '\x00' ∉ a.data → '\x00' ∉ b.data →
      splitOnChar '\x00' (a ++ String.mk ['\x00'] ++ b) = [a, b]) ∧
    (∀ dt : String, dt ≠ "REG_SZ" → dt ≠ "REG_EXPAND_SZ" → dt ≠ "REG_DWORD" →
      dt ≠ "REG_QWORD" → dt ≠ "MULTI_SZ" →
      addRegistryValueStrdata utf16 dt data =
        some (String.intercalate " " (data.map (fun b => String.mk (byteHexChars b))))) := by
  refine ⟨⟨?_, ?_⟩, ⟨?_, ?_, fun b => fromBytesLE_append data b⟩, ?_, ?_, ?_⟩
  · unfold addRegistryValueStrdata
    rw [if_pos (Or.inl rfl)]
  · unfold addRegistryValueStrdata
    rw [if_pos (Or.inr rfl)]
  · unfold addRegistryValueStrdata
    rw [if_neg (by decide), if_pos (Or.inl rfl)]
  · unfold addRegistryValueStrdata
    rw [if_neg (by decide), if_pos (Or.inr rfl)]
  · intro s hs
    unfold addRegistryValueStrdata
    rw [if_neg (by decide), if_neg (by decide), if_pos rfl, hs]
    rfl
  · exact fun a b ha hb => splitOnChar_join_two '\x00' a b ha hb
  · intro dt h1 h2 h3 h4 h5
    unfold addRegistryValueStrdata
    rw [if_neg (by rintro (h | h) <;> [exact h1 h; exact h2 h]),
      if_neg (by rintro (h | h) <;> [exact h3 h; exact h4 h]),
      if_neg h5, hexDump_eq_map]

/-- C8 witness: concrete bytes for each branch. -/
theorem claim_C8_witness :
    addRegistryValueStrdata (fun _ => some "ab") "REG_DWORD" [1, 2] = some "513" ∧
    addRegistryValueStrdata (fun _ => some "ab") "REG_BINARY" [171, 205] = some "ab cd" ∧
    addRegistryValueStrdata (fun _ => some "a\x00b") "MULTI_SZ" [0] = some "a b" := by
  refine ⟨?_, ?_, ?_⟩
  · rw [(claim_C8_registry_strdata (fun _ => some "ab") [1, 2]).2.1.1]
    rfl
  · rw [(claim_C8_registry_strdata (fun _ => some "ab") [171, 205]).2.2.2.2 "REG_BINARY"
      (by decide) (by decide) (by decide) (by decide) (by decide)]
    rfl
  · rw [(claim_C8_registry_strdata (fun _ => some "a\x00b") [0]).2.2.1 "a\x00b" rfl]
    rfl

end Claims

section Claims2

open JVal JStore FStore

/-- C7: during validation, a `*_path` field whose string value contains
`..` contributes exactly the single error `'..' in <path>`, nothing to the
expected-file set, and no existence/size/hash check — `validate_item` of a
record with only a discriminator and such a field returns exactly that one
error and an empty expected set, for every state of the remote file
system. -/
theorem claim_C7_dotdot_path (st : Store) (fsys : String → Option FileEntry)
    (f t v : String)
    (hf : ("_path".data).isSuffixOf f.data = true)
    (hnd : ("_path".data).isSuffixOf st.disc.data = false)
    (hdots : (['.', '.'] : List Char) <:+: v.data)
    (hsch : st.schemas t = none) :
    validateItem st fsys [(st.disc, .str t), (f, .str v)] = (["'..' in " ++ v], []) := by
  have h1 : objLookup st.disc [(st.disc, JVal.str t), (f, JVal.str v)] = some (.str t) := by
    rw [objLookup_cons, if_pos rfl]
  have h2 : validateItemSchema st t (.obj [(st.disc, JVal.str t), (f, JVal.str v)]) = [] := by
    unfold validateItemSchema
    rw [hsch]
  have h3 : pathFieldCheck fsys [(st.disc, JVal.str t), (f, JVal.str v)] (.str v) =
      (["'..' in " ++ v], []) := by
    unfold pathFieldCheck
    show (if (['.', '.'] : List Char) <:+: v.data then (["'..' in " ++ v], ([] : List String))
      else _) = _
    rw [if_pos hdots]
  simp only [validateItem, h1, h2, h3, Option.isSome_some, List.map_cons, List.map_nil,
    hnd, hf, Bool.false_eq_true, if_false, if_true, List.flatMap_cons, List.flatMap_nil,
    List.append_nil, List.nil_append]

/-- C7 witness: a concrete record with `foo_path = "../bar"`. -/
theorem claim_C7_witness :
    validateItem ⟨false, "type", fun _ => none, []⟩ (fun _ => none)
      [("type", JVal.str "x"), ("foo_path", JVal.str "../bar")] =
      (["'..' in ../bar"], []) :=
  claim_C7_dotdot_path ⟨false, "type", fun _ => none, []⟩ (fun _ => none)
    "foo_path" "x" "../bar" (by decide) (by decide) (by decide) rfl

end Claims2

namespace JStore

open JVal

theorem map_fst_tablesSet_mem (n : String) (t : Table) (T : List (String × Table))
    (tbl : Table) (h : tablesLookup n T = some tbl) :
    (tablesSet n t T).map Prod.fst = T.map Prod.fst := by
  induction T with
  | nil => exact absurd h (by simp [tablesLookup])
  | cons nt rest ih =>
      obtain ⟨n', t'⟩ := nt
      by_cases h' : n' = n
      · rw [show tablesSet n t ((n', t') :: rest) =
          (if n' = n then (n', t) :: rest else (n', t') :: tablesSet n t rest) from rfl,
          if_pos h']
        rfl
      · rw [show tablesSet n t ((n', t') :: rest) =
          (if n' = n then (n', t) :: rest else (n', t') :: tablesSet n t rest) from rfl,
          if_neg h', List.map_cons, List.map_cons]
        rw [show tablesLookup n ((n', t') :: rest) =
          (if n' = n then some t' else tablesLookup n rest) from rfl, if_neg h'] at h
        rw [ih h]

theorem addRow_lookup_ne (st : Store) (tn : String) (row : List (String × JVal))
    (m : String) (hm : m ≠ tn) :
    tablesLookup m (addRow st tn row).tables = tablesLookup m st.tables := by
  unfold addRow
  cases h : tablesLookup tn st.tables with
  | none => rfl
  | some tbl => exact tablesLookup_tablesSet_ne tn m _ st.tables hm

theorem addRow_names (st : Store) (tn : String) (row : List (String × JVal)) :
    (addRow st tn row).tables.map Prod.fst = st.tables.map Prod.fst := by
  unfold addRow
  cases h : tablesLookup tn st.tables with
  | none => rfl
  | some tbl => exact map_fst_tablesSet_mem tn _ st.tables tbl h

/-- The weak `_ensure_table` success lemma: with no schema registered it
succeeds, preserves the options and every other table, and at most appends
the table name. -/
theorem ensureTable_ok_tables (st : Store) (tn : String) (cn fk : List String)
    (item : JVal) (hsch : st.schemas tn = none) :
    ∃ st1, ensureTable st tn cn fk item = .ok st1 ∧
      st1.strict = st.strict ∧ st1.disc = st.disc ∧ st1.schemas = st.schemas ∧
      (∀ m, m ≠ tn → tablesLookup m st1.tables = tablesLookup m st.tables) ∧
      (st1.tables.map Prod.fst = st.tables.map Prod.fst ∨
       st1.tables.map Prod.fst = st.tables.map Prod.fst ++ [tn]) := by
  have hval : validateItemSchema st tn item = [] := by
    unfold validateItemSchema
    rw [hsch]
  cases htab : tablesLookup tn st.tables with
  | none =>
      have hens : ensureTable st tn cn fk item =
          .ok { st with tables := st.tables ++ [(tn, ⟨createTableCols st.disc cn, []⟩)] } := by
        unfold ensureTable
        rw [htab, if_pos hval]
      refine ⟨_, hens, rfl, rfl, rfl, ?_, ?_⟩
      · intro m hm
        rw [show ({ st with tables := st.tables ++
          [(tn, (⟨createTableCols st.disc cn, []⟩ : Table))] } : Store).tables =
          st.tables ++ [(tn, ⟨createTableCols st.disc cn, []⟩)] from rfl,
          tablesLookup_append]
        cases hcur : tablesLookup m st.tables with
        | some tb => rfl
        | none =>
            show (if tn = m then some _ else tablesLookup m []) = none
            rw [if_neg (fun hx => hm hx.symm)]
            rfl
      · right
        rw [show ({ st with tables := st.tables ++
          [(tn, (⟨createTableCols st.disc cn, []⟩ : Table))] } : Store).tables =
          st.tables ++ [(tn, ⟨createTableCols st.disc cn, []⟩)] from rfl,
          List.map_append]
        rfl
  | some tbl =>
      by_cases hmiss : fk.filter (fun c => !(decide (c ∈ tbl.cols))) = []
      · have hens : ensureTable st tn cn fk item = .ok st := by
          unfold ensureTable
          rw [htab]
          show (if fk.filter (fun c => !(decide (c ∈ tbl.cols))) = [] then
            Except.ok st else _) = _
          rw [if_pos hmiss]
        exact ⟨st, hens, rfl, rfl, rfl, fun m hm => rfl, Or.inl rfl⟩
      · have hens : ensureTable st tn cn fk item = .ok { st with tables :=
            (tablesSet tn ⟨tbl.cols ++ fk.filter (fun c => !(decide (c ∈ tbl.cols))), tbl.rows⟩ st.tables) } := by
          unfold ensureTable
          rw [htab]
          show (if fk.filter (fun c => !(decide (c ∈ tbl.cols))) = [] then
            Except.ok st else if validateItemSchema st tn item = [] then _ else _) = _
          rw [if_neg hmiss, if_pos hval]
        refine ⟨_, hens, rfl, rfl, rfl, ?_, ?_⟩
        · exact fun m hm => tablesLookup_tablesSet_ne tn m _ st.tables hm
        · exact map_fst_tablesSet tn _ st.tables

theorem mem_allTableNames (st : Store) (n : String) (h : n ∈ allTableNames st) :
    containsCI "sqlite" n = false ∧ ("_".data).isPrefixOf n.data = false ∧
      n ∈ st.tables.map Prod.fst := by
  unfold allTableNames at h
  have h1 := List.mem_filter.1 h
  have h2 := List.mem_filter.1 h1.1
  refine ⟨?_, ?_, h2.1⟩
  · rw [← Bool.not_eq_true']
    exact h2.2
  · rw [← Bool.not_eq_true']
    exact h1.2

theorem allTableNames_eq_of_names (st st' : Store)
    (h : st'.tables.map Prod.fst = st.tables.map Prod.fst) :
    allTableNames st' = allTableNames st := by
  unfold allTableNames
  rw [h]

theorem allTableNames_append_hidden (st st' : Store) (t : String)
    (hct : containsCI "sqlite" t = true)
    (h : st'.tables.map Prod.fst = st.tables.map Prod.fst ++ [t]) :
    allTableNames st' = allTableNames st := by
  unfold allTableNames
  rw [h, List.filter_append]
  rw [show List.filter (fun n => !containsCI "sqlite" n) [t] = [] from by
    simp [List.filter_cons, hct]]
  rw [List.append_nil]

theorem flatMap_congr_mem {α β : Type} (L : List α) (f g : α → List β)
    (h : ∀ a ∈ L, f a = g a) : L.flatMap f = L.flatMap g := by
  induction L with
  | nil => rfl
  | cons a rest ih =>
      rw [List.flatMap_cons, List.flatMap_cons, h a (List.mem_cons_self _ _),
        ih (fun b hb => h b (List.mem_cons_of_mem _ hb))]

theorem allItems_congr (st st' : Store)
    (hnames : allTableNames st' = allTableNames st)
    (hlook : ∀ n ∈ allTableNames st,
      tablesLookup n st'.tables = tablesLookup n st.tables) :
    allItems st' = allItems st := by
  unfold allItems
  rw [hnames]
  apply flatMap_congr_mem
  intro n hn
  rw [hlook n hn]

end JStore

section Claims3

open JVal JStore FStore

/-- C10: `all()` reads only tables whose names contain no `sqlite`
(ASCII-case-insensitively, so in particular not the exact substring
`sqlite`) and do not start with `_`; consequently inserting a record whose
type contains `sqlite` succeeds but leaves the output of `all()` exactly as
it was — the new record is never yielded. -/
theorem claim_C10_sqlite_type_hidden (st : Store) (u : String)
    (fs : List (String × JVal)) (t : String)
    (hct : ("sqlite".data) <:+: t.data)
    (hdisc : objLookup st.disc fs = some (.str t))
    (hnouid : objLookup "uid" fs = none)
    (hsch : st.schemas t = none) :
    (∀ n ∈ allTableNames st, containsCI "sqlite" n = false ∧
      ("_".data).isPrefixOf n.data = false) ∧
    (insert st u (.obj fs)).1 = .ok (mkUid t u) ∧
    allItems (insert st u (.obj fs)).2.1 = allItems st := by
  have hctCI : containsCI "sqlite" t = true := by
    unfold containsCI
    rw [decide_eq_true_iff]
    have h2 := List.IsInfix.map asciiLower hct
    rw [show "sqlite".data.map asciiLower = "sqlite".data from by decide] at h2
    exact h2
  have hval : ∀ item, validateItemSchema st t item = [] := by
    intro item
    unfold validateItemSchema
    rw [hsch]
  obtain ⟨st1, hens, hstrict1, hdisc1, hsch1, hothers, hnames⟩ :=
    ensureTable_ok_tables st t (flattenItemParts (fs ++ [("uid", .str (mkUid t u))])).1
      (((flattenItemParts (fs ++ [("uid", .str (mkUid t u))])).2.2.1).map Prod.fst)
      (.obj (flattenItemParts (fs ++ [("uid", .str (mkUid t u))])).2.2.2) hsch
  have hins := insert_spec st u fs t hdisc hnouid (hval _) st1 hens
  refine ⟨?_, ?_, ?_⟩
  · intro n hn
    have h := mem_allTableNames st n hn
    exact ⟨h.1, h.2.1⟩
  · rw [hins]
  · rw [hins]
    have hchain1 : allTableNames (addRow st1 t
        ((flattenItemParts (fs ++ [("uid", .str (mkUid t u))])).1.zip
          (flattenItemParts (fs ++ [("uid", .str (mkUid t u))])).2.1)) =
        allTableNames st1 :=
      allTableNames_eq_of_names st1 _ (addRow_names st1 t _)
    have hchain2 : allTableNames st1 = allTableNames st := by
      rcases hnames with h | h
      · exact allTableNames_eq_of_names st st1 h
      · exact allTableNames_append_hidden st st1 t hctCI h
    apply allItems_congr
    · rw [hchain1, hchain2]
    · intro n hn
      have hprops := mem_allTableNames st n hn
      have hnt : n ≠ t := by
        intro he
        have hx := hprops.1
        rw [he, hctCI] at hx
        exact Bool.false_ne_true hx.symm
      rw [addRow_lookup_ne st1 t _ n hnt, hothers n hnt]

/-- C10 witness: a record of type `mysqlite3` is inserted but `all()` over
a store holding one visible `ev` row is unchanged. -/
theorem claim_C10_witness :
    (insert ⟨false, "type", fun _ => none,
      [("ev", ⟨["uid", "type"], [[("uid", JVal.str "ev--1"), ("type", JVal.str "ev")]]⟩)]⟩
      "77" (.obj [("type", JVal.str "mysqlite3")])).1 = .ok "mysqlite3--77" ∧
    allItems (insert ⟨false, "type", fun _ => none,
      [("ev", ⟨["uid", "type"], [[("uid", JVal.str "ev--1"), ("type", JVal.str "ev")]]⟩)]⟩
      "77" (.obj [("type", JVal.str "mysqlite3")])).2.1 =
    allItems ⟨false, "type", fun _ => none,
      [("ev", ⟨["uid", "type"], [[("uid", JVal.str "ev--1"), ("type", JVal.str "ev")]]⟩)]⟩ := by
  have h := claim_C10_sqlite_type_hidden ⟨false, "type", fun _ => none,
      [("ev", ⟨["uid", "type"], [[("uid", JVal.str "ev--1"), ("type", JVal.str "ev")]]⟩)]⟩
    "77" [("type", JVal.str "mysqlite3")] "mysqlite3" (by decide) rfl rfl rfl
  exact ⟨h.2.1, h.2.2⟩

end Claims3

namespace JVal

/-- Reading a stored flat record back through any duplicate-free column
list covering its keys (SELECT * returns columns in table order),
unflattening yields the erased record up to Python equality. -/
theorem readback_pyEq (G : List (String × JVal)) (cols : List String)
    (hsafeG : safeObj G = true) (hndc : cols.Nodup)
    (hcover : ∀ c ∈ ((flattenObj G).map (fun pv => (joinDots pv.1, pv.2))).map Prod.fst,
      c ∈ cols) :
    pyEq (rowToItem (JStore.rowRead cols
        ((flattenObj G).map (fun pv => (joinDots pv.1, pv.2)))))
      (.obj (eraseObj G)) = true := by
  have hkeysnd : (((flattenObj G).map (fun pv => (joinDots pv.1, pv.2))).map Prod.fst).Nodup :=
    flatKeys_nodup G hsafeG
  have hpairs : ((flattenObj G).map (fun pv => (joinDots pv.1, pv.2))).Nodup :=
    List.Nodup.of_map _ hkeysnd
  have hperm : (JStore.rowRead cols ((flattenObj G).map (fun pv => (joinDots pv.1, pv.2)))).Perm
      (((flattenObj G).map (fun pv => (joinDots pv.1, pv.2))).filter
        (fun kv => !isNull kv.2)) := by
    apply rowRead_perm_of_iff _ _ _ hndc (List.Nodup.filter _ hpairs)
    intro k v
    constructor
    · rintro ⟨hkc, hlook, hnull⟩
      apply List.mem_filter.2
      refine ⟨mem_of_objLookup_eq_some hlook, ?_⟩
      show (!isNull v) = true
      rw [hnull]
      rfl
    · intro hm
      have h1 := List.mem_filter.1 hm
      refine ⟨?_, ?_, ?_⟩
      · exact hcover k (List.mem_map.2 ⟨(k, v), h1.1, rfl⟩)
      · exact objLookup_eq_some_of_mem hkeysnd h1.1
      · have h2 : (!isNull v) = true := h1.2
        rw [Bool.not_eq_true'] at h2
        exact h2
  have hfilter : ((flattenObj G).map (fun pv => (joinDots pv.1, pv.2))).filter
      (fun kv => !isNull kv.2) =
      (nonNull (flattenObj G)).map (fun pv => (joinDots pv.1, pv.2)) :=
    filter_nonNull_map_join _
  have hperm2 : (JStore.rowRead cols
      ((flattenObj G).map (fun pv => (joinDots pv.1, pv.2)))).Perm
      ((nonNull (flattenObj G)).map (fun pv => (joinDots pv.1, pv.2))) := by
    rw [← hfilter]
    exact hperm
  have hmain := unflatStr_pyEq_of_perm G hsafeG _ hperm2
  have hself : (JStore.rowRead cols
      ((flattenObj G).map (fun pv => (joinDots pv.1, pv.2)))).filter
      (fun kv => !isNull kv.2) =
      JStore.rowRead cols ((flattenObj G).map (fun pv => (joinDots pv.1, pv.2))) := by
    apply List.filter_eq_self.2
    intro kv hkv
    show (!isNull kv.2) = true
    rw [rowRead_nonNull cols _ kv hkv]
    rfl
  show pyEq (convertLists (.obj (unflatStr ((JStore.rowRead cols
      ((flattenObj G).map (fun pv => (joinDots pv.1, pv.2)))).filter
      (fun kv => !isNull kv.2))))) (.obj (eraseObj G)) = true
  rw [hself]
  exact hmain

end JVal

section Claims4

open JVal JStore FStore

/-- C1 (amended): inserting a uid-less record whose keys are safe (no dots,
not purely numeric, at every level), whose type neither contains `--` nor
ends in `-` (so the uid partitions back), with no schema registered for the
type and no stale row under the fresh uid, returns the uid
`<type>--<uuid>` and `get` of that uid yields the record plus the assigned
uid field, modulo null/empty-list erasure, up to Python dict equality.
The original claim's "every record" fails for dotted keys (see the C5
counterexample, which `insert`/`get` inherit). -/
theorem claim_C1_insert_get_roundtrip (st : Store) (u : String)
    (fs : List (String × JVal)) (t : String)
    (hdisc : objLookup st.disc fs = some (.str t))
    (hnouid : objLookup "uid" fs = none)
    (hsafe : safeObj fs = true)
    (hdu : st.disc ≠ "uid")
    (hsch : st.schemas t = none)
    (hpart : partitionDashes (mkUid t u) = (t, u))
    (hold : ∀ tbl, tablesLookup t st.tables = some tbl →
      tbl.cols.Nodup ∧ ∀ r ∈ tbl.rows, uidMatches r (mkUid t u) = false) :
    (insert st u (.obj fs)).1 = .ok (mkUid t u) ∧
    ∃ item, getItem (insert st u (.obj fs)).2.1 (mkUid t u) = some item ∧
      pyEq item (.obj (eraseObj (fs ++ [("uid", .str (mkUid t u))]))) = true := by
  have hnkuid : "uid" ∉ objKeys fs := (objLookup_eq_none_iff_not_mem _ _).1 hnouid
  have hsafe1 : safeObj (fs ++ [("uid", .str (mkUid t u))]) = true :=
    safeObj_append_str fs "uid" (mkUid t u) hsafe (by decide) hnkuid
  have hsafeG : safeObj (topEraseFields (fs ++ [("uid", .str (mkUid t u))])) = true :=
    safeObj_filter _ _ hsafe1
  have hval : ∀ item, validateItemSchema st t item = [] := by
    intro item
    unfold validateItemSchema
    rw [hsch]
  have hcnnd : ((flattenItemParts (fs ++ [("uid", .str (mkUid t u))])).1).Nodup := by
    rw [flattenItemParts_colnames, flattenItemParts_flat]
    exact flatKeys_nodup _ hsafeG
  obtain ⟨st1, tbl1, hens, hlook1, hnd1, hcover1, hrows1, hstrict1, hdisc1, hsch1,
    hothers1, hnames1⟩ :=
    ensureTable_ok st t (flattenItemParts (fs ++ [("uid", .str (mkUid t u))])).1
      (.obj (flattenItemParts (fs ++ [("uid", .str (mkUid t u))])).2.2.2) hsch hcnnd hdu
      (fun tbl h => (hold tbl h).1)
  have hens' : ensureTable st t (flattenItemParts (fs ++ [("uid", .str (mkUid t u))])).1
      (((flattenItemParts (fs ++ [("uid", .str (mkUid t u))])).2.2.1).map Prod.fst)
      (.obj (flattenItemParts (fs ++ [("uid", .str (mkUid t u))])).2.2.2) = .ok st1 := by
    rw [← flattenItemParts_colnames]
    exact hens
  have hins := insert_spec st u fs t hdisc hnouid (hval _) st1 hens'
  have hzip : (flattenItemParts (fs ++ [("uid", .str (mkUid t u))])).1.zip
      (flattenItemParts (fs ++ [("uid", .str (mkUid t u))])).2.1 =
      (flattenItemParts (fs ++ [("uid", .str (mkUid t u))])).2.2.1 :=
    flattenItemParts_zip _
  have hmemuid : ("uid", JVal.str (mkUid t u)) ∈
      (flattenItemParts (fs ++ [("uid", .str (mkUid t u))])).2.2.1 := by
    rw [flattenItemParts_flat]
    apply mem_flat_of_mem_str
    apply List.mem_filter.2
    exact ⟨List.mem_append_right _ (List.mem_singleton.2 rfl), rfl⟩
  have hflatnd : (((flattenItemParts (fs ++ [("uid", .str (mkUid t u))])).2.2.1).map
      Prod.fst).Nodup := by
    rw [flattenItemParts_flat]
    exact flatKeys_nodup _ hsafeG
  have hlookuid : objLookup "uid"
      (flattenItemParts (fs ++ [("uid", .str (mkUid t u))])).2.2.1 =
      some (.str (mkUid t u)) :=
    objLookup_eq_some_of_mem hflatnd hmemuid
  have hmatch : uidMatches (flattenItemParts (fs ++ [("uid", .str (mkUid t u))])).2.2.1
      (mkUid t u) = true := by
    unfold uidMatches
    rw [hlookuid]
    simp
  have hrowsfree : ∀ r ∈ tbl1.rows, uidMatches r (mkUid t u) = false := by
    intro r hr
    rw [hrows1] at hr
    cases htab : tablesLookup t st.tables with
    | none =>
        rw [htab] at hr
        exact absurd hr (by simp)
    | some tbl =>
        rw [htab] at hr
        exact (hold tbl htab).2 r hr
  have haddlook : tablesLookup t (addRow st1 t
      ((flattenItemParts (fs ++ [("uid", .str (mkUid t u))])).1.zip
        (flattenItemParts (fs ++ [("uid", .str (mkUid t u))])).2.1)).tables =
      some ⟨tbl1.cols, tbl1.rows ++
        [(flattenItemParts (fs ++ [("uid", .str (mkUid t u))])).1.zip
          (flattenItemParts (fs ++ [("uid", .str (mkUid t u))])).2.1]⟩ := by
    unfold addRow
    rw [hlook1]
    exact tablesLookup_tablesSet_self t _ st1.tables
  have hfind : findRowByUid (mkUid t u) (tbl1.rows ++
      [(flattenItemParts (fs ++ [("uid", .str (mkUid t u))])).1.zip
        (flattenItemParts (fs ++ [("uid", .str (mkUid t u))])).2.1]) =
      some ((flattenItemParts (fs ++ [("uid", .str (mkUid t u))])).1.zip
        (flattenItemParts (fs ++ [("uid", .str (mkUid t u))])).2.1) := by
    apply findRowByUid_append_last _ _ _ hrowsfree
    rw [hzip]
    exact hmatch
  have hget : getItem (addRow st1 t
      ((flattenItemParts (fs ++ [("uid", .str (mkUid t u))])).1.zip
        (flattenItemParts (fs ++ [("uid", .str (mkUid t u))])).2.1)) (mkUid t u) =
      some (rowToItem (rowRead tbl1.cols
        ((flattenItemParts (fs ++ [("uid", .str (mkUid t u))])).1.zip
          (flattenItemParts (fs ++ [("uid", .str (mkUid t u))])).2.1))) := by
    simp only [getItem, hpart, haddlook, hfind]
  constructor
  · rw [hins]
  · rw [hins]
    refine ⟨_, hget, ?_⟩
    rw [hzip, ← eraseObj_topErase (fs ++ [("uid", JVal.str (mkUid t u))]),
      flattenItemParts_flat]
    apply readback_pyEq _ _ hsafeG hnd1
    intro c hc
    apply hcover1
    rw [flattenItemParts_colnames, flattenItemParts_flat]
    exact hc

/-- C1 witness: inserting `{"type": "x", "a": {"b": 2}}` into an empty
store and reading it back. -/
theorem claim_C1_witness :
    (insert ⟨false, "type", fun _ => none, []⟩ "1"
      (.obj [("type", JVal.str "x"), ("a", .obj [("b", .int 2)])])).1 = .ok "x--1" ∧
    ∃ item, getItem (insert ⟨false, "type", fun _ => none, []⟩ "1"
        (.obj [("type", JVal.str "x"), ("a", .obj [("b", .int 2)])])).2.1 "x--1" =
        some item ∧
      pyEq item (.obj (eraseObj ([("type", JVal.str "x"), ("a", .obj [("b", .int 2)])] ++
        [("uid", .str "x--1")]))) = true :=
  claim_C1_insert_get_roundtrip ⟨false, "type", fun _ => none, []⟩ "1"
    [("type", JVal.str "x"), ("a", .obj [("b", .int 2)])] "x" rfl rfl (by decide)
    (by decide) rfl (by decide)
    (by intro tbl h; exact absurd h (by simp [JStore.tablesLookup]))

end Claims4

namespace JVal

end JVal

namespace JStore

open JVal

theorem deleteRow_schemas (st : Store) (tn uid : String) :
    (deleteRow st tn uid).schemas = st.schemas := by
  unfold deleteRow
  cases tablesLookup tn st.tables <;> rfl

theorem deleteRow_disc (st : Store) (tn uid : String) :
    (deleteRow st tn uid).disc = st.disc := by
  unfold deleteRow
  cases tablesLookup tn st.tables <;> rfl

theorem deleteRow_strict (st : Store) (tn uid : String) :
    (deleteRow st tn uid).strict = st.strict := by
  unfold deleteRow
  cases tablesLookup tn st.tables <;> rfl

theorem deleteRow_lookup_self (st : Store) (tn uid : String) (tbl : Table)
    (h : tablesLookup tn st.tables = some tbl) :
    tablesLookup tn (deleteRow st tn uid).tables =
      some ⟨tbl.cols, tbl.rows.filter (fun row => !(uidMatches row uid))⟩ := by
  unfold deleteRow
  rw [h]
  exact tablesLookup_tablesSet_self tn _ st.tables

theorem addRow_lookup_self (st : Store) (tn : String) (row : List (String × JVal))
    (tbl : Table) (h : tablesLookup tn st.tables = some tbl) :
    tablesLookup tn (addRow st tn row).tables = some ⟨tbl.cols, tbl.rows ++ [row]⟩ := by
  unfold addRow
  rw [h]
  exact tablesLookup_tablesSet_self tn _ st.tables

/-- `_ensure_table` success with the ensured table exhibited (no
duplicate-freeness claims). -/
theorem ensureTable_ok_self (st : Store) (tn : String) (cn fk : List String)
    (item : JVal) (hsch : st.schemas tn = none) :
    ∃ st1 tbl1, ensureTable st tn cn fk item = .ok st1 ∧
      tablesLookup tn st1.tables = some tbl1 ∧
      tbl1.rows = (match tablesLookup tn st.tables with
        | none => []
        | some tbl => tbl.rows) ∧
      st1.strict = st.strict ∧ st1.disc = st.disc ∧ st1.schemas = st.schemas ∧
      (∀ m, m ≠ tn → tablesLookup m st1.tables = tablesLookup m st.tables) := by
  have hval : validateItemSchema st tn item = [] := by
    unfold validateItemSchema
    rw [hsch]
  cases htab : tablesLookup tn st.tables with
  | none =>
      have hens : ensureTable st tn cn fk item =
          .ok { st with tables := st.tables ++ [(tn, ⟨createTableCols st.disc cn, []⟩)] } := by
        unfold ensureTable
        rw [htab, if_pos hval]
      refine ⟨_, ⟨createTableCols st.disc cn, []⟩, hens, ?_, rfl, rfl, rfl, rfl, ?_⟩
      · rw [show ({ st with tables := st.tables ++
          [(tn, (⟨createTableCols st.disc cn, []⟩ : Table))] } : Store).tables =
          st.tables ++ [(tn, ⟨createTableCols st.disc cn, []⟩)] from rfl,
          tablesLookup_append, htab]
        show (if tn = tn then some _ else tablesLookup tn []) = _
        rw [if_pos rfl]
      · intro m hm
        rw [show ({ st with tables := st.tables ++
          [(tn, (⟨createTableCols st.disc cn, []⟩ : Table))] } : Store).tables =
          st.tables ++ [(tn, ⟨createTableCols st.disc cn, []⟩)] from rfl,
          tablesLookup_append]
        cases hcur : tablesLookup m st.tables with
        | some tb => rfl
        | none =>
            show (if tn = m then some _ else tablesLookup m []) = none
            rw [if_neg (fun hx => hm hx.symm)]
            rfl
  | some tbl =>
      by_cases hmiss : fk.filter (fun c => !(decide (c ∈ tbl.cols))) = []
      · have hens : ensureTable st tn cn fk item = .ok st := by
          unfold ensureTable
          rw [htab]
          show (if fk.filter (fun c => !(decide (c ∈ tbl.cols))) = [] then
            Except.ok st else _) = _
          rw [if_pos hmiss]
        exact ⟨st, tbl, hens, htab, rfl, rfl, rfl, rfl, fun m hm => rfl⟩
      · have hens : ensureTable st tn cn fk item = .ok { st with tables :=
            (tablesSet tn ⟨tbl.cols ++ fk.filter (fun c => !(decide (c ∈ tbl.cols))), tbl.rows⟩ st.tables) } := by
          unfold ensureTable
          rw [htab]
          show (if fk.filter (fun c => !(decide (c ∈ tbl.cols))) = [] then
            Except.ok st else if validateItemSchema st tn item = [] then _ else _) = _
          rw [if_neg hmiss, if_pos hval]
        refine ⟨_, ⟨tbl.cols ++ fk.filter (fun c => !(decide (c ∈ tbl.cols))), tbl.rows⟩,
          hens, ?_, rfl, rfl, rfl, rfl, ?_⟩
        · exact tablesLookup_tablesSet_self tn _ st.tables
        · exact fun m hm => tablesLookup_tablesSet_ne tn m _ st.tables hm

end JStore

section Claims5

open JVal JStore FStore

end Claims5

section Claims6

open JVal JStore FStore

end Claims6

namespace JStore

open JVal

/-- `insert` when the record already carries a `uid`: no uid is assigned,
the flat row is appended, and the caller's dict is returned unchanged. -/
theorem insert_spec_uid (st : Store) (u : String) (fs : List (String × JVal))
    (t uidv : String)
    (hdisc : objLookup st.disc fs = some (.str t))
    (huid : (objLookup "uid" fs).isSome = true)
    (hval : validateItemSchema st t (.obj (flattenItemParts fs).2.2.2) = [])
    (huidE : objLookup "uid" (flattenItemParts fs).2.2.2 = some (.str uidv))
    (st1 : Store)
    (hens : ensureTable st t (flattenItemParts fs).1
      (((flattenItemParts fs).2.2.1).map Prod.fst)
      (.obj (flattenItemParts fs).2.2.2) = .ok st1) :
    insert st u (.obj fs) =
      (.ok uidv, addRow st1 t ((flattenItemParts fs).1.zip (flattenItemParts fs).2.1),
       .obj fs) := by
  simp only [JStore.insert, hdisc, huid, eq_self_iff_true, if_true, hens, hval, ne_eq,
    not_true_eq_false, and_false, if_false, huidE]

end JStore

section Claims7

open JVal JStore FStore

/-- C4: an `update` whose partial changes the discriminator from `A` to
`B`: the old row is deleted from table `A` (no remaining row matches the
old uid), the flattened merged record (with its reassigned uid) is
appended to table `B`, and the returned uid is `B--s` with `s` the uuid
suffix of the input uid. -/
theorem claim_C4_type_change_update (st : Store) (u itemId oldT newT sfx : String)
    (p preFields : List (String × JVal)) (tbl : Table)
    (hpart : partitionDashes itemId = (oldT, sfx))
    (htab : tablesLookup oldT st.tables = some tbl)
    (hget0 : getItem st itemId = some (.obj preFields))
    (hpredisc : objLookup st.disc preFields = some (.str oldT))
    (hpv : objLookup st.disc p = some (.str newT))
    (hneT : newT ≠ oldT)
    (hdu : st.disc ≠ "uid")
    (hpnd : (p.map Prod.fst).Nodup)
    (hprend : (objKeys preFields).Nodup)
    (hschB : st.schemas newT = none) :
    (update st u itemId p).1 = .ok (mkUid newT sfx) ∧
    (∃ tblA, tablesLookup oldT (update st u itemId p).2.1.tables = some tblA ∧
      ∀ r ∈ tblA.rows, uidMatches r itemId = false) ∧
    (∃ tblB, tablesLookup newT (update st u itemId p).2.1.tables = some tblB ∧
      (flattenItemParts (objSet "uid" (.str (mkUid newT sfx))
        (dictUpdate preFields p))).2.2.1 ∈ tblB.rows) := by
  have hdiscM : objLookup st.disc (dictUpdate preFields p) = some (.str newT) := by
    rw [dictUpdate_eq_updateRow, updateRow_lookup p preFields hpnd st.disc, hpv]
  have hdiscM2 : objLookup st.disc (objSet "uid" (.str (mkUid newT sfx))
      (dictUpdate preFields p)) = some (.str newT) := by
    rw [objLookup_objSet_ne _ _ _ _ (fun he => hdu he.symm)]
    exact hdiscM
  have hndM : (objKeys (dictUpdate preFields p)).Nodup := by
    rw [dictUpdate_eq_updateRow]
    exact nodup_objKeys_updateRow preFields p hprend
  have hndM2 : (objKeys (objSet "uid" (.str (mkUid newT sfx))
      (dictUpdate preFields p))).Nodup := by
    rw [show objSet "uid" (JVal.str (mkUid newT sfx)) (dictUpdate preFields p) =
      updateRow (dictUpdate preFields p) [("uid", JVal.str (mkUid newT sfx))] from rfl]
    exact nodup_objKeys_updateRow _ _ hndM
  have huidM2 : objLookup "uid" (objSet "uid" (.str (mkUid newT sfx))
      (dictUpdate preFields p)) = some (.str (mkUid newT sfx)) :=
    objLookup_objSet_self _ _ _
  have hisSome : (objLookup "uid" (objSet "uid" (.str (mkUid newT sfx))
      (dictUpdate preFields p))).isSome = true := by
    rw [huidM2]
    rfl
  have huidE : objLookup "uid" (flattenItemParts (objSet "uid" (.str (mkUid newT sfx))
      (dictUpdate preFields p))).2.2.2 = some (.str (mkUid newT sfx)) := by
    rw [flattenItemParts_erased]
    exact objLookup_topErase_str _ _ _ hndM2 (mem_of_objLookup_eq_some huidM2)
  obtain ⟨st1, tbl1, hens, hlook1, hrows1, hstrict1, hdisc1, hsch1, hothers1⟩ :=
    ensureTable_ok_self (deleteRow st oldT itemId) newT
      (flattenItemParts (objSet "uid" (.str (mkUid newT sfx))
        (dictUpdate preFields p))).1
      (((flattenItemParts (objSet "uid" (.str (mkUid newT sfx))
        (dictUpdate preFields p))).2.2.1).map Prod.fst)
      (.obj (flattenItemParts (objSet "uid" (.str (mkUid newT sfx))
        (dictUpdate preFields p))).2.2.2)
      (by rw [deleteRow_schemas]; exact hschB)
  have hdisc2' : objLookup (deleteRow st oldT itemId).disc
      (objSet "uid" (.str (mkUid newT sfx)) (dictUpdate preFields p)) =
      some (.str newT) := by
    rw [deleteRow_disc]
    exact hdiscM2
  have hval' : validateItemSchema (deleteRow st oldT itemId) newT
      (.obj (flattenItemParts (objSet "uid" (.str (mkUid newT sfx))
        (dictUpdate preFields p))).2.2.2) = [] := by
    unfold validateItemSchema
    rw [deleteRow_schemas, hschB]
  have hins := insert_spec_uid (deleteRow st oldT itemId) u
    (objSet "uid" (.str (mkUid newT sfx)) (dictUpdate preFields p)) newT
    (mkUid newT sfx) hdisc2' hisSome hval' huidE st1 hens
  have hstr : isStrEq (.str newT) oldT = false := by
    simp [isStrEq, hneT]
  have hupd : update st u itemId p =
      ((insert (deleteRow st oldT itemId) u (.obj (objSet "uid"
          (.str (mkUid newT sfx)) (dictUpdate preFields p)))).1,
       (insert (deleteRow st oldT itemId) u (.obj (objSet "uid"
          (.str (mkUid newT sfx)) (dictUpdate preFields p)))).2.1, []) := by
    simp only [update, hget0, hpredisc, hpv, hstr, Bool.false_eq_true, if_false, hpart]
  rw [hupd, hins]
  have hneOld : oldT ≠ newT := fun he => hneT he.symm
  refine ⟨rfl, ?_, ?_⟩
  · have hlookOld : tablesLookup oldT (addRow st1 newT
        ((flattenItemParts (objSet "uid" (.str (mkUid newT sfx))
          (dictUpdate preFields p))).1.zip
         (flattenItemParts (objSet "uid" (.str (mkUid newT sfx))
          (dictUpdate preFields p))).2.1)).tables =
        tablesLookup oldT st1.tables :=
      addRow_lookup_ne st1 newT _ oldT hneOld
    rw [show ((Except.ok (mkUid newT sfx),
        addRow st1 newT ((flattenItemParts (objSet "uid" (.str (mkUid newT sfx))
          (dictUpdate preFields p))).1.zip
         (flattenItemParts (objSet "uid" (.str (mkUid newT sfx))
          (dictUpdate preFields p))).2.1),
        JVal.obj (objSet "uid" (.str (mkUid newT sfx)) (dictUpdate preFields p))) :
        Except String String × Store × JVal).2.1 =
        addRow st1 newT ((flattenItemParts (objSet "uid" (.str (mkUid newT sfx))
          (dictUpdate preFields p))).1.zip
         (flattenItemParts (objSet "uid" (.str (mkUid newT sfx))
          (dictUpdate preFields p))).2.1) from rfl,
      hlookOld, hothers1 oldT hneOld, deleteRow_lookup_self st oldT itemId tbl htab]
    refine ⟨_, rfl, ?_⟩
    intro r hr
    have h1 := List.mem_filter.1 hr
    have h2 : (!uidMatches r itemId) = true := h1.2
    rw [Bool.not_eq_true'] at h2
    exact h2
  · refine ⟨⟨tbl1.cols, tbl1.rows ++
      [(flattenItemParts (objSet "uid" (.str (mkUid newT sfx))
        (dictUpdate preFields p))).1.zip
       (flattenItemParts (objSet "uid" (.str (mkUid newT sfx))
        (dictUpdate preFields p))).2.1]⟩,
      addRow_lookup_self st1 newT _ tbl1 hlook1, ?_⟩
    rw [← flattenItemParts_zip]
    exact List.mem_append_right _ (List.mem_singleton.2 rfl)

/-- C4 witness: updating `x--1` with `{"type": "y"}` moves the row to
table `y` under uid `y--1`. -/
theorem claim_C4_witness :
    (update ⟨false, "type", fun _ => none,
      [("x", ⟨["uid", "type", "a"],
        [[("uid", JVal.str "x--1"), ("type", JVal.str "x"), ("a", JVal.int 1)]]⟩)]⟩
      "u" "x--1" [("type", JVal.str "y")]).1 = .ok "y--1" ∧
    (∃ tblA, tablesLookup "x" (update ⟨false, "type", fun _ => none,
        [("x", ⟨["uid", "type", "a"],
          [[("uid", JVal.str "x--1"), ("type", JVal.str "x"), ("a", JVal.int 1)]]⟩)]⟩
        "u" "x--1" [("type", JVal.str "y")]).2.1.tables = some tblA ∧
      ∀ r ∈ tblA.rows, uidMatches r "x--1" = false) ∧
    (∃ tblB, tablesLookup "y" (update ⟨false, "type", fun _ => none,
        [("x", ⟨["uid", "type", "a"],
          [[("uid", JVal.str "x--1"), ("type", JVal.str "x"), ("a", JVal.int 1)]]⟩)]⟩
        "u" "x--1" [("type", JVal.str "y")]).2.1.tables = some tblB ∧
      (flattenItemParts (objSet "uid" (.str "y--1")
        (dictUpdate [("uid", JVal.str "x--1"), ("type", JVal.str "x"), ("a", JVal.int 1)]
          [("type", JVal.str "y")]))).2.2.1 ∈ tblB.rows) :=
  claim_C4_type_change_update ⟨false, "type", fun _ => none,
      [("x", ⟨["uid", "type", "a"],
        [[("uid", JVal.str "x--1"), ("type", JVal.str "x"), ("a", JVal.int 1)]]⟩)]⟩
    "u" "x--1" "x" "y" "1" [("type", JVal.str "y")]
    [("uid", JVal.str "x--1"), ("type", JVal.str "x"), ("a", JVal.int 1)]
    ⟨["uid", "type", "a"],
      [[("uid", JVal.str "x--1"), ("type", JVal.str "x"), ("a", JVal.int 1)]]⟩
    (by decide) rfl rfl rfl rfl (by decide) (by decide) (by decide) (by decide) rfl

end Claims7

section Claims8

open JVal JStore FStore

/-- C1 counterexample: inserting `{"type": "x", "a.b": 1}` and reading the
returned uid back yields `{"uid": …, "type": "x", "a": {"b": 1}}` — the
dotted key came back as nesting, so the result is not the original record
modulo erasure plus the uid field. -/
theorem claim_C1_counterexample :
    (insert ⟨false, "type", fun _ => none, []⟩ "1"
      (.obj [("type", JVal.str "x"), ("a.b", JVal.int 1)])).1 = .ok "x--1" ∧
    getItem (insert ⟨false, "type", fun _ => none, []⟩ "1"
      (.obj [("type", JVal.str "x"), ("a.b", JVal.int 1)])).2.1 "x--1" =
      some (.obj [("uid", JVal.str "x--1"), ("type", JVal.str "x"),
        ("a", .obj [("b", JVal.int 1)])]) ∧
    pyEq (.obj [("uid", JVal.str "x--1"), ("type", JVal.str "x"),
        ("a", .obj [("b", JVal.int 1)])])
      (.obj (eraseObj ([("type", JVal.str "x"), ("a.b", JVal.int 1)] ++
        [("uid", JVal.str "x--1")]))) = false :=
  ⟨rfl, rfl, by decide⟩

end Claims8
